import Mathlib

/-!
ObjectPool: a shallow embedding of `include/ObjectPool/ObjectPool.hpp`

The C++ class `Utils::ObjectPool<T>` and its nested handle type `Ptr` are
translated into pure functions over an explicit heap.

Modelling conventions.

* The free store is a pair of growing tables, one for the `T` objects made by
  `new T()` and one for the `uint32_t` counters made by `new uint32_t()`.  An
  address is an index into its table, `new` always returns a fresh address, and
  `delete` turns the cell into `none`.
* Undefined behaviour (dereferencing a null pointer, touching a deleted cell,
  indexing a `std::vector` out of bounds) makes an operation return `none`.
* `size_t` is 64 bits wide.  `next_power_of_two` and the computation of the mask
  wrap modulo `2 ^ 64` exactly as the source does.  The two ring cursors, the
  fill index and the reference counters only ever move by one per operation;
  they are kept as natural numbers, so a cursor is taken not to reach `2 ^ 64`
  and a counter not to reach `2 ^ 31` (the range of `get_ref_count`).
* `T(args...)` is represented by the value `v : T` it constructs, and `T()` by
  `default`.
-/

namespace Utils

/-- Modulus of `size_t` arithmetic. -/
def SIZE_MOD : Nat := 2 ^ 64

/-- Largest `uint32_t`, the value a counter holding zero wraps to on `--`. -/
def UINT32_MAX : Nat := 4294967295

/-! ## The free store -/

/-- Free store.  `objs[a]` is the object at address `a`, `cnts[c]` the counter at
address `c`; `none` marks a deleted cell. -/
structure Heap (T : Type) where
  objs : List (Option T)
  cnts : List (Option Nat)
deriving DecidableEq, Repr

/-- Free store with nothing allocated. -/
def Heap.empty {T : Type} : Heap T := ⟨[], []⟩

/-- Object stored at address `a`, `none` when the address is not live. -/
def Heap.obj {T : Type} (h : Heap T) (a : Nat) : Option T := h.objs.getD a none

/-- Counter stored at address `c`, `none` when the address is not live. -/
def Heap.cnt {T : Type} (h : Heap T) (c : Nat) : Option Nat := h.cnts.getD c none

/-- Expression `new T()`: a fresh value-initialised object. -/
def Heap.new_obj {T : Type} [Inhabited T] (h : Heap T) : Nat × Heap T :=
  (h.objs.length, { h with objs := h.objs ++ [some default] })

/-- Expression `new uint32_t()`: a fresh counter holding zero. -/
def Heap.new_cnt {T : Type} (h : Heap T) : Nat × Heap T :=
  (h.cnts.length, { h with cnts := h.cnts ++ [some 0] })

/-- Store through a counter pointer known to be live. -/
def Heap.set_cnt {T : Type} (h : Heap T) (c : Nat) (n : Option Nat) : Heap T :=
  { h with cnts := h.cnts.set c n }

/-- Store through an object pointer known to be live. -/
def Heap.set_obj {T : Type} (h : Heap T) (a : Nat) (v : Option T) : Heap T :=
  { h with objs := h.objs.set a v }

/-! ## `ObjectPool<T>::Ptr` -/

/-- Handle `Ptr`: the object pointer `_m_ptr` and the counter pointer
`_m_ref_count`; `none` is `nullptr`. -/
structure Ptr where
  _m_ptr : Option Nat
  _m_ref_count : Option Nat
deriving DecidableEq, Repr

namespace Ptr

/-- Default constructor `Ptr()`: both pointers null. -/
def null : Ptr := ⟨none, none⟩

/-- Constructor `explicit Ptr(T* __t_ptr)`: allocates a counter holding zero and
increments it when the object pointer is not null. -/
def from_raw {T : Type} (t_ptr : Option Nat) (h : Heap T) : Ptr × Heap T :=
  let (c, h1) := h.new_cnt
  match t_ptr with
  | none => (⟨none, some c⟩, h1)
  | some a => (⟨some a, some c⟩, h1.set_cnt c (some 1))

/-- Member `get()`. -/
def get (p : Ptr) : Option Nat := p._m_ptr

/-- Member `get_ref_count()`: reads through `_m_ref_count`. -/
def get_ref_count {T : Type} (p : Ptr) (h : Heap T) : Option Nat :=
  match p._m_ref_count with
  | none => none
  | some c => h.cnt c

/-- Destructor `~Ptr()`.  A null `_m_ptr` does nothing; otherwise the counter is
decremented and, on reaching zero, object and counter are deleted.  The members
of the destroyed handle are left as they were. -/
def dtor {T : Type} (p : Ptr) (h : Heap T) : Option (Heap T) :=
  match p._m_ptr with
  | none => some h
  | some a =>
    match p._m_ref_count with
    | none => none
    | some c =>
      match h.cnt c with
      | none => none
      | some n =>
        let n1 := if n = 0 then UINT32_MAX else n - 1
        let h1 := h.set_cnt c (some n1)
        if n1 = 0 then
          match h1.obj a with
          | none => none
          | some _ => some ((h1.set_obj a none).set_cnt c none)
        else some h1

/-- Copy constructor `Ptr(const Ptr&)`: increments the counter of the source
through its `_m_ref_count` (no null check) and aliases it. -/
def copy_ctor {T : Type} (src : Ptr) (h : Heap T) : Option (Ptr × Heap T) :=
  match src._m_ref_count with
  | none => none
  | some c =>
    match h.cnt c with
    | none => none
    | some n => some (⟨src._m_ptr, src._m_ref_count⟩, h.set_cnt c (some (n + 1)))

/-- Copy assignment `operator=(const Ptr&)`: the same stores as the copy
constructor; the previous members of the destination `dst` are overwritten and
its old counter is not touched. -/
def copy_assign {T : Type} (_dst src : Ptr) (h : Heap T) : Option (Ptr × Heap T) :=
  match src._m_ref_count with
  | none => none
  | some c =>
    match h.cnt c with
    | none => none
    | some n => some (⟨src._m_ptr, src._m_ref_count⟩, h.set_cnt c (some (n + 1)))

/-- Move constructor `Ptr(Ptr&&)`: returns the new handle and the source as it is
left behind. -/
def move_ctor (src : Ptr) : Ptr × Ptr := (⟨src._m_ptr, src._m_ref_count⟩, null)

/-- Move assignment `operator=(Ptr&&)`: returns the destination and the source as
they are left behind; the previous members of the destination are overwritten.
When both are the same object, the stores to the source come last. -/
def move_assign (_dst src : Ptr) : Ptr × Ptr := (⟨src._m_ptr, src._m_ref_count⟩, null)

/-- Member `construct(args...)`: placement-new of the value `v` at `_m_ptr`. -/
def construct {T : Type} (p : Ptr) (v : T) (h : Heap T) : Option (Heap T) :=
  match p._m_ptr with
  | none => none
  | some a =>
    match h.obj a with
    | none => none
    | some _ => some (h.set_obj a (some v))

end Ptr

/-! ## `ObjectPool<T>` -/

/-- Data members of `ObjectPool<T>`. -/
structure ObjectPool where
  _m_grow_size : Nat
  _m_vector_size : Nat
  _m_mask : Nat
  _m_first_full_slot : Nat
  _m_first_empty_slot : Nat
  _m_used_object_fill_index : Nat
  _m_allocated_objects : List Ptr
  _m_used_objects : List Ptr
deriving DecidableEq, Repr

namespace ObjectPool

/-- Static member `next_power_of_two`, in 64-bit `size_t` arithmetic. -/
def next_power_of_two (val : Nat) : Nat :=
  let v := (val + (SIZE_MOD - 1)) % SIZE_MOD
  let v := v ||| (v >>> 1)
  let v := v ||| (v >>> 2)
  let v := v ||| (v >>> 4)
  let v := v ||| (v >>> 8)
  let v := v ||| (v >>> 16)
  (v + 1) % SIZE_MOD

/-- Statement `vec[i] = std::move(vec[j])` on one vector, `i` and `j` possibly
equal: element `i` takes the members of element `j`, then element `j` is
nulled. -/
def move_within (vec : List Ptr) (i j : Nat) : Option (List Ptr) :=
  match vec[j]? with
  | none => none
  | some q => if i < vec.length then some ((vec.set i q).set j Ptr.null) else none

/-- Call `vec.resize(vec.size() + k)`: appends `k` default-constructed handles. -/
def resize_by (vec : List Ptr) (k : Nat) : List Ptr := vec ++ List.replicate k Ptr.null

/-- The `for` loop of `replenish`: `n` times, make a fresh object, wrap it in a
handle and move that into ring position `_m_first_empty_slot & _m_mask`. -/
def replenish_loop {T : Type} [Inhabited T] :
    Nat → ObjectPool → Heap T → Option (ObjectPool × Heap T)
  | 0, s, h => some (s, h)
  | n + 1, s, h =>
    let (a, h1) := h.new_obj
    let (p, h2) := Ptr.from_raw (some a) h1
    let idx := s._m_first_empty_slot &&& s._m_mask
    if idx < s._m_allocated_objects.length then
      replenish_loop n
        { s with _m_allocated_objects := s._m_allocated_objects.set idx p
                 _m_first_empty_slot := s._m_first_empty_slot + 1 } h2
    else none

/-- Member `replenish(__num_objects)`. -/
def replenish {T : Type} [Inhabited T] (num_objects : Nat) (s : ObjectPool) (h : Heap T) :
    Option (ObjectPool × Heap T) :=
  match replenish_loop num_objects s h with
  | none => none
  | some (s1, h1) =>
    let size := s1._m_used_objects.length
    let t_free_slots :=
      if s1._m_used_object_fill_index ≤ size then size - s1._m_used_object_fill_index
      else size + SIZE_MOD - s1._m_used_object_fill_index
    if t_free_slots < num_objects then
      some ({ s1 with _m_used_objects :=
                resize_by s1._m_used_objects (num_objects - t_free_slots) }, h1)
    else some (s1, h1)

/-- Constructor `ObjectPool(__init_capacity, __grow_size)`. -/
def ctor {T : Type} [Inhabited T] (init_capacity grow_size : Nat) (h : Heap T) :
    Option (ObjectPool × Heap T) :=
  let vector_size := next_power_of_two (max init_capacity grow_size)
  replenish init_capacity
    { _m_grow_size := grow_size
      _m_vector_size := vector_size
      _m_mask := (vector_size + (SIZE_MOD - 1)) % SIZE_MOD
      _m_first_full_slot := 0
      _m_first_empty_slot := 0
      _m_used_object_fill_index := 0
      _m_allocated_objects := List.replicate vector_size Ptr.null
      _m_used_objects := List.replicate vector_size Ptr.null } h

/-- Member `allocate(args...)`; returns the handle handed to the caller. -/
def allocate {T : Type} [Inhabited T] (v : T) (s : ObjectPool) (h : Heap T) :
    Option (Ptr × ObjectPool × Heap T) :=
  match (if s._m_first_full_slot = s._m_first_empty_slot
         then replenish s._m_grow_size s h else some (s, h)) with
  | none => none
  | some (s1, h1) =>
    let idx := s1._m_first_full_slot &&& s1._m_mask
    match s1._m_allocated_objects[idx]? with
    | none => none
    | some p =>
      match p.construct v h1 with
      | none => none
      | some h2 =>
        let fill := s1._m_used_object_fill_index
        if fill < s1._m_used_objects.length then
          let s2 := { s1 with _m_used_objects := s1._m_used_objects.set fill p
                              _m_allocated_objects := s1._m_allocated_objects.set idx Ptr.null
                              _m_first_full_slot := s1._m_first_full_slot + 1 }
          match p.copy_ctor h2 with
          | none => none
          | some (r, h3) => some (r, { s2 with _m_used_object_fill_index := fill + 1 }, h3)
        else none

/-- One pass through the body of the `for` loop of `gc` at index `t_id`, for an
entry that is not live: recycle it into the ring or destroy it, then move the
last used entry into its place. -/
def gc_reclaim {T : Type} (t_id : Nat) (p : Ptr) (s : ObjectPool) (h : Heap T) :
    Option (ObjectPool × Heap T) :=
  let r : Option (ObjectPool × Heap T) :=
    if s._m_first_full_slot + s._m_vector_size > s._m_first_empty_slot then
      let idx := s._m_first_empty_slot &&& s._m_mask
      if idx < s._m_allocated_objects.length then
        some ({ s with _m_allocated_objects := s._m_allocated_objects.set idx p
                       _m_used_objects := s._m_used_objects.set t_id Ptr.null
                       _m_first_empty_slot := s._m_first_empty_slot + 1 }, h)
      else none
    else
      match p.dtor h with
      | none => none
      | some h1 => some (s, h1)
  match r with
  | none => none
  | some (s1, h1) =>
    let last := s1._m_used_object_fill_index - 1
    match move_within s1._m_used_objects t_id last with
    | none => none
    | some used => some ({ s1 with _m_used_objects := used
                                   _m_used_object_fill_index := last }, h1)

/-- The `for` loop of `gc` from index `t_id` on.  Every pass advances `t_id` or
lowers the fill index, so `fuel` bounds the number of passes; running out of it
with entries left gives `none`. -/
def gc_loop {T : Type} : Nat → Nat → ObjectPool → Heap T → Option (ObjectPool × Heap T)
  | 0, t_id, s, h => if t_id < s._m_used_object_fill_index then none else some (s, h)
  | fuel + 1, t_id, s, h =>
    if t_id < s._m_used_object_fill_index then
      match s._m_used_objects[t_id]? with
      | none => none
      | some p =>
        match p.get_ref_count h with
        | none => none
        | some rc =>
          if rc > 1 then gc_loop fuel (t_id + 1) s h
          else
            match gc_reclaim t_id p s h with
            | none => none
            | some (s1, h1) => gc_loop fuel t_id s1 h1
    else some (s, h)

/-- Member `gc()`. -/
def gc {T : Type} (s : ObjectPool) (h : Heap T) : Option (ObjectPool × Heap T) :=
  gc_loop s._m_used_object_fill_index 0 s h

/-- Handles waiting in the ring, oldest first: the entries at the positions
`(_m_first_full_slot + i) & _m_mask` for `i` below
`_m_first_empty_slot - _m_first_full_slot`. -/
def ring_contents (s : ObjectPool) : List Ptr :=
  (List.range (s._m_first_empty_slot - s._m_first_full_slot)).map fun i =>
    s._m_allocated_objects.getD ((s._m_first_full_slot + i) &&& s._m_mask) Ptr.null

/-- Entries of the used-object table below the fill index. -/
def active_table (s : ObjectPool) : List Ptr :=
  s._m_used_objects.take s._m_used_object_fill_index

/-- Handle stored at a position of the pool: `(true, i)` is entry `i` of
`_m_allocated_objects`, `(false, j)` is entry `j` of `_m_used_objects`. -/
def handle_at (s : ObjectPool) : Bool × Nat → Option Ptr
  | (true, i) => s._m_allocated_objects[i]?
  | (false, j) => s._m_used_objects[j]?

/-- Successive calls `allocate(v)` for the values of a list, with the handles
they return in call order. -/
def allocate_list {T : Type} [Inhabited T] :
    List T → ObjectPool → Heap T → Option (List Ptr × ObjectPool × Heap T)
  | [], s, h => some ([], s, h)
  | v :: vs, s, h =>
    match allocate v s h with
    | none => none
    | some (r, s1, h1) =>
      match allocate_list vs s1 h1 with
      | none => none
      | some (rs, s2, h2) => some (r :: rs, s2, h2)

/-- Order in which the entries `a_0, a_1, ..., a_(n-1)` of a used-object table
come back: `a_0, a_(n-1), ..., a_1`. -/
def recycle_order : List Ptr → List Ptr
  | [] => []
  | x :: bs => x :: bs.reverse

end ObjectPool

/-! ## Callers -/

/-- A pool, the free store it lives in, and the handles its callers hold. -/
structure World (T : Type) where
  pool : ObjectPool
  heap : Heap T
  held : List Ptr
deriving DecidableEq, Repr

/-- What can happen to a pool: a caller allocates and keeps the returned handle,
calls `gc`, copy-constructs a handle from one it holds, or destroys one it
holds. -/
inductive Action (T : Type) where
  | allocate (v : T)
  | gc
  | copy (p : Ptr)
  | drop (p : Ptr)
deriving DecidableEq, Repr

/-- Effect of one action; `none` when the action runs into undefined
behaviour or names a handle the caller does not hold. -/
def World.step {T : Type} [Inhabited T] : Action T → World T → Option (World T)
  | Action.allocate v, w =>
    match ObjectPool.allocate v w.pool w.heap with
    | none => none
    | some (r, s, h) => some ⟨s, h, r :: w.held⟩
  | Action.gc, w =>
    match ObjectPool.gc w.pool w.heap with
    | none => none
    | some (s, h) => some ⟨s, h, w.held⟩
  | Action.copy p, w =>
    if p ∈ w.held then
      match p.copy_ctor w.heap with
      | none => none
      | some (r, h) => some ⟨w.pool, h, r :: w.held⟩
    else none
  | Action.drop p, w =>
    if p ∈ w.held then
      match p.dtor w.heap with
      | none => none
      | some h => some ⟨w.pool, h, w.held.erase p⟩
    else none

/-- Effect of a sequence of actions, first to last. -/
def World.run {T : Type} [Inhabited T] : List (Action T) → World T → Option (World T)
  | [], w => some w
  | a :: as, w =>
    match World.step a w with
    | none => none
    | some w1 => World.run as w1

/-- States of a pool built by `ObjectPool(init_capacity, grow_size)` on an empty
free store and then driven by any sequence of actions. -/
inductive Reachable {T : Type} [Inhabited T] (init_capacity grow_size : Nat) : World T → Prop where
  | ctor {s : ObjectPool} {h : Heap T} :
      ObjectPool.ctor init_capacity grow_size Heap.empty = some (s, h) →
      Reachable init_capacity grow_size ⟨s, h, []⟩
  | step {w w1 : World T} (a : Action T) :
      Reachable init_capacity grow_size w → World.step a w = some w1 →
      Reachable init_capacity grow_size w1

/-! ## Invariants -/

/-- Reference accounting.  Every handle stored in the pool is null or owns a live
object and a live counter; the counter equals one (the pool's own reference)
plus the number of copies callers hold; no two stored handles share an object or
a counter; every handle a caller holds is a copy of an entry of the used-object
table. -/
structure Accounted {T : Type} (tab : Bool × Nat → Option Ptr) (h : Heap T)
    (held : List Ptr) : Prop where
  shape : ∀ x p, tab x = some p → p = Ptr.null ∨ ∃ a c, p = ⟨some a, some c⟩
  live : ∀ x a c, tab x = some ⟨some a, some c⟩ →
    (∃ v, h.obj a = some v) ∧ h.cnt c = some (1 + held.count ⟨some a, some c⟩)
  distinct : ∀ x y a c a1 c1, tab x = some ⟨some a, some c⟩ →
    tab y = some ⟨some a1, some c1⟩ → (a = a1 ∨ c = c1) → x = y
  held_used : ∀ p, p ∈ held → ∃ j a c, p = ⟨some a, some c⟩ ∧ tab (false, j) = some p

/-- Shape of the used-object table: the entries below the fill index own a slot,
the entries from the fill index on are null. -/
structure FillOk (s : ObjectPool) : Prop where
  fill_le : s._m_used_object_fill_index ≤ s._m_used_objects.length
  below : ∀ j, j < s._m_used_object_fill_index →
    ∃ a c, s._m_used_objects[j]? = some ⟨some a, some c⟩
  above : ∀ j p, s._m_used_object_fill_index ≤ j → s._m_used_objects[j]? = some p →
    p = Ptr.null

/-- Shape of the ring: the capacity is a power of two with its mask, the cursors
are ordered and at most one capacity apart, every position between them holds a
handle that owns a slot, every other position holds a null handle, and the
used-object table has room for all handles of the ring. -/
structure RingOk (s : ObjectPool) : Prop where
  pow2 : ∃ k, s._m_vector_size = 2 ^ k
  mask : s._m_mask = s._m_vector_size - 1
  len : s._m_allocated_objects.length = s._m_vector_size
  order : s._m_first_full_slot ≤ s._m_first_empty_slot
  bound : s._m_first_empty_slot - s._m_first_full_slot ≤ s._m_vector_size
  ring : ∀ c, s._m_first_full_slot ≤ c → c < s._m_first_empty_slot →
    ∃ a cc, s._m_allocated_objects[c &&& s._m_mask]? = some ⟨some a, some cc⟩
  outside : ∀ i, i < s._m_vector_size →
    (∀ c, s._m_first_full_slot ≤ c → c < s._m_first_empty_slot → c &&& s._m_mask ≠ i) →
    s._m_allocated_objects[i]? = some Ptr.null
  room : (s._m_first_empty_slot - s._m_first_full_slot) + s._m_used_object_fill_index
    ≤ s._m_used_objects.length
  grow : s._m_grow_size ≤ s._m_vector_size

/-- What the constructor fixes for every pair of arguments: the ring has
`_m_vector_size` entries, the mask is `_m_vector_size - 1` in `size_t`
arithmetic, and a pool of capacity zero never has a used entry. -/
structure MaskOk (s : ObjectPool) : Prop where
  len : s._m_allocated_objects.length = s._m_vector_size
  mask : s._m_mask = (s._m_vector_size + (SIZE_MOD - 1)) % SIZE_MOD
  lt : s._m_vector_size < SIZE_MOD
  unused : s._m_vector_size = 0 → s._m_used_object_fill_index = 0

/-- The invariant of every reachable state, whatever the constructor arguments. -/
structure Inv {T : Type} (w : World T) : Prop where
  acc : Accounted w.pool.handle_at w.heap w.held
  fill : FillOk w.pool
  mask : MaskOk w.pool

/-- Test `get_ref_count() > 1` of `gc`, as a boolean; false on a handle whose
counter cannot be read. -/
def is_live {T : Type} (h : Heap T) (p : Ptr) : Bool :=
  match p.get_ref_count h with
  | none => false
  | some rc => decide (rc > 1)

/-- The slot of handle `p` has been destroyed: its object and its counter are
deleted. -/
def released {T : Type} (h : Heap T) (p : Ptr) : Prop :=
  ∃ a c, p = ⟨some a, some c⟩ ∧ h.obj a = none ∧ h.cnt c = none

/-- Handle to the slot made by the `n`-th `new T()` on a free store that only
holds slots: object and counter of that slot both have address `n`. -/
def slot (n : Nat) : Ptr := ⟨some n, some n⟩

/-! ## Example states: the run of the test `ShouldReuseUnusedObjects` -/

/-- A state of `ObjectPool<int>(4, 2)`. -/
def test_world (full empty fill : Nat) (ring used : List Ptr) (objs : List Int)
    (cnts : List Nat) (held : List Ptr) : World Int :=
  ⟨⟨2, 4, 3, full, empty, fill, ring, used⟩, ⟨objs.map some, cnts.map some⟩, held⟩

/-- After `ObjectPool<int> memory_pool(4, 2)`. -/
def test_state_0 : World Int :=
  test_world 0 4 0 [slot 0, slot 1, slot 2, slot 3] [Ptr.null, Ptr.null, Ptr.null, Ptr.null]
    [0, 0, 0, 0] [1, 1, 1, 1] []

/-- After `allocate(0)`, the caller holding the handle. -/
def test_state_1 : World Int :=
  test_world 1 4 1 [Ptr.null, slot 1, slot 2, slot 3] [slot 0, Ptr.null, Ptr.null, Ptr.null]
    [0, 0, 0, 0] [2, 1, 1, 1] [slot 0]

/-- After the handle went out of scope. -/
def test_state_2 : World Int :=
  test_world 1 4 1 [Ptr.null, slot 1, slot 2, slot 3] [slot 0, Ptr.null, Ptr.null, Ptr.null]
    [0, 0, 0, 0] [1, 1, 1, 1] []

/-- After `allocate(1)`. -/
def test_state_3 : World Int :=
  test_world 2 4 2 [Ptr.null, Ptr.null, slot 2, slot 3] [slot 0, slot 1, Ptr.null, Ptr.null]
    [0, 1, 0, 0] [1, 2, 1, 1] [slot 1]

/-- After its handle went out of scope. -/
def test_state_4 : World Int :=
  test_world 2 4 2 [Ptr.null, Ptr.null, slot 2, slot 3] [slot 0, slot 1, Ptr.null, Ptr.null]
    [0, 1, 0, 0] [1, 1, 1, 1] []

/-- After `allocate(2)`. -/
def test_state_5 : World Int :=
  test_world 3 4 3 [Ptr.null, Ptr.null, Ptr.null, slot 3] [slot 0, slot 1, slot 2, Ptr.null]
    [0, 1, 2, 0] [1, 1, 2, 1] [slot 2]

/-- After its handle went out of scope. -/
def test_state_6 : World Int :=
  test_world 3 4 3 [Ptr.null, Ptr.null, Ptr.null, slot 3] [slot 0, slot 1, slot 2, Ptr.null]
    [0, 1, 2, 0] [1, 1, 1, 1] []

/-- After `allocate(3)`. -/
def test_state_7 : World Int :=
  test_world 4 4 4 [Ptr.null, Ptr.null, Ptr.null, Ptr.null] [slot 0, slot 1, slot 2, slot 3]
    [0, 1, 2, 3] [1, 1, 1, 2] [slot 3]

/-- After its handle went out of scope: four used entries, all dead, ring empty. -/
def test_state_8 : World Int :=
  test_world 4 4 4 [Ptr.null, Ptr.null, Ptr.null, Ptr.null] [slot 0, slot 1, slot 2, slot 3]
    [0, 1, 2, 3] [1, 1, 1, 1] []

/-- After `memory_pool.gc()`. -/
def test_state_9 : World Int :=
  test_world 4 8 0 [slot 0, slot 3, slot 2, slot 1] [Ptr.null, Ptr.null, Ptr.null, Ptr.null]
    [0, 1, 2, 3] [1, 1, 1, 1] []

/-! ## Programs that only use handles -/

/-- One statement of a program over handle variables; a variable is named by its
number in order of declaration. -/
inductive HandleOp where
  /-- Statement `Ptr x(new T());`. -/
  | from_raw
  /-- Statement `Ptr x;`. -/
  | default_ctor
  /-- Statement `Ptr x(y);`. -/
  | copy_ctor (src : Nat)
  /-- Statement `x = y;`. -/
  | copy_assign (dst src : Nat)
  /-- Statement `Ptr x(std::move(y));`. -/
  | move_ctor (src : Nat)
  /-- Statement `x = std::move(y);`. -/
  | move_assign (dst src : Nat)
  /-- End of the lifetime of `x`. -/
  | destroy (i : Nat)
deriving DecidableEq, Repr

/-- State of such a program: the free store and the handle variables declared so
far, `none` for a variable whose lifetime has ended. -/
structure Handles (T : Type) where
  heap : Heap T
  vars : List (Option Ptr)
deriving DecidableEq, Repr

namespace Handles

/-- Nothing allocated, nothing declared. -/
def empty {T : Type} : Handles T := ⟨Heap.empty, []⟩

/-- Value of variable `i`, `none` when it is not declared or no longer alive. -/
def var {T : Type} (st : Handles T) (i : Nat) : Option Ptr := st.vars.getD i none

/-- Effect of one statement; `none` on undefined behaviour, which includes the
use of a variable that is not alive. -/
def step {T : Type} [Inhabited T] : HandleOp → Handles T → Option (Handles T)
  | HandleOp.from_raw, st =>
    let (a, h1) := st.heap.new_obj
    let (p, h2) := Ptr.from_raw (some a) h1
    some ⟨h2, st.vars ++ [some p]⟩
  | HandleOp.default_ctor, st => some ⟨st.heap, st.vars ++ [some Ptr.null]⟩
  | HandleOp.copy_ctor src, st =>
    match st.var src with
    | none => none
    | some p =>
      match p.copy_ctor st.heap with
      | none => none
      | some (q, h1) => some ⟨h1, st.vars ++ [some q]⟩
  | HandleOp.copy_assign dst src, st =>
    match st.var dst, st.var src with
    | some d, some p =>
      match Ptr.copy_assign d p st.heap with
      | none => none
      | some (q, h1) => some ⟨h1, st.vars.set dst (some q)⟩
    | _, _ => none
  | HandleOp.move_ctor src, st =>
    match st.var src with
    | none => none
    | some p =>
      let (q, p1) := Ptr.move_ctor p
      some ⟨st.heap, st.vars.set src (some p1) ++ [some q]⟩
  | HandleOp.move_assign dst src, st =>
    match st.var dst, st.var src with
    | some d, some p =>
      let (q, p1) := Ptr.move_assign d p
      some ⟨st.heap, (st.vars.set dst (some q)).set src (some p1)⟩
    | _, _ => none
  | HandleOp.destroy i, st =>
    match st.var i with
    | none => none
    | some p =>
      match p.dtor st.heap with
      | none => none
      | some h1 => some ⟨h1, st.vars.set i none⟩

/-- Effect of a sequence of statements. -/
def run {T : Type} [Inhabited T] : List HandleOp → Handles T → Option (Handles T)
  | [], st => some st
  | op :: ops, st =>
    match step op st with
    | none => none
    | some st1 => run ops st1

end Handles


/-- The destructor `~Ptr()` run `n` times in a row on the same handle, whose
members it leaves as they are; `none` as soon as one run is undefined. -/
def Ptr.dtor_times {T : Type} (p : Ptr) : Nat → Heap T → Option (Heap T)
  | 0, h => some h
  | n + 1, h =>
    match p.dtor h with
    | none => none
    | some h1 => Ptr.dtor_times p n h1

/-- Number of passes through the body of the `for` loop of `gc` from index
`t_id` on: the recursion of `gc_loop`, counting one for every pass. -/
def ObjectPool.gc_passes {T : Type} : Nat → Nat → ObjectPool → Heap T → Option Nat
  | 0, t_id, s, _ => if t_id < s._m_used_object_fill_index then none else some 0
  | fuel + 1, t_id, s, h =>
    if t_id < s._m_used_object_fill_index then
      match s._m_used_objects[t_id]? with
      | none => none
      | some p =>
        match p.get_ref_count h with
        | none => none
        | some rc =>
          if rc > 1 then (ObjectPool.gc_passes fuel (t_id + 1) s h).map (· + 1)
          else
            match ObjectPool.gc_reclaim t_id p s h with
            | none => none
            | some (s1, h1) => (ObjectPool.gc_passes fuel t_id s1 h1).map (· + 1)
    else some 0

/-- Abstract FIFO queue of handles, `enqueue`: the handle goes to the back. -/
def fifo_enqueue (q : List Ptr) (p : Ptr) : List Ptr := q ++ [p]

/-- Abstract FIFO queue of handles, `dequeue`: the handle at the front and the
queue that remains, `none` on the empty queue. -/
def fifo_dequeue : List Ptr → Option (Ptr × List Ptr)
  | [] => none
  | p :: q => some (p, q)

/-- Handles made by `n` successive `Ptr(new T())` on the free store `h`. -/
def fresh_handles {T : Type} (h : Heap T) (n : Nat) : List Ptr :=
  (List.range n).map fun i => ⟨some (h.objs.length + i), some (h.cnts.length + i)⟩

namespace ObjectPool

/-- One doubling step of the bit smear: if `a` has bit `i` exactly when `x` has a
bit in `[i, i + m)`, then `a ||| a >>> m` has bit `i` exactly when `x` has a bit
in `[i, i + 2 * m)`. -/
theorem smear_step (x a m : Nat)
    (H : ∀ i, a.testBit i = true ↔ ∃ j, j < m ∧ x.testBit (i + j) = true) (i : Nat) :
    (a ||| a >>> m).testBit i = true ↔ ∃ j, j < 2 * m ∧ x.testBit (i + j) = true := by
  rw [Nat.testBit_or, Nat.testBit_shiftRight, Bool.or_eq_true, H, H]
  constructor
  · rintro (⟨j, hj, hb⟩ | ⟨j, hj, hb⟩)
    · exact ⟨j, by omega, hb⟩
    · exact ⟨m + j, by omega, by rw [← hb]; congr 1; omega⟩
  · rintro ⟨j, hj, hb⟩
    by_cases hjm : j < m
    · exact Or.inl ⟨j, hjm, hb⟩
    · exact Or.inr ⟨j - m, by omega, by rw [← hb]; congr 1; omega⟩

/-- The five shift-or steps together look 32 bits ahead. -/
theorem smear_testBit (x i : Nat) :
    (let v := x ||| (x >>> 1)
     let v := v ||| (v >>> 2)
     let v := v ||| (v >>> 4)
     let v := v ||| (v >>> 8)
     v ||| (v >>> 16)).testBit i = true ↔ ∃ j, j < 32 ∧ x.testBit (i + j) = true := by
  have h0 : ∀ i, x.testBit i = true ↔ ∃ j, j < 1 ∧ x.testBit (i + j) = true := by
    intro i
    constructor
    · intro h; exact ⟨0, by omega, h⟩
    · rintro ⟨j, hj, hb⟩
      have : j = 0 := by omega
      subst this; exact hb
  have h1 := smear_step x _ 1 h0
  have h2 := smear_step x _ 2 h1
  have h3 := smear_step x _ 4 h2
  have h4 := smear_step x _ 8 h3
  exact smear_step x _ 16 h4 i

/-- The highest set bit of a positive number is bit `log2`. -/
theorem testBit_log2 (x : Nat) (hx : x ≠ 0) : x.testBit x.log2 = true := by
  obtain ⟨i, hi, hb⟩ := Nat.ge_two_pow_implies_high_bit_true (Nat.log2_self_le hx)
  have h1 : i ≤ x.log2 := (Nat.le_log2 hx).2 (Nat.testBit_implies_ge hb)
  have : i = x.log2 := by omega
  rw [← this]; exact hb

/-- On a positive 32-bit value the smear fills every bit below the highest one. -/
theorem smear_eq (x : Nat) (hx : x ≠ 0) (hlt : x < 2 ^ 32) :
    (let v := x ||| (x >>> 1)
     let v := v ||| (v >>> 2)
     let v := v ||| (v >>> 4)
     let v := v ||| (v >>> 8)
     v ||| (v >>> 16)) = 2 ^ (x.log2 + 1) - 1 := by
  apply Nat.eq_of_testBit_eq
  intro i
  rw [Nat.testBit_two_pow_sub_one, Bool.eq_iff_iff, smear_testBit, decide_eq_true_iff]
  have hl : x.log2 < 32 := (Nat.log2_lt hx).2 hlt
  constructor
  · rintro ⟨j, _, hb⟩
    have := (Nat.le_log2 hx).2 (Nat.testBit_implies_ge hb)
    omega
  · intro hi
    refine ⟨x.log2 - i, by omega, ?_⟩
    have : i + (x.log2 - i) = x.log2 := by omega
    rw [this]; exact testBit_log2 x hx

/-- Value of `next_power_of_two` on `[1, 2 ^ 32]`: an exponent `k ≤ 32` with
`next_power_of_two v = 2 ^ k`, `v ≤ 2 ^ k` and `2 ^ k < 2 * v`. -/
theorem next_power_of_two_spec (v : Nat) (h1 : 1 ≤ v) (h2 : v ≤ 2 ^ 32) :
    ∃ k, k ≤ 32 ∧ next_power_of_two v = 2 ^ k ∧ v ≤ 2 ^ k ∧ 2 ^ k < 2 * v := by
  have hdec : (v + (SIZE_MOD - 1)) % SIZE_MOD = v - 1 := by
    simp only [SIZE_MOD]; omega
  by_cases hv : v = 1
  · subst hv
    exact ⟨0, by omega, by decide, by decide, by decide⟩
  · have hx : v - 1 ≠ 0 := by omega
    have hlt : v - 1 < 2 ^ 32 := by omega
    have hl : (v - 1).log2 < 32 := (Nat.log2_lt hx).2 hlt
    have hle : 2 ^ ((v - 1).log2 + 1) ≤ 2 ^ 32 := Nat.pow_le_pow_right (by omega) (by omega)
    have hpos : 0 < 2 ^ ((v - 1).log2 + 1) := Nat.two_pow_pos _
    refine ⟨(v - 1).log2 + 1, by omega, ?_, ?_, ?_⟩
    · unfold next_power_of_two
      simp only [hdec]
      rw [smear_eq (v - 1) hx hlt]
      simp only [SIZE_MOD]
      omega
    · have := @Nat.lt_log2_self (v - 1)
      omega
    · have := Nat.log2_self_le hx
      rw [Nat.pow_succ]
      omega

end ObjectPool
/-! ## The free store: reading after a store -/

theorem getD_lt_of_some {α : Type} (l : List (Option α)) (i : Nat) (v : α)
    (h : l.getD i none = some v) : i < l.length := by
  by_contra hn
  rw [List.getD_eq_getElem?_getD, List.getElem?_eq_none (by omega)] at h
  simp at h

theorem getD_set_of_lt {α : Type} (l : List (Option α)) (i j : Nat) (x : Option α)
    (hi : i < l.length) : (l.set i x).getD j none = if j = i then x else l.getD j none := by
  simp only [List.getD_eq_getElem?_getD, List.getElem?_set]
  by_cases hji : j = i
  · subst hji; simp [hi]
  · have : ¬ i = j := fun e => hji e.symm
    simp [hji, this]

theorem getD_append_single {α : Type} (l : List (Option α)) (j : Nat) (x : Option α) :
    (l ++ [x]).getD j none = if j = l.length then x else l.getD j none := by
  simp only [List.getD_eq_getElem?_getD]
  by_cases hj : j < l.length
  · rw [List.getElem?_append_left hj]
    have : j ≠ l.length := by omega
    simp [this]
  · rw [List.getElem?_append_right (by omega)]
    by_cases hje : j = l.length
    · subst hje; simp
    · have h1 : [x][j - l.length]? = none := List.getElem?_eq_none (by simp; omega)
      have h2 : l[j]? = none := List.getElem?_eq_none (by omega)
      simp [hje, h1, h2]

namespace Heap

variable {T : Type}

theorem obj_lt (h : Heap T) (a : Nat) (v : T) (e : h.obj a = some v) : a < h.objs.length :=
  getD_lt_of_some _ _ _ e

theorem cnt_lt (h : Heap T) (c n : Nat) (e : h.cnt c = some n) : c < h.cnts.length :=
  getD_lt_of_some _ _ _ e

@[simp] theorem obj_set_cnt (h : Heap T) (c : Nat) (n : Option Nat) (a : Nat) :
    (h.set_cnt c n).obj a = h.obj a := rfl

@[simp] theorem cnt_set_obj (h : Heap T) (a : Nat) (v : Option T) (c : Nat) :
    (h.set_obj a v).cnt c = h.cnt c := rfl

theorem cnt_set_cnt (h : Heap T) (c m : Nat) (n : Option Nat) (k : Nat)
    (e : h.cnt c = some m) : (h.set_cnt c n).cnt k = if k = c then n else h.cnt k :=
  getD_set_of_lt _ _ _ _ (h.cnt_lt c m e)

theorem obj_set_obj (h : Heap T) (a : Nat) (u : T) (v : Option T) (k : Nat)
    (e : h.obj a = some u) : (h.set_obj a v).obj k = if k = a then v else h.obj k :=
  getD_set_of_lt _ _ _ _ (h.obj_lt a u e)

theorem obj_new_obj [Inhabited T] (h : Heap T) (k : Nat) :
    h.new_obj.2.obj k = if k = h.objs.length then some default else h.obj k :=
  getD_append_single _ _ _

@[simp] theorem cnt_new_obj [Inhabited T] (h : Heap T) (k : Nat) :
    h.new_obj.2.cnt k = h.cnt k := rfl

@[simp] theorem fst_new_obj [Inhabited T] (h : Heap T) : h.new_obj.1 = h.objs.length := rfl

@[simp] theorem cnts_new_obj [Inhabited T] (h : Heap T) : h.new_obj.2.cnts = h.cnts := rfl

end Heap

namespace Ptr

variable {T : Type}

/-- Heap after `Ptr(T*)` on a non-null pointer: one more counter, holding one. -/
theorem from_raw_some (a : Nat) (h : Heap T) :
    from_raw (some a) h = (⟨some a, some h.cnts.length⟩,
      ⟨h.objs, h.cnts ++ [some 1]⟩) := by
  simp [from_raw, Heap.new_cnt, Heap.set_cnt]

theorem cnt_from_raw (a : Nat) (h : Heap T) (k : Nat) :
    (from_raw (some a) h).2.cnt k = if k = h.cnts.length then some 1 else h.cnt k := by
  rw [from_raw_some]
  exact getD_append_single _ _ _

theorem obj_from_raw (a : Nat) (h : Heap T) (k : Nat) :
    (from_raw (some a) h).2.obj k = h.obj k := by
  rw [from_raw_some]; rfl

/-- A successful copy construction: the source had a live counter holding `n`,
the new handle has the members of the source and the counter holds `n + 1`. -/
theorem copy_ctor_eq_some (p r : Ptr) (h h1 : Heap T) (e : p.copy_ctor h = some (r, h1)) :
    ∃ c n, p._m_ref_count = some c ∧ h.cnt c = some n ∧ r = p ∧
      h1 = h.set_cnt c (some (n + 1)) := by
  unfold copy_ctor at e
  cases hc : p._m_ref_count with
  | none => simp [hc] at e
  | some c =>
    cases hn : h.cnt c with
    | none => simp [hc, hn] at e
    | some n =>
      simp only [hc, hn, Option.some.injEq, Prod.mk.injEq] at e
      refine ⟨c, n, rfl, hn, ?_, e.2.symm⟩
      rw [← e.1, ← hc]

theorem copy_ctor_of_live (a c n : Nat) (h : Heap T) (e : h.cnt c = some n) :
    (⟨some a, some c⟩ : Ptr).copy_ctor h
      = some (⟨some a, some c⟩, h.set_cnt c (some (n + 1))) := by
  simp [copy_ctor, e]

/-- Destroying a handle whose counter holds `n + 2` only decrements. -/
theorem dtor_shared (a c n : Nat) (h : Heap T) (e : h.cnt c = some (n + 2)) :
    (⟨some a, some c⟩ : Ptr).dtor h = some (h.set_cnt c (some (n + 1))) := by
  simp [dtor, e]

/-- Destroying the last handle of a slot deletes the object and the counter. -/
theorem dtor_last (a c : Nat) (v : T) (h : Heap T) (e : h.cnt c = some 1)
    (eo : h.obj a = some v) :
    (⟨some a, some c⟩ : Ptr).dtor h
      = some (((h.set_cnt c (some 0)).set_obj a none).set_cnt c none) := by
  simp [dtor, e, eo]

theorem construct_of_live (a : Nat) (c : Option Nat) (u v : T) (h : Heap T)
    (eo : h.obj a = some u) :
    (⟨some a, c⟩ : Ptr).construct v h = some (h.set_obj a (some v)) := by
  simp [construct, eo]

theorem construct_eq_some (p : Ptr) (v : T) (h h1 : Heap T) (e : p.construct v h = some h1) :
    ∃ a u, p._m_ptr = some a ∧ h.obj a = some u ∧ h1 = h.set_obj a (some v) := by
  unfold construct at e
  cases ha : p._m_ptr with
  | none => simp [ha] at e
  | some a =>
    cases hu : h.obj a with
    | none => simp [ha, hu] at e
    | some u =>
      simp only [ha, hu, Option.some.injEq] at e
      exact ⟨a, u, rfl, hu, e.symm⟩

end Ptr
/-! ## Reference accounting is kept by every primitive change -/

namespace Accounted

variable {T : Type} {tab : Bool × Nat → Option Ptr} {h : Heap T} {held : List Ptr}

/-- A handle waiting in the ring is not held by any caller. -/
theorem not_held_of_ring (A : Accounted tab h held) (i a c : Nat)
    (e : tab (true, i) = some ⟨some a, some c⟩) : (⟨some a, some c⟩ : Ptr) ∉ held := by
  intro hm
  obtain ⟨j, a1, c1, hp, hj⟩ := A.held_used _ hm
  have := A.distinct _ _ _ _ _ _ e hj (Or.inl rfl)
  simp at this

/-- Addresses owned by a stored handle are below the allocation marks. -/
theorem lt_of_stored (A : Accounted tab h held) (x : Bool × Nat) (a c : Nat)
    (e : tab x = some ⟨some a, some c⟩) : a < h.objs.length ∧ c < h.cnts.length := by
  obtain ⟨⟨v, hv⟩, hc⟩ := A.live x a c e
  exact ⟨h.obj_lt a v hv, h.cnt_lt c _ hc⟩

/-- Storing a handle to a freshly made object and counter into a ring position. -/
theorem fresh [Inhabited T] (A : Accounted tab h held) (i : Nat) :
    Accounted (Function.update tab (true, i) (some ⟨some h.objs.length, some h.cnts.length⟩))
      (Ptr.from_raw (some h.objs.length) h.new_obj.2).2 held := by
  have hobj : ∀ k, (Ptr.from_raw (some h.objs.length) h.new_obj.2).2.obj k
      = if k = h.objs.length then some default else h.obj k := by
    intro k; rw [Ptr.obj_from_raw, Heap.obj_new_obj]
  have hcnt : ∀ k, (Ptr.from_raw (some h.objs.length) h.new_obj.2).2.cnt k
      = if k = h.cnts.length then some 1 else h.cnt k := by
    intro k; rw [Ptr.cnt_from_raw]; rfl
  have hnh : (⟨some h.objs.length, some h.cnts.length⟩ : Ptr) ∉ held := by
    intro hm
    obtain ⟨j, a1, c1, hp, hj⟩ := A.held_used _ hm
    have := (A.lt_of_stored _ _ _ hj).1
    omega
  constructor
  · intro x p hx
    rw [Function.update_apply] at hx
    split at hx
    · right; exact ⟨_, _, (Option.some.inj hx).symm⟩
    · exact A.shape x p hx
  · intro x a c hx
    rw [Function.update_apply] at hx
    rw [hobj, hcnt]
    split at hx
    · have hp := Option.some.inj hx
      simp only [Ptr.mk.injEq, Option.some.injEq] at hp
      obtain ⟨ha, hc⟩ := hp
      subst ha; subst hc
      simp [List.count_eq_zero_of_not_mem hnh]
    · have hl := A.lt_of_stored x a c hx
      have ha : a ≠ h.objs.length := by omega
      have hc : c ≠ h.cnts.length := by omega
      simp only [ha, hc, if_false]
      exact A.live x a c hx
  · intro x y a c a1 c1 hx hy hac
    rw [Function.update_apply] at hx hy
    split at hx <;> split at hy
    · simp_all
    · have hp := Option.some.inj hx
      simp only [Ptr.mk.injEq, Option.some.injEq] at hp
      have hl := A.lt_of_stored y a1 c1 hy
      omega
    · have hp := Option.some.inj hy
      simp only [Ptr.mk.injEq, Option.some.injEq] at hp
      have hl := A.lt_of_stored x a c hx
      omega
    · exact A.distinct x y a c a1 c1 hx hy hac
  · intro p hp
    obtain ⟨j, a, c, e, hj⟩ := A.held_used p hp
    refine ⟨j, a, c, e, ?_⟩
    rw [Function.update_apply]
    simp [hj]

/-- Constructing a value over a live object. -/
theorem construct (A : Accounted tab h held) (a : Nat) (u v : T) (e : h.obj a = some u) :
    Accounted tab (h.set_obj a (some v)) held := by
  refine ⟨A.shape, ?_, A.distinct, A.held_used⟩
  intro x a1 c1 hx
  obtain ⟨⟨w, hw⟩, hc⟩ := A.live x a1 c1 hx
  refine ⟨?_, by simpa using hc⟩
  rw [Heap.obj_set_obj h a u _ a1 e]
  split
  · exact ⟨v, rfl⟩
  · exact ⟨w, hw⟩

/-- Moving a handle from position `src` to position `dst` and nulling `src`.  A
destination in the used-object table must hold a null handle; a destination in
the ring must not receive a handle that callers hold. -/
theorem move (A : Accounted tab h held) (src dst : Bool × Nat) (p : Ptr)
    (hsrc : tab src = some p) (hne : src ≠ dst)
    (hring : dst.1 = true → p ∉ held)
    (hused : dst.1 = false → tab dst = some Ptr.null) :
    Accounted (Function.update (Function.update tab dst (some p)) src (some Ptr.null))
      h held := by
  have key : ∀ x a c, Function.update (Function.update tab dst (some p)) src (some Ptr.null) x
      = some ⟨some a, some c⟩ →
      x ≠ src ∧ ((x = dst ∧ tab src = some ⟨some a, some c⟩) ∨
        (x ≠ dst ∧ tab x = some ⟨some a, some c⟩)) := by
    intro x a c hx
    rw [Function.update_apply] at hx
    split at hx
    · simp [Ptr.null] at hx
    · rename_i hxs
      refine ⟨hxs, ?_⟩
      rw [Function.update_apply] at hx
      split at hx
      · rename_i hxd
        left; exact ⟨hxd, by rw [hsrc, hx]⟩
      · rename_i hxd
        right; exact ⟨hxd, hx⟩
  constructor
  · intro x q hx
    rw [Function.update_apply] at hx
    split at hx
    · left; exact (Option.some.inj hx).symm
    · rw [Function.update_apply] at hx
      split at hx
      · exact A.shape src q (by rw [hsrc, hx])
      · exact A.shape x q hx
  · intro x a c hx
    obtain ⟨_, ⟨_, hs⟩ | ⟨_, hs⟩⟩ := key x a c hx
    · exact A.live src a c hs
    · exact A.live x a c hs
  · intro x y a c a1 c1 hx hy hac
    obtain ⟨hxs, ⟨hxd, hs⟩ | ⟨hxd, hs⟩⟩ := key x a c hx <;>
    obtain ⟨hys, ⟨hyd, ht⟩ | ⟨hyd, ht⟩⟩ := key y a1 c1 hy
    · rw [hxd, hyd]
    · exact absurd (A.distinct src y a c a1 c1 hs ht hac).symm hys
    · exact absurd (A.distinct x src a c a1 c1 hs ht hac) hxs
    · exact A.distinct x y a c a1 c1 hs ht hac
  · intro q hq
    obtain ⟨j, a, c, e, hj⟩ := A.held_used q hq
    by_cases hjs : ((false, j) : Bool × Nat) = src
    · have hqp : q = p := by
        rw [hjs, hsrc] at hj; exact (Option.some.inj hj).symm
      have hd : dst.1 = false := by
        cases hb : dst.1 with
        | false => rfl
        | true => exact absurd (hqp ▸ hq) (hring hb)
      obtain ⟨b, k⟩ := dst
      simp only at hd
      subst hd
      refine ⟨k, a, c, e, ?_⟩
      rw [Function.update_apply, if_neg (fun e1 => hne e1.symm), Function.update_apply,
        if_pos rfl, hqp]
    · by_cases hjd : ((false, j) : Bool × Nat) = dst
      · have := hused (by rw [← hjd])
        rw [← hjd, hj, e] at this
        simp [Ptr.null] at this
      · refine ⟨j, a, c, e, ?_⟩
        rw [Function.update_apply, if_neg hjs, Function.update_apply, if_neg hjd, hj]

/-- A caller copy-constructs from a handle it holds or has just been handed. -/
theorem copy (A : Accounted tab h held) (j a c n : Nat)
    (hj : tab (false, j) = some ⟨some a, some c⟩) (hn : h.cnt c = some n) :
    Accounted tab (h.set_cnt c (some (n + 1))) (⟨some a, some c⟩ :: held) := by
  constructor
  · exact A.shape
  · intro x a1 c1 hx
    obtain ⟨hv, hc⟩ := A.live x a1 c1 hx
    refine ⟨by simpa using hv, ?_⟩
    rw [Heap.cnt_set_cnt h c n _ c1 hn]
    by_cases hcc : c1 = c
    · subst hcc
      have hxe := A.distinct x (false, j) a1 c1 a c1 hx hj (Or.inr rfl)
      subst hxe
      rw [hj] at hx
      have ha : a = a1 := by simpa using hx
      subst ha
      rw [hn] at hc
      simp only [if_true, List.count_cons_self]
      have := Option.some.inj hc
      rw [this]; congr 1
    · simp only [hcc, if_false]
      rw [hc, List.count_cons_of_ne]
      intro he
      simp only [Ptr.mk.injEq, Option.some.injEq] at he
      exact hcc he.2
  · exact A.distinct
  · intro p hp
    rcases List.mem_cons.1 hp with rfl | hp
    · exact ⟨j, a, c, rfl, hj⟩
    · exact A.held_used p hp

/-- A caller destroys a handle it holds. -/
theorem drop (A : Accounted tab h held) (p : Ptr) (hp : p ∈ held) :
    ∃ a c n, p = ⟨some a, some c⟩ ∧ h.cnt c = some (n + 2) ∧
      Accounted tab (h.set_cnt c (some (n + 1))) (held.erase p) := by
  obtain ⟨j, a, c, e, hj⟩ := A.held_used p hp
  subst e
  obtain ⟨hv, hc⟩ := A.live _ a c hj
  have hpos : 0 < held.count ⟨some a, some c⟩ := List.count_pos_iff.2 hp
  refine ⟨a, c, held.count ⟨some a, some c⟩ - 1, rfl, ?_, ?_⟩
  · rw [hc]; congr 1; omega
  constructor
  · exact A.shape
  · intro x a1 c1 hx
    obtain ⟨hv1, hc1⟩ := A.live x a1 c1 hx
    refine ⟨by simpa using hv1, ?_⟩
    rw [Heap.cnt_set_cnt h c _ _ c1 hc]
    by_cases hcc : c1 = c
    · subst hcc
      have hxe := A.distinct x (false, j) a1 c1 a c1 hx hj (Or.inr rfl)
      subst hxe
      rw [hj] at hx
      have ha : a = a1 := by simpa using hx
      subst ha
      simp only [if_true, List.count_erase_self]
      congr 1; omega
    · simp only [hcc, if_false]
      rw [hc1, List.count_erase_of_ne]
      intro he
      simp only [Ptr.mk.injEq, Option.some.injEq] at he
      exact hcc he.2
  · exact A.distinct
  · intro q hq
    exact A.held_used q (List.mem_of_mem_erase hq)

/-- The pool destroys an entry of the used-object table that no caller holds:
object and counter are deleted and the entry is nulled. -/
theorem destroy (A : Accounted tab h held) (t a c : Nat)
    (ht : tab (false, t) = some ⟨some a, some c⟩) (hc : h.cnt c = some 1) :
    Accounted (Function.update tab (false, t) (some Ptr.null))
      (((h.set_cnt c (some 0)).set_obj a none).set_cnt c none) held := by
  obtain ⟨⟨v, hv⟩, hc1⟩ := A.live _ a c ht
  have hcnt : ∀ k, (((h.set_cnt c (some 0)).set_obj a none).set_cnt c none).cnt k
      = if k = c then none else h.cnt k := by
    intro k
    have e1 : (h.set_cnt c (some 0)).cnt c = some 0 := by
      rw [Heap.cnt_set_cnt h c 1 _ c hc]; simp
    rw [Heap.cnt_set_cnt _ c 0 _ k (by simpa using e1)]
    split
    · rfl
    · rename_i hk
      rw [Heap.cnt_set_obj, Heap.cnt_set_cnt h c 1 _ k hc, if_neg hk]
  have hobj : ∀ k, (((h.set_cnt c (some 0)).set_obj a none).set_cnt c none).obj k
      = if k = a then none else h.obj k := by
    intro k
    rw [Heap.obj_set_cnt, Heap.obj_set_obj _ a v _ k (by simpa using hv)]
    rfl
  have hcount : held.count ⟨some a, some c⟩ = 0 := by
    rw [hc] at hc1
    have := Option.some.inj hc1
    omega
  have key : ∀ x a1 c1, Function.update tab (false, t) (some Ptr.null) x
      = some ⟨some a1, some c1⟩ →
      x ≠ (false, t) ∧ tab x = some ⟨some a1, some c1⟩ ∧ a1 ≠ a ∧ c1 ≠ c := by
    intro x a1 c1 hx
    rw [Function.update_apply] at hx
    split at hx
    · simp [Ptr.null] at hx
    · rename_i hxt
      refine ⟨hxt, hx, ?_, ?_⟩
      · intro e
        exact hxt (A.distinct x (false, t) a1 c1 a c hx ht (Or.inl e))
      · intro e
        exact hxt (A.distinct x (false, t) a1 c1 a c hx ht (Or.inr e))
  constructor
  · intro x q hx
    rw [Function.update_apply] at hx
    split at hx
    · left; exact (Option.some.inj hx).symm
    · exact A.shape x q hx
  · intro x a1 c1 hx
    obtain ⟨_, hs, ha, hcc⟩ := key x a1 c1 hx
    rw [hobj, hcnt, if_neg ha, if_neg hcc]
    exact A.live x a1 c1 hs
  · intro x y a1 c1 a2 c2 hx hy hac
    exact A.distinct x y a1 c1 a2 c2 (key x a1 c1 hx).2.1 (key y a2 c2 hy).2.1 hac
  · intro q hq
    obtain ⟨j, a1, c1, e, hj⟩ := A.held_used q hq
    refine ⟨j, a1, c1, e, ?_⟩
    rw [Function.update_apply, if_neg, hj]
    intro hjt
    rw [hjt, ht, e] at hj
    have : (⟨some a, some c⟩ : Ptr) = q := by rw [e]; exact Option.some.inj hj
    rw [← this] at hq
    exact absurd hq (List.count_eq_zero.1 hcount)

/-- Appending null entries to the used-object table, or any other change that
only adds null handles. -/
theorem extend (A : Accounted tab h held) (tab1 : Bool × Nat → Option Ptr)
    (h1 : ∀ x p, tab1 x = some p → p = Ptr.null ∨ tab x = some p)
    (h2 : ∀ j p, tab (false, j) = some p → tab1 (false, j) = some p) :
    Accounted tab1 h held := by
  have key : ∀ x a c, tab1 x = some ⟨some a, some c⟩ → tab x = some ⟨some a, some c⟩ := by
    intro x a c hx
    rcases h1 x _ hx with e | e
    · simp [Ptr.null] at e
    · exact e
  constructor
  · intro x p hx
    rcases h1 x p hx with e | e
    · exact Or.inl e
    · exact A.shape x p e
  · intro x a c hx
    exact A.live x a c (key x a c hx)
  · intro x y a c a1 c1 hx hy
    exact A.distinct x y a c a1 c1 (key x a c hx) (key y a1 c1 hy)
  · intro p hp
    obtain ⟨j, a, c, e, hj⟩ := A.held_used p hp
    exact ⟨j, a, c, e, h2 j p hj⟩

end Accounted
/-! ## Positions of the pool and ring arithmetic -/

namespace ObjectPool

theorem handle_at_false (s : ObjectPool) (j : Nat) :
    s.handle_at (false, j) = s._m_used_objects[j]? := rfl

/-- Table of a pool whose ring got one entry replaced. -/
theorem handle_at_set_alloc (s s1 : ObjectPool) (i : Nat) (p : Ptr)
    (hi : i < s._m_allocated_objects.length)
    (hA : s1._m_allocated_objects = s._m_allocated_objects.set i p)
    (hU : s1._m_used_objects = s._m_used_objects) :
    s1.handle_at = Function.update s.handle_at (true, i) (some p) := by
  funext x
  obtain ⟨b, k⟩ := x
  cases b
  · simp [handle_at, hU, Function.update_apply]
  · simp only [handle_at, hA, Function.update_apply, Prod.mk.injEq, true_and,
      List.getElem?_set]
    by_cases hk : k = i
    · subst hk; simp [hi]
    · have : ¬ i = k := fun e => hk e.symm
      simp [hk, this]

/-- Table of a pool whose used-object table got one entry replaced. -/
theorem handle_at_set_used (s s1 : ObjectPool) (j : Nat) (p : Ptr)
    (hj : j < s._m_used_objects.length)
    (hA : s1._m_allocated_objects = s._m_allocated_objects)
    (hU : s1._m_used_objects = s._m_used_objects.set j p) :
    s1.handle_at = Function.update s.handle_at (false, j) (some p) := by
  funext x
  obtain ⟨b, k⟩ := x
  cases b
  · simp only [handle_at, hU, Function.update_apply, Prod.mk.injEq, true_and,
      List.getElem?_set]
    by_cases hk : k = j
    · subst hk; simp [hj]
    · have : ¬ j = k := fun e => hk e.symm
      simp [hk, this]
  · simp [handle_at, hA, Function.update_apply]

/-- With a power-of-two capacity the mask computes the remainder. -/
theorem and_mask_eq_mod (x k : Nat) : x &&& (2 ^ k - 1) = x % 2 ^ k :=
  Nat.and_pow_two_sub_one_eq_mod x k

/-- Two cursors less than one capacity apart address different ring positions. -/
theorem mod_ne_of_lt (a b n : Nat) (hab : a < b) (hlt : b - a < n) : a % n ≠ b % n := by
  intro e
  have h1 : (b - a) % n = 0 := Nat.sub_mod_eq_zero_of_mod_eq e.symm
  have h2 : (b - a) % n = b - a := Nat.mod_eq_of_lt hlt
  omega

end ObjectPool
/-! ## `replenish` -/

namespace ObjectPool

variable {T : Type} [Inhabited T]

/-- One pass of the loop of `replenish`, unfolded. -/
theorem replenish_loop_succ (n : Nat) (s : ObjectPool) (h : Heap T) :
    replenish_loop (n + 1) s h =
      if s._m_first_empty_slot &&& s._m_mask < s._m_allocated_objects.length then
        replenish_loop n
          { s with _m_allocated_objects := s._m_allocated_objects.set
                     (s._m_first_empty_slot &&& s._m_mask)
                     ⟨some h.objs.length, some h.cnts.length⟩,
                   _m_first_empty_slot := s._m_first_empty_slot + 1 }
          (Ptr.from_raw (some h.objs.length) h.new_obj.2).2
      else none := by
  simp only [replenish_loop, Heap.fst_new_obj, Ptr.from_raw_some, Heap.cnts_new_obj]

/-- What the loop of `replenish` changes: the ring entries and the empty cursor,
which advances by `n`. -/
theorem replenish_loop_frame (n : Nat) : ∀ (s : ObjectPool) (h : Heap T) (s1 : ObjectPool)
    (h1 : Heap T),
    replenish_loop n s h = some (s1, h1) →
    s1._m_used_objects = s._m_used_objects ∧
    s1._m_used_object_fill_index = s._m_used_object_fill_index ∧
    s1._m_first_full_slot = s._m_first_full_slot ∧
    s1._m_first_empty_slot = s._m_first_empty_slot + n ∧
    s1._m_mask = s._m_mask ∧ s1._m_vector_size = s._m_vector_size ∧
    s1._m_grow_size = s._m_grow_size ∧
    s1._m_allocated_objects.length = s._m_allocated_objects.length := by
  induction n with
  | zero =>
    intro s h s1 h1 e
    simp only [replenish_loop, Option.some.injEq, Prod.mk.injEq] at e
    obtain ⟨rfl, rfl⟩ := e
    exact ⟨rfl, rfl, rfl, rfl, rfl, rfl, rfl, rfl⟩
  | succ n ih =>
    intro s h s1 h1 e
    rw [replenish_loop_succ] at e
    split at e
    · obtain ⟨e1, e2, e3, e4, e5, e6, e7, e8⟩ := ih _ _ s1 h1 e
      refine ⟨e1, e2, e3, ?_, e5, e6, e7, ?_⟩
      · rw [e4]; simp only; omega
      · rw [e8]; simp
    · simp at e

/-- The loop of `replenish` keeps reference accounting. -/
theorem replenish_loop_acc (n : Nat) : ∀ (s : ObjectPool) (h : Heap T) (s1 : ObjectPool)
    (h1 : Heap T) (held : List Ptr),
    replenish_loop n s h = some (s1, h1) → Accounted s.handle_at h held →
    Accounted s1.handle_at h1 held := by
  induction n with
  | zero =>
    intro s h s1 h1 held e A
    simp only [replenish_loop, Option.some.injEq, Prod.mk.injEq] at e
    obtain ⟨rfl, rfl⟩ := e
    exact A
  | succ n ih =>
    intro s h s1 h1 held e A
    rw [replenish_loop_succ] at e
    split at e
    · rename_i hidx
      have A1 := A.fresh (s._m_first_empty_slot &&& s._m_mask)
      rw [← handle_at_set_alloc s
        { s with _m_allocated_objects := s._m_allocated_objects.set
                   (s._m_first_empty_slot &&& s._m_mask)
                   ⟨some h.objs.length, some h.cnts.length⟩,
                 _m_first_empty_slot := s._m_first_empty_slot + 1 }
        _ _ hidx rfl rfl] at A1
      exact ih _ _ s1 h1 held e A1
    · simp at e

/-- The loop of `replenish` leaves a handle that owns a slot at every position it
has passed, and keeps the ones that were there from `lo` on. -/
theorem replenish_loop_ring (n : Nat) : ∀ (s : ObjectPool) (h : Heap T) (s1 : ObjectPool)
    (h1 : Heap T) (lo : Nat),
    replenish_loop n s h = some (s1, h1) →
    (∀ c, lo ≤ c → c < s._m_first_empty_slot →
      ∃ a cc, s._m_allocated_objects[c &&& s._m_mask]? = some ⟨some a, some cc⟩) →
    ∀ c, lo ≤ c → c < s._m_first_empty_slot + n →
      ∃ a cc, s1._m_allocated_objects[c &&& s._m_mask]? = some ⟨some a, some cc⟩ := by
  induction n with
  | zero =>
    intro s h s1 h1 lo e H
    simp only [replenish_loop, Option.some.injEq, Prod.mk.injEq] at e
    obtain ⟨rfl, rfl⟩ := e
    simpa using H
  | succ n ih =>
    intro s h s1 h1 lo e H c hlo hc
    rw [replenish_loop_succ] at e
    split at e
    · rename_i hidx
      refine ih _ _ s1 h1 lo e ?_ c hlo (by simp only; omega)
      intro d hd1 hd2
      simp only at hd2 ⊢
      rw [List.getElem?_set]
      by_cases hdi : s._m_first_empty_slot &&& s._m_mask = d &&& s._m_mask
      · rw [if_pos hdi, if_pos hidx]; exact ⟨_, _, rfl⟩
      · rw [if_neg hdi]
        have : d ≠ s._m_first_empty_slot := fun e1 => hdi (by rw [e1])
        exact H d hd1 (by omega)
    · simp at e

/-- The loop of `replenish` runs to its end when the mask stays inside the ring. -/
theorem replenish_loop_isSome (n : Nat) : ∀ (s : ObjectPool) (h : Heap T),
    s._m_mask < s._m_allocated_objects.length →
    ∃ s1 h1, replenish_loop n s h = some (s1, h1) := by
  induction n with
  | zero => intro s h _; exact ⟨s, h, rfl⟩
  | succ n ih =>
    intro s h hm
    rw [replenish_loop_succ]
    have hidx : s._m_first_empty_slot &&& s._m_mask < s._m_allocated_objects.length :=
      Nat.lt_of_le_of_lt Nat.and_le_right hm
    rw [if_pos hidx]
    exact ih _ _ (by simpa using hm)

/-- Member `replenish` returns whenever its loop does, and then extends the
used-object table by null entries until `n` of them are free. -/
theorem replenish_of_loop (n : Nat) (s s1 : ObjectPool) (h h1 : Heap T)
    (e : replenish_loop n s h = some (s1, h1))
    (hfill : s._m_used_object_fill_index ≤ s._m_used_objects.length) :
    replenish n s h = some
      ({ s1 with _m_used_objects := resize_by s1._m_used_objects
                  (n - (s._m_used_objects.length - s._m_used_object_fill_index)) }, h1) := by
  obtain ⟨eU, eF, -⟩ := replenish_loop_frame n s h s1 h1 e
  unfold replenish
  simp only [e]
  obtain ⟨g, vs, m, ff, fe, fi, A, U⟩ := s1
  simp only at eU eF
  subst eU; subst eF
  simp only [if_pos hfill]
  split
  · rfl
  · have : n - (s._m_used_objects.length - s._m_used_object_fill_index) = 0 := by omega
    rw [this]
    simp [resize_by]

/-- Result of `replenish`, in terms of the result of its loop. -/
theorem replenish_eq_some (n : Nat) (s s2 : ObjectPool) (h h2 : Heap T)
    (e : replenish n s h = some (s2, h2))
    (hfill : s._m_used_object_fill_index ≤ s._m_used_objects.length) :
    ∃ s1, replenish_loop n s h = some (s1, h2) ∧
      s2 = { s1 with _m_used_objects := resize_by s1._m_used_objects
                       (n - (s._m_used_objects.length - s._m_used_object_fill_index)) } := by
  cases hl : replenish_loop n s h with
  | none => simp [replenish, hl] at e
  | some r =>
    obtain ⟨s1, h1⟩ := r
    have e1 := replenish_of_loop n s s1 h h1 hl hfill
    rw [e] at e1
    simp only [Option.some.injEq, Prod.mk.injEq] at e1
    obtain ⟨rfl, rfl⟩ := e1
    exact ⟨s1, rfl, rfl⟩

end ObjectPool
/-! ## `replenish` and `allocate` keep the invariants -/

namespace ObjectPool

theorem resize_by_getElem?_lt (vec : List Ptr) (k j : Nat) (hj : j < vec.length) :
    (resize_by vec k)[j]? = vec[j]? := by
  unfold resize_by
  rw [List.getElem?_append_left hj]

theorem resize_by_getElem? (vec : List Ptr) (k j : Nat) (p : Ptr)
    (e : (resize_by vec k)[j]? = some p) : vec[j]? = some p ∨ (vec.length ≤ j ∧ p = Ptr.null) := by
  by_cases hj : j < vec.length
  · rw [resize_by_getElem?_lt vec k j hj] at e
    exact Or.inl e
  · right
    refine ⟨by omega, ?_⟩
    unfold resize_by at e
    rw [List.getElem?_append_right (by omega), List.getElem?_replicate] at e
    split at e
    · exact (Option.some.inj e).symm
    · simp at e

theorem length_resize_by (vec : List Ptr) (k : Nat) :
    (resize_by vec k).length = vec.length + k := by
  simp [resize_by]

/-- Extending the used-object table keeps reference accounting. -/
theorem acc_resize {T : Type} (s : ObjectPool) (k : Nat) (h : Heap T) (held : List Ptr)
    (A : Accounted s.handle_at h held) :
    Accounted { s with _m_used_objects := resize_by s._m_used_objects k }.handle_at h held := by
  refine A.extend _ ?_ ?_
  · intro x p hx
    obtain ⟨b, j⟩ := x
    cases b
    · rcases resize_by_getElem? _ _ _ _ hx with e | e
      · exact Or.inr e
      · exact Or.inl e.2
    · exact Or.inr hx
  · intro j p hj
    have hlt : j < s._m_used_objects.length := by
      by_contra hn
      rw [handle_at_false, List.getElem?_eq_none (by omega)] at hj
      simp at hj
    show (resize_by s._m_used_objects k)[j]? = some p
    rw [resize_by_getElem?_lt _ _ _ hlt]
    exact hj

/-- Extending the used-object table keeps its shape. -/
theorem fill_resize (s : ObjectPool) (k : Nat) (F : FillOk s) :
    FillOk { s with _m_used_objects := resize_by s._m_used_objects k } := by
  constructor
  · simp only [length_resize_by]
    have := F.fill_le
    omega
  · intro j hj
    simp only at hj ⊢
    rw [resize_by_getElem?_lt _ _ _ (Nat.lt_of_lt_of_le hj F.fill_le)]
    exact F.below j hj
  · intro j p hj e
    simp only at hj e
    rcases resize_by_getElem? _ _ _ _ e with e1 | e1
    · exact F.above j p hj e1
    · exact e1.2

variable {T : Type} [Inhabited T]

/-- Member `replenish` keeps reference accounting and the shape of the
used-object table, advances the empty cursor by `n`, and leaves at least `n`
free entries in the used-object table. -/
theorem replenish_inv (n : Nat) (s s2 : ObjectPool) (h h2 : Heap T) (held : List Ptr)
    (e : replenish n s h = some (s2, h2)) (A : Accounted s.handle_at h held) (F : FillOk s) :
    Accounted s2.handle_at h2 held ∧ FillOk s2 ∧
    s2._m_used_object_fill_index = s._m_used_object_fill_index ∧
    s2._m_first_full_slot = s._m_first_full_slot ∧
    s2._m_first_empty_slot = s._m_first_empty_slot + n ∧
    s2._m_mask = s._m_mask ∧ s2._m_vector_size = s._m_vector_size ∧
    s2._m_grow_size = s._m_grow_size ∧
    s2._m_allocated_objects.length = s._m_allocated_objects.length ∧
    s._m_used_object_fill_index + n ≤ s2._m_used_objects.length ∧
    s._m_used_objects.length ≤ s2._m_used_objects.length := by
  obtain ⟨s1, hl, rfl⟩ := replenish_eq_some n s s2 h h2 e F.fill_le
  obtain ⟨eU, eF, e3, e4, e5, e6, e7, e8⟩ := replenish_loop_frame n s h s1 h2 hl
  have A1 := replenish_loop_acc n s h s1 h2 held hl A
  have F1 : FillOk s1 := by
    constructor
    · rw [eF, eU]; exact F.fill_le
    · intro j hj; rw [eU]; rw [eF] at hj; exact F.below j hj
    · intro j p hj; rw [eU]; rw [eF] at hj; exact F.above j p hj
  refine ⟨acc_resize s1 _ h2 held A1, fill_resize s1 _ F1, eF, e3, e4, e5, e6, e7, e8, ?_, ?_⟩
  · simp only [length_resize_by, eU]
    have := F.fill_le
    omega
  · simp only [length_resize_by, eU]
    omega

/-- Member `allocate` from the state `s1`, `h1` its optional call of `replenish`
leaves: the ring entry owns a live slot and the used-object table has a free
entry. -/
theorem allocate_of (v : T) (s s1 : ObjectPool) (h h1 : Heap T) (a c n : Nat) (u : T)
    (e0 : (if s._m_first_full_slot = s._m_first_empty_slot
           then replenish s._m_grow_size s h else some (s, h)) = some (s1, h1))
    (hp : s1._m_allocated_objects[s1._m_first_full_slot &&& s1._m_mask]?
      = some ⟨some a, some c⟩)
    (ho : h1.obj a = some u) (hc : h1.cnt c = some n)
    (hf : s1._m_used_object_fill_index < s1._m_used_objects.length) :
    allocate v s h = some (⟨some a, some c⟩,
      { s1 with _m_used_objects := s1._m_used_objects.set s1._m_used_object_fill_index
                  ⟨some a, some c⟩,
                _m_allocated_objects := s1._m_allocated_objects.set
                  (s1._m_first_full_slot &&& s1._m_mask) Ptr.null,
                _m_first_full_slot := s1._m_first_full_slot + 1,
                _m_used_object_fill_index := s1._m_used_object_fill_index + 1 },
      (h1.set_obj a (some v)).set_cnt c (some (n + 1))) := by
  unfold allocate
  rw [e0]
  simp only [hp, Ptr.construct_of_live a (some c) u v h1 ho, if_pos hf]
  rw [Ptr.copy_ctor_of_live a c n _ (by simpa using hc)]

/-- Every successful `allocate` is of the form described by `allocate_of`. -/
theorem allocate_eq_some (v : T) (s s2 : ObjectPool) (h h2 : Heap T) (r : Ptr)
    (e : allocate v s h = some (r, s2, h2)) :
    ∃ s1 h1 p a u c n,
      (if s._m_first_full_slot = s._m_first_empty_slot
       then replenish s._m_grow_size s h else some (s, h)) = some (s1, h1) ∧
      s1._m_allocated_objects[s1._m_first_full_slot &&& s1._m_mask]? = some p ∧
      p._m_ptr = some a ∧ p._m_ref_count = some c ∧
      h1.obj a = some u ∧ h1.cnt c = some n ∧
      s1._m_used_object_fill_index < s1._m_used_objects.length := by
  unfold allocate at e
  cases e0 : (if s._m_first_full_slot = s._m_first_empty_slot
       then replenish s._m_grow_size s h else some (s, h)) with
  | none => rw [e0] at e; simp at e
  | some r0 =>
    obtain ⟨s1, h1⟩ := r0
    rw [e0] at e
    simp only at e
    cases hp : s1._m_allocated_objects[s1._m_first_full_slot &&& s1._m_mask]? with
    | none => rw [hp] at e; simp at e
    | some p =>
      rw [hp] at e
      simp only at e
      cases hcs : p.construct v h1 with
      | none => rw [hcs] at e; simp at e
      | some h3 =>
        rw [hcs] at e
        simp only at e
        obtain ⟨a, u, ha, hu, rfl⟩ := Ptr.construct_eq_some p v h1 h3 hcs
        split at e
        · rename_i hf
          cases hcc : p.copy_ctor (h1.set_obj a (some v)) with
          | none => rw [hcc] at e; simp at e
          | some rr =>
            obtain ⟨r1, h4⟩ := rr
            obtain ⟨c, n, hc, hn, -, -⟩ := Ptr.copy_ctor_eq_some p r1 _ h4 hcc
            exact ⟨s1, h1, p, a, u, c, n, rfl, hp, ha, hc, hu, by simpa using hn, hf⟩
        · simp at e

end ObjectPool
namespace ObjectPool

/-- Table of a pool after one entry of the used-object table and one entry of the
ring were replaced. -/
theorem handle_at_set_both (s s1 : ObjectPool) (i j : Nat) (p q : Ptr)
    (hi : i < s._m_allocated_objects.length) (hj : j < s._m_used_objects.length)
    (hA : s1._m_allocated_objects = s._m_allocated_objects.set i p)
    (hU : s1._m_used_objects = s._m_used_objects.set j q) :
    s1.handle_at
      = Function.update (Function.update s.handle_at (false, j) (some q)) (true, i) (some p) := by
  rw [← handle_at_set_used s { s with _m_used_objects := s._m_used_objects.set j q } j q hj
    rfl rfl]
  exact handle_at_set_alloc _ s1 i p hi hA hU

variable {T : Type} [Inhabited T]

/-- State in which `allocate` takes a handle from the ring, after its optional
call of `replenish`: accounting and table shape hold there, and the cursors are
those of `s` except for the refill. -/
theorem allocate_pre (s s1 : ObjectPool) (h h1 : Heap T) (held : List Ptr)
    (e0 : (if s._m_first_full_slot = s._m_first_empty_slot
           then replenish s._m_grow_size s h else some (s, h)) = some (s1, h1))
    (A : Accounted s.handle_at h held) (F : FillOk s) :
    Accounted s1.handle_at h1 held ∧ FillOk s1 ∧
    s1._m_used_object_fill_index = s._m_used_object_fill_index ∧
    s1._m_first_full_slot = s._m_first_full_slot ∧
    s1._m_first_empty_slot = s._m_first_empty_slot +
      (if s._m_first_full_slot = s._m_first_empty_slot then s._m_grow_size else 0) ∧
    s1._m_mask = s._m_mask ∧ s1._m_vector_size = s._m_vector_size ∧
    s1._m_grow_size = s._m_grow_size ∧
    s1._m_allocated_objects.length = s._m_allocated_objects.length ∧
    s._m_used_objects.length ≤ s1._m_used_objects.length := by
  by_cases hfe : s._m_first_full_slot = s._m_first_empty_slot
  · rw [if_pos hfe] at e0 ⊢
    obtain ⟨A1, F1, e1, e2, e3, e4, e5, e6, e7, -, e9⟩ :=
      replenish_inv _ s s1 h h1 held e0 A F
    exact ⟨A1, F1, e1, e2, e3, e4, e5, e6, e7, e9⟩
  · rw [if_neg hfe] at e0 ⊢
    simp only [Option.some.injEq, Prod.mk.injEq] at e0
    obtain ⟨rfl, rfl⟩ := e0
    exact ⟨A, F, rfl, rfl, rfl, rfl, rfl, rfl, rfl, Nat.le_refl _⟩

/-- Member `allocate` keeps reference accounting and the shape of the
used-object table; the handle it returns owns a slot whose object is the
constructed value and whose counter holds two. -/
theorem allocate_inv (v : T) (s s2 : ObjectPool) (h h2 : Heap T) (r : Ptr) (held : List Ptr)
    (e : allocate v s h = some (r, s2, h2))
    (A : Accounted s.handle_at h held) (F : FillOk s) :
    (∃ a c, r = ⟨some a, some c⟩ ∧ h2.obj a = some v ∧ h2.cnt c = some 2) ∧
    Accounted s2.handle_at h2 (r :: held) ∧ FillOk s2 ∧
    s2._m_used_object_fill_index = s._m_used_object_fill_index + 1 ∧
    s2._m_first_full_slot = s._m_first_full_slot + 1 ∧
    s2._m_first_empty_slot = s._m_first_empty_slot +
      (if s._m_first_full_slot = s._m_first_empty_slot then s._m_grow_size else 0) ∧
    s2._m_mask = s._m_mask ∧ s2._m_vector_size = s._m_vector_size ∧
    s2._m_grow_size = s._m_grow_size ∧
    s2._m_allocated_objects.length = s._m_allocated_objects.length ∧
    s._m_used_objects.length ≤ s2._m_used_objects.length := by
  obtain ⟨s1, h1, p, a, u, c, n, e0, hp, ha, hc, hu, hn, hf⟩ := allocate_eq_some v s s2 h h2 r e
  obtain ⟨A1, F1, f1, f2, f3, f4, f5, f6, f7, f8⟩ := allocate_pre s s1 h h1 held e0 A F
  have hpe : p = ⟨some a, some c⟩ := by
    obtain ⟨pp, pc⟩ := p
    simp only at ha hc
    rw [ha, hc]
  subst hpe
  have hidx : s1._m_first_full_slot &&& s1._m_mask < s1._m_allocated_objects.length := by
    by_contra hcon
    rw [List.getElem?_eq_none (by omega)] at hp
    simp at hp
  have hnh := A1.not_held_of_ring _ a c hp
  have hn1 : n = 1 := by
    have := (A1.live (true, _) a c hp).2
    rw [hn, List.count_eq_zero_of_not_mem hnh] at this
    exact Option.some.inj this
  subst hn1
  have e1 := allocate_of v s s1 h h1 a c 1 u e0 hp hu hn hf
  rw [e] at e1
  simp only [Option.some.injEq, Prod.mk.injEq] at e1
  obtain ⟨rfl, rfl, rfl⟩ := e1
  have A2 := A1.construct a u v hu
  have hnull : s1.handle_at (false, s1._m_used_object_fill_index) = some Ptr.null := by
    rw [handle_at_false]
    cases hq : s1._m_used_objects[s1._m_used_object_fill_index]? with
    | none =>
      rw [List.getElem?_eq_none_iff] at hq
      omega
    | some q => rw [F1.above _ q (Nat.le_refl _) hq]
  have A3 := A2.move (true, s1._m_first_full_slot &&& s1._m_mask)
    (false, s1._m_used_object_fill_index) _ hp (by simp) (by simp) (fun _ => hnull)
  have hcnt2 : (h1.set_obj a (some v)).cnt c = some 1 := by simpa using hn
  have A4 := A3.copy s1._m_used_object_fill_index a c 1
    (by rw [Function.update_apply, if_neg (by simp), Function.update_apply, if_pos rfl]) hcnt2
  refine ⟨⟨a, c, rfl, ?_, ?_⟩, ?_, ?_, ?_, ?_, ?_, ?_, ?_, ?_, ?_, ?_⟩
  · rw [Heap.obj_set_cnt, Heap.obj_set_obj h1 a u _ a hu, if_pos rfl]
  · rw [Heap.cnt_set_cnt _ c 1 _ c hcnt2, if_pos rfl]
  · rw [handle_at_set_both s1 _ (s1._m_first_full_slot &&& s1._m_mask)
      s1._m_used_object_fill_index Ptr.null ⟨some a, some c⟩ hidx hf rfl rfl]
    exact A4
  · constructor
    · simp only [List.length_set]; omega
    · intro j hj
      simp only at hj ⊢
      rw [List.getElem?_set]
      by_cases hjf : s1._m_used_object_fill_index = j
      · rw [if_pos hjf, if_pos hf]; exact ⟨a, c, rfl⟩
      · rw [if_neg hjf]; exact F1.below j (by omega)
    · intro j q hj hq
      simp only at hj hq
      rw [List.getElem?_set, if_neg (by omega)] at hq
      exact F1.above j q (by omega) hq
  · simp only; omega
  · simp only; omega
  · simp only; exact f3
  · exact f4
  · exact f5
  · exact f6
  · simp only [List.length_set]; exact f7
  · simp only [List.length_set]; exact f8

end ObjectPool
/-! ## One pass of `gc` over an entry that is not live -/

namespace ObjectPool

/-- Result of `vec[t] = std::move(vec[last])` for `t ≤ last`: entry `last` is
null, entry `t` (when different) holds what entry `last` held. -/
theorem move_within_spec (vec : List Ptr) (t last : Nat) (ht : t ≤ last)
    (hl : last < vec.length) :
    ∃ vec1, move_within vec t last = some vec1 ∧ vec1.length = vec.length ∧
      ∀ j, vec1[j]? = if j = last then some Ptr.null else if j = t then vec[last]?
        else vec[j]? := by
  have hq : vec[last]? = some vec[last] := List.getElem?_eq_getElem hl
  refine ⟨(vec.set t vec[last]).set last Ptr.null, ?_, by simp, ?_⟩
  · unfold move_within
    rw [hq]
    simp only
    rw [if_pos (by omega)]
  · intro j
    rw [List.getElem?_set, List.getElem?_set]
    by_cases hjl : j = last
    · subst hjl; simp [hl]
    · have h1 : ¬ last = j := fun e => hjl e.symm
      rw [if_neg h1, if_neg hjl]
      by_cases hjt : j = t
      · subst hjt
        rw [if_pos rfl, if_pos (by omega), if_pos rfl, hq]
      · have h2 : ¬ t = j := fun e => hjt e.symm
        rw [if_neg h2, if_neg hjt]

/-- Moving the last entry into place `t` gives the same table whatever entry `t`
held before. -/
theorem move_within_set (vec : List Ptr) (t last : Nat) (x : Ptr) (ht : t ≤ last)
    (hl : last < vec.length) :
    ∃ vec1, move_within (vec.set t x) t last = some vec1 ∧ vec1.length = vec.length ∧
      ∀ j, vec1[j]? = if j = last then some Ptr.null else if j = t then vec[last]?
        else vec[j]? := by
  obtain ⟨vec1, e, hlen, hs⟩ := move_within_spec (vec.set t x) t last ht (by simpa using hl)
  refine ⟨vec1, e, by simpa using hlen, ?_⟩
  intro j
  rw [hs j]
  by_cases hjl : j = last
  · rw [if_pos hjl, if_pos hjl]
  · rw [if_neg hjl, if_neg hjl]
    by_cases hjt : j = t
    · rw [if_pos hjt, if_pos hjt, List.getElem?_set, if_neg (by omega)]
    · rw [if_neg hjt, if_neg hjt, List.getElem?_set, if_neg (fun e => hjt e.symm)]

variable {T : Type}

/-- Member `gc`, recycle branch: the entry goes to ring position
`_m_first_empty_slot & _m_mask`, the empty cursor advances, and the last used
entry takes its place. -/
theorem gc_reclaim_recycle (t : Nat) (p : Ptr) (s : ObjectPool) (h : Heap T)
    (hroom : s._m_first_full_slot + s._m_vector_size > s._m_first_empty_slot)
    (hidx : s._m_first_empty_slot &&& s._m_mask < s._m_allocated_objects.length)
    (ht : t < s._m_used_object_fill_index)
    (hf : s._m_used_object_fill_index ≤ s._m_used_objects.length) :
    ∃ used, used.length = s._m_used_objects.length ∧
      (∀ j, used[j]? = if j = s._m_used_object_fill_index - 1 then some Ptr.null
        else if j = t then s._m_used_objects[s._m_used_object_fill_index - 1]?
        else s._m_used_objects[j]?) ∧
      gc_reclaim t p s h = some
        ({ s with _m_allocated_objects := s._m_allocated_objects.set
                    (s._m_first_empty_slot &&& s._m_mask) p,
                  _m_used_objects := used,
                  _m_first_empty_slot := s._m_first_empty_slot + 1,
                  _m_used_object_fill_index := s._m_used_object_fill_index - 1 }, h) := by
  obtain ⟨used, e, hlen, hs⟩ := move_within_set s._m_used_objects t
    (s._m_used_object_fill_index - 1) Ptr.null (by omega) (by omega)
  refine ⟨used, hlen, hs, ?_⟩
  unfold gc_reclaim
  simp only [if_pos hroom, if_pos hidx, e]

/-- Member `gc`, destroy branch: the entry is destroyed and the last used entry
takes its place. -/
theorem gc_reclaim_destroy (t : Nat) (p : Ptr) (s : ObjectPool) (h h1 : Heap T)
    (hroom : ¬ s._m_first_full_slot + s._m_vector_size > s._m_first_empty_slot)
    (hd : p.dtor h = some h1)
    (ht : t < s._m_used_object_fill_index)
    (hf : s._m_used_object_fill_index ≤ s._m_used_objects.length) :
    ∃ used, used.length = s._m_used_objects.length ∧
      (∀ j, used[j]? = if j = s._m_used_object_fill_index - 1 then some Ptr.null
        else if j = t then s._m_used_objects[s._m_used_object_fill_index - 1]?
        else s._m_used_objects[j]?) ∧
      gc_reclaim t p s h = some
        ({ s with _m_used_objects := used,
                  _m_used_object_fill_index := s._m_used_object_fill_index - 1 }, h1) := by
  obtain ⟨used, e, hlen, hs⟩ := move_within_spec s._m_used_objects t
    (s._m_used_object_fill_index - 1) (by omega) (by omega)
  refine ⟨used, hlen, hs, ?_⟩
  unfold gc_reclaim
  simp only [if_neg hroom, hd, e]

/-- Table of a pool, given entry by entry. -/
theorem handle_at_eq (s : ObjectPool) (f : Bool × Nat → Option Ptr)
    (hA : ∀ i, s._m_allocated_objects[i]? = f (true, i))
    (hU : ∀ j, s._m_used_objects[j]? = f (false, j)) : s.handle_at = f := by
  funext x
  obtain ⟨b, k⟩ := x
  cases b
  · exact hU k
  · exact hA k

/-- Compaction step on the table: with entry `t` already nulled, the last used
entry moves into its place. -/
theorem acc_compact (tab : Bool × Nat → Option Ptr) (h : Heap T) (held : List Ptr)
    (t last : Nat) (q : Ptr) (A : Accounted tab h held)
    (hq : tab (false, last) = some q) (ht : tab (false, t) = some Ptr.null) :
    Accounted (fun x => if x = (false, last) then some Ptr.null
      else if x = (false, t) then some q else tab x) h held := by
  by_cases htl : t = last
  · subst htl
    refine A.extend _ ?_ ?_
    · intro x p hx
      simp only at hx
      by_cases hxt : x = (false, t)
      · rw [if_pos hxt] at hx
        exact Or.inl (Option.some.inj hx).symm
      · rw [if_neg hxt, if_neg hxt] at hx
        exact Or.inr hx
    · intro j p hj
      show (if ((false, j) : Bool × Nat) = (false, t) then some Ptr.null
        else if ((false, j) : Bool × Nat) = (false, t) then some q else tab (false, j)) = some p
      by_cases hxt : ((false, j) : Bool × Nat) = (false, t)
      · rw [if_pos hxt]
        rw [hxt, ht] at hj
        exact hj
      · rw [if_neg hxt, if_neg hxt]; exact hj
  · have := A.move (false, last) (false, t) q hq
      (by intro e; exact htl (by simpa using e.symm)) (by simp) (fun _ => ht)
    have hfe : (fun x => if x = (false, last) then some Ptr.null
        else if x = (false, t) then some q else tab x)
        = Function.update (Function.update tab (false, t) (some q)) (false, last)
          (some Ptr.null) := by
      funext x
      simp only [Function.update_apply]
    rw [hfe]
    exact this

end ObjectPool
namespace ObjectPool

variable {T : Type}

/-- An entry of the used-object table that `gc` finds not live owns a slot whose
counter holds exactly one, and no caller holds a copy of it. -/
theorem dead_entry (s : ObjectPool) (h : Heap T) (held : List Ptr) (t rc : Nat) (p : Ptr)
    (A : Accounted s.handle_at h held) (F : FillOk s)
    (ht : t < s._m_used_object_fill_index) (hp : s._m_used_objects[t]? = some p)
    (hrc : p.get_ref_count h = some rc) (hdead : ¬ rc > 1) :
    ∃ a c v, p = ⟨some a, some c⟩ ∧ h.cnt c = some 1 ∧ h.obj a = some v ∧ p ∉ held := by
  obtain ⟨a, c, hac⟩ := F.below t ht
  rw [hp] at hac
  have hpe := Option.some.inj hac
  subst hpe
  obtain ⟨⟨v, hv⟩, hc⟩ := A.live (false, t) a c hp
  simp only [Ptr.get_ref_count] at hrc
  rw [hc] at hrc
  have h1 := Option.some.inj hrc
  have h0 : held.count ⟨some a, some c⟩ = 0 := by omega
  refine ⟨a, c, v, rfl, ?_, hv, List.count_eq_zero.1 h0⟩
  rw [hc, h0]

/-- One pass of `gc` over an entry that is not live keeps reference accounting and
the shape of the used-object table.  The entry either went to ring position
`_m_first_empty_slot & _m_mask` with the free store untouched, or its object and
counter were deleted; the last used entry took its place. -/
theorem gc_reclaim_inv (t rc : Nat) (p : Ptr) (s s1 : ObjectPool) (h h1 : Heap T)
    (held : List Ptr)
    (e : gc_reclaim t p s h = some (s1, h1))
    (A : Accounted s.handle_at h held) (F : FillOk s)
    (ht : t < s._m_used_object_fill_index) (hp : s._m_used_objects[t]? = some p)
    (hrc : p.get_ref_count h = some rc) (hdead : ¬ rc > 1) :
    Accounted s1.handle_at h1 held ∧ FillOk s1 ∧
    s1._m_used_object_fill_index = s._m_used_object_fill_index - 1 ∧
    s1._m_first_full_slot = s._m_first_full_slot ∧
    s1._m_mask = s._m_mask ∧ s1._m_vector_size = s._m_vector_size ∧
    s1._m_grow_size = s._m_grow_size ∧
    s1._m_allocated_objects.length = s._m_allocated_objects.length ∧
    s1._m_used_objects.length = s._m_used_objects.length ∧
    (∀ j, s1._m_used_objects[j]? =
      if j = s._m_used_object_fill_index - 1 then some Ptr.null
      else if j = t then s._m_used_objects[s._m_used_object_fill_index - 1]?
      else s._m_used_objects[j]?) ∧
    ((s._m_first_full_slot + s._m_vector_size > s._m_first_empty_slot ∧
        s._m_first_empty_slot &&& s._m_mask < s._m_allocated_objects.length ∧
        s1._m_first_empty_slot = s._m_first_empty_slot + 1 ∧ h1 = h ∧
        s1._m_allocated_objects = s._m_allocated_objects.set
          (s._m_first_empty_slot &&& s._m_mask) p) ∨
     (¬ s._m_first_full_slot + s._m_vector_size > s._m_first_empty_slot ∧
        s1._m_first_empty_slot = s._m_first_empty_slot ∧
        s1._m_allocated_objects = s._m_allocated_objects ∧
        ∃ a c, p = ⟨some a, some c⟩ ∧
          h1 = ((h.set_cnt c (some 0)).set_obj a none).set_cnt c none)) := by
  obtain ⟨a, c, v, rfl, hc, hv, hnh⟩ := dead_entry s h held t rc _ A F ht hp hrc hdead
  have hfl := F.fill_le
  have hlast : s._m_used_object_fill_index - 1 < s._m_used_objects.length := by omega
  obtain ⟨q, hq⟩ : ∃ q, s._m_used_objects[s._m_used_object_fill_index - 1]? = some q :=
    ⟨_, List.getElem?_eq_getElem hlast⟩
  -- shape of the used-object table afterwards, from the entries of the new table
  have fill1 : ∀ (s1 : ObjectPool),
      s1._m_used_object_fill_index = s._m_used_object_fill_index - 1 →
      s1._m_used_objects.length = s._m_used_objects.length →
      (∀ j, s1._m_used_objects[j]? =
        if j = s._m_used_object_fill_index - 1 then some Ptr.null
        else if j = t then s._m_used_objects[s._m_used_object_fill_index - 1]?
        else s._m_used_objects[j]?) → FillOk s1 := by
    intro s1 e1 e2 e3
    constructor
    · omega
    · intro j hj
      rw [e3 j, if_neg (by omega)]
      by_cases hjt : j = t
      · rw [if_pos hjt]; exact F.below _ (by omega)
      · rw [if_neg hjt]; exact F.below _ (by omega)
    · intro j x hj hx
      rw [e3 j] at hx
      by_cases hjl : j = s._m_used_object_fill_index - 1
      · rw [if_pos hjl] at hx; exact (Option.some.inj hx).symm
      · rw [if_neg hjl, if_neg (by omega)] at hx
        exact F.above j x (by omega) hx
  by_cases hroom : s._m_first_full_slot + s._m_vector_size > s._m_first_empty_slot
  · by_cases hidx : s._m_first_empty_slot &&& s._m_mask < s._m_allocated_objects.length
    · obtain ⟨used, hlen, hs, e1⟩ := gc_reclaim_recycle t ⟨some a, some c⟩ s h hroom hidx ht hfl
      rw [e] at e1
      simp only [Option.some.injEq, Prod.mk.injEq] at e1
      obtain ⟨rfl, rfl⟩ := e1
      refine ⟨?_, fill1 _ rfl hlen hs, rfl, rfl, rfl, rfl, rfl, by simp, hlen, hs,
        Or.inl ⟨hroom, hidx, rfl, rfl, rfl⟩⟩
      have A1 := A.move (false, t) (true, s._m_first_empty_slot &&& s._m_mask) _ hp
        (by simp) (fun _ => hnh) (by simp)
      have A2 := acc_compact _ h1 held t (s._m_used_object_fill_index - 1)
        (if t = s._m_used_object_fill_index - 1 then Ptr.null else q) A1
        (by
          rw [Function.update_apply]
          by_cases htl : t = s._m_used_object_fill_index - 1
          · rw [if_pos (by rw [htl]), if_pos htl]
          · rw [if_neg (by simpa using fun e => htl e.symm), Function.update_apply,
              if_neg (by simp), if_neg htl]
            exact hq)
        (by rw [Function.update_apply, if_pos rfl])
      rw [handle_at_eq _ _ ?_ ?_]
      · exact A2
      · intro i
        simp only [Function.update_apply, Prod.mk.injEq, Bool.true_eq_false, false_and,
          if_false, true_and, List.getElem?_set]
        by_cases hi : i = s._m_first_empty_slot &&& s._m_mask
        · subst hi; simp [hidx]
        · have : ¬ s._m_first_empty_slot &&& s._m_mask = i := fun e => hi e.symm
          simp [hi, this, handle_at]
      · intro j
        rw [hs j]
        simp only [Function.update_apply, Prod.mk.injEq, true_and, Bool.false_eq_true,
          false_and, if_false]
        by_cases hjl : j = s._m_used_object_fill_index - 1
        · rw [if_pos hjl, if_pos hjl]
        · rw [if_neg hjl, if_neg hjl]
          by_cases hjt : j = t
          · rw [if_pos hjt, if_pos hjt, if_neg (by omega), hq]
          · rw [if_neg hjt, if_neg hjt, if_neg hjt]; rfl
    · unfold gc_reclaim at e
      simp [hroom, hidx] at e
  · have hd := Ptr.dtor_last a c v h hc hv
    obtain ⟨used, hlen, hs, e1⟩ := gc_reclaim_destroy t ⟨some a, some c⟩ s h _ hroom hd ht hfl
    rw [e] at e1
    simp only [Option.some.injEq, Prod.mk.injEq] at e1
    obtain ⟨rfl, rfl⟩ := e1
    refine ⟨?_, fill1 _ rfl hlen hs, rfl, rfl, rfl, rfl, rfl, rfl, hlen, hs,
      Or.inr ⟨hroom, rfl, rfl, a, c, rfl, rfl⟩⟩
    have A1 := A.destroy t a c hp hc
    have A2 := acc_compact _ _ held t (s._m_used_object_fill_index - 1)
      (if t = s._m_used_object_fill_index - 1 then Ptr.null else q) A1
      (by
        rw [Function.update_apply]
        by_cases htl : t = s._m_used_object_fill_index - 1
        · rw [if_pos (by rw [htl]), if_pos htl]
        · rw [if_neg (by simpa using fun e => htl e.symm), if_neg htl]
          exact hq)
      (by rw [Function.update_apply, if_pos rfl])
    rw [handle_at_eq _ _ ?_ ?_]
    · exact A2
    · intro i
      simp [Function.update_apply, handle_at]
    · intro j
      rw [hs j]
      simp only [Function.update_apply, Prod.mk.injEq, true_and]
      by_cases hjl : j = s._m_used_object_fill_index - 1
      · rw [if_pos hjl, if_pos hjl]
      · rw [if_neg hjl, if_neg hjl]
        by_cases hjt : j = t
        · rw [if_pos hjt, if_pos hjt, if_neg (by omega), hq]
        · rw [if_neg hjt, if_neg hjt, if_neg hjt]; rfl

end ObjectPool
/-! ## The loop of `gc` -/

namespace ObjectPool

variable {T : Type}

/-- One pass of the loop of `gc`, unfolded: the entry is skipped when its counter
exceeds one, reclaimed otherwise. -/
theorem gc_loop_succ (fuel t : Nat) (s : ObjectPool) (h : Heap T) (r : ObjectPool × Heap T)
    (e : gc_loop (fuel + 1) t s h = some r) (ht : t < s._m_used_object_fill_index) :
    ∃ p rc, s._m_used_objects[t]? = some p ∧ p.get_ref_count h = some rc ∧
      ((rc > 1 ∧ gc_loop fuel (t + 1) s h = some r) ∨
       (¬ rc > 1 ∧ ∃ s1 h1, gc_reclaim t p s h = some (s1, h1) ∧
          gc_loop fuel t s1 h1 = some r)) := by
  unfold gc_loop at e
  rw [if_pos ht] at e
  cases hp : s._m_used_objects[t]? with
  | none => rw [hp] at e; simp at e
  | some p =>
    rw [hp] at e
    simp only at e
    cases hrc : p.get_ref_count h with
    | none => rw [hrc] at e; simp at e
    | some rc =>
      rw [hrc] at e
      simp only at e
      refine ⟨p, rc, rfl, hrc, ?_⟩
      by_cases hlive : rc > 1
      · rw [if_pos hlive] at e
        exact Or.inl ⟨hlive, e⟩
      · rw [if_neg hlive] at e
        cases hg : gc_reclaim t p s h with
        | none => rw [hg] at e; simp at e
        | some r1 =>
          obtain ⟨s1, h1⟩ := r1
          rw [hg] at e
          exact Or.inr ⟨hlive, s1, h1, rfl, e⟩

/-- The loop of `gc` with nothing left to examine returns at once. -/
theorem gc_loop_done (fuel t : Nat) (s : ObjectPool) (h : Heap T)
    (ht : ¬ t < s._m_used_object_fill_index) : gc_loop fuel t s h = some (s, h) := by
  cases fuel with
  | zero => simp [gc_loop, ht]
  | succ n => simp [gc_loop, ht]

/-- Induction along the loop of `gc`.  A property `Post` of (start index, start
state, final state) holds for every completed run provided (1) it holds when the
loop stops at once and (2) it carries back over a skipped entry and (3) over a
reclaimed entry, where each pass may rely on an invariant `I` that it has to
re-establish. -/
theorem gc_loop_induction
    (I : Nat → ObjectPool → Heap T → Prop)
    (Post : Nat → ObjectPool → Heap T → ObjectPool → Heap T → Prop)
    (base : ∀ t s h, I t s h → ¬ t < s._m_used_object_fill_index → Post t s h s h)
    (skip : ∀ t s h p rc, I t s h → t < s._m_used_object_fill_index →
      s._m_used_objects[t]? = some p → p.get_ref_count h = some rc → rc > 1 →
      I (t + 1) s h ∧ ∀ s2 h2, Post (t + 1) s h s2 h2 → Post t s h s2 h2)
    (reclaim : ∀ t s h p rc s1 h1, I t s h → t < s._m_used_object_fill_index →
      s._m_used_objects[t]? = some p → p.get_ref_count h = some rc → ¬ rc > 1 →
      gc_reclaim t p s h = some (s1, h1) →
      I t s1 h1 ∧ ∀ s2 h2, Post t s1 h1 s2 h2 → Post t s h s2 h2)
    (fuel : Nat) : ∀ t s h s2 h2, gc_loop fuel t s h = some (s2, h2) → I t s h →
      Post t s h s2 h2 := by
  induction fuel with
  | zero =>
    intro t s h s2 h2 e hI
    by_cases ht : t < s._m_used_object_fill_index
    · simp [gc_loop, ht] at e
    · simp only [gc_loop, if_neg ht, Option.some.injEq, Prod.mk.injEq] at e
      obtain ⟨rfl, rfl⟩ := e
      exact base t _ _ hI ht
  | succ n ih =>
    intro t s h s2 h2 e hI
    by_cases ht : t < s._m_used_object_fill_index
    · obtain ⟨p, rc, hp, hrc, ⟨hl, e1⟩ | ⟨hl, s1, h1, hg, e1⟩⟩ := gc_loop_succ n t s h _ e ht
      · obtain ⟨hI1, hP⟩ := skip t s h p rc hI ht hp hrc hl
        exact hP s2 h2 (ih (t + 1) s h s2 h2 e1 hI1)
      · obtain ⟨hI1, hP⟩ := reclaim t s h p rc s1 h1 hI ht hp hrc hl hg
        exact hP s2 h2 (ih t s1 h1 s2 h2 e1 hI1)
    · rw [gc_loop_done _ _ _ _ ht] at e
      simp only [Option.some.injEq, Prod.mk.injEq] at e
      obtain ⟨rfl, rfl⟩ := e
      exact base t _ _ hI ht

/-- One pass over an entry that is not live keeps what the constructor fixed. -/
theorem gc_reclaim_mask (t rc : Nat) (p : Ptr) (s s1 : ObjectPool) (h h1 : Heap T)
    (held : List Ptr)
    (e : gc_reclaim t p s h = some (s1, h1))
    (A : Accounted s.handle_at h held) (F : FillOk s) (M : MaskOk s)
    (ht : t < s._m_used_object_fill_index) (hp : s._m_used_objects[t]? = some p)
    (hrc : p.get_ref_count h = some rc) (hdead : ¬ rc > 1) : MaskOk s1 := by
  obtain ⟨-, -, e1, e2, e3, e4, e5, e6, -⟩ := gc_reclaim_inv t rc p s s1 h h1 held e A F ht hp hrc hdead
  constructor
  · rw [e6, e4]; exact M.len
  · rw [e3, e4]; exact M.mask
  · rw [e4]; exact M.lt
  · intro hz
    rw [e4] at hz
    rw [e1, M.unused hz]

/-- The loop of `gc` keeps the invariant of reachable states. -/
theorem gc_loop_inv (held : List Ptr) (fuel t : Nat) (s s2 : ObjectPool) (h h2 : Heap T)
    (e : gc_loop fuel t s h = some (s2, h2))
    (A : Accounted s.handle_at h held) (F : FillOk s) (M : MaskOk s) :
    Accounted s2.handle_at h2 held ∧ FillOk s2 ∧ MaskOk s2 := by
  refine gc_loop_induction
    (fun _ s h => Accounted s.handle_at h held ∧ FillOk s ∧ MaskOk s)
    (fun _ _ _ s2 h2 => Accounted s2.handle_at h2 held ∧ FillOk s2 ∧ MaskOk s2)
    ?_ ?_ ?_ fuel t s h s2 h2 e ⟨A, F, M⟩
  · intro t s h hI _; exact hI
  · intro t s h p rc hI _ _ _ _
    exact ⟨hI, fun _ _ hP => hP⟩
  · intro t s h p rc s1 h1 hI ht hp hrc hl hg
    obtain ⟨A1, F1, -⟩ := gc_reclaim_inv t rc p s s1 h h1 held hg hI.1 hI.2.1 ht hp hrc hl
    exact ⟨⟨A1, F1, gc_reclaim_mask t rc p s s1 h h1 held hg hI.1 hI.2.1 hI.2.2 ht hp hrc hl⟩,
      fun _ _ hP => hP⟩

/-- What the loop of `gc` leaves alone: the full cursor, the mask, the capacity,
the grow size and the sizes of both tables.  The empty cursor does not move
back and the fill index does not grow. -/
theorem gc_loop_frame (held : List Ptr) (fuel t : Nat) (s s2 : ObjectPool) (h h2 : Heap T)
    (e : gc_loop fuel t s h = some (s2, h2))
    (A : Accounted s.handle_at h held) (F : FillOk s) :
    s2._m_first_full_slot = s._m_first_full_slot ∧ s2._m_mask = s._m_mask ∧
    s2._m_vector_size = s._m_vector_size ∧ s2._m_grow_size = s._m_grow_size ∧
    s2._m_allocated_objects.length = s._m_allocated_objects.length ∧
    s2._m_used_objects.length = s._m_used_objects.length ∧
    s._m_first_empty_slot ≤ s2._m_first_empty_slot ∧
    s2._m_used_object_fill_index ≤ s._m_used_object_fill_index := by
  refine gc_loop_induction
    (fun _ s h => Accounted s.handle_at h held ∧ FillOk s)
    (fun _ s _ s2 _ => s2._m_first_full_slot = s._m_first_full_slot ∧ s2._m_mask = s._m_mask ∧
      s2._m_vector_size = s._m_vector_size ∧ s2._m_grow_size = s._m_grow_size ∧
      s2._m_allocated_objects.length = s._m_allocated_objects.length ∧
      s2._m_used_objects.length = s._m_used_objects.length ∧
      s._m_first_empty_slot ≤ s2._m_first_empty_slot ∧
      s2._m_used_object_fill_index ≤ s._m_used_object_fill_index)
    ?_ ?_ ?_ fuel t s h s2 h2 e ⟨A, F⟩
  · intro t s h _ _
    exact ⟨rfl, rfl, rfl, rfl, rfl, rfl, Nat.le_refl _, Nat.le_refl _⟩
  · intro t s h p rc hI _ _ _ _
    exact ⟨hI, fun _ _ hP => hP⟩
  · intro t s h p rc s1 h1 hI ht hp hrc hl hg
    obtain ⟨A1, F1, e1, e2, e3, e4, e5, e6, e7, -, hcase⟩ :=
      gc_reclaim_inv t rc p s s1 h h1 held hg hI.1 hI.2 ht hp hrc hl
    refine ⟨⟨A1, F1⟩, ?_⟩
    rintro s2 h2 ⟨p1, p2, p3, p4, p5, p6, p7, p8⟩
    refine ⟨by rw [p1, e2], by rw [p2, e3], by rw [p3, e4], by rw [p4, e5], by rw [p5, e6],
      by rw [p6, e7], ?_, by omega⟩
    rcases hcase with ⟨-, -, e8, -⟩ | ⟨-, e8, -⟩ <;> omega

/-- With a ring of at least one entry the mask stays inside the ring. -/
theorem mask_lt (s : ObjectPool) (M : MaskOk s) (hpos : 0 < s._m_vector_size) :
    s._m_mask < s._m_allocated_objects.length := by
  have h1 := M.lt
  rw [M.len, M.mask]
  simp only [SIZE_MOD] at h1 ⊢
  omega

/-- The loop of `gc` completes: `fuel` passes are enough when `fuel` is at least
the number of entries left to examine. -/
theorem gc_loop_total (held : List Ptr) (fuel : Nat) : ∀ (t : Nat) (s : ObjectPool)
    (h : Heap T), Accounted s.handle_at h held → FillOk s → MaskOk s →
    s._m_used_object_fill_index - t ≤ fuel →
    ∃ s2 h2, gc_loop fuel t s h = some (s2, h2) := by
  induction fuel with
  | zero =>
    intro t s h _ _ _ hf
    exact ⟨s, h, gc_loop_done 0 t s h (by omega)⟩
  | succ n ih =>
    intro t s h A F M hf
    by_cases ht : t < s._m_used_object_fill_index
    · obtain ⟨a, c, hp⟩ := F.below t ht
      obtain ⟨⟨v, hv⟩, hc⟩ := A.live (false, t) a c hp
      have hrc : (⟨some a, some c⟩ : Ptr).get_ref_count h
          = some (1 + held.count ⟨some a, some c⟩) := hc
      by_cases hl : 1 + held.count ⟨some a, some c⟩ > 1
      · obtain ⟨s2, h2, e⟩ := ih (t + 1) s h A F M (by omega)
        refine ⟨s2, h2, ?_⟩
        unfold gc_loop
        rw [if_pos ht, hp]
        simp only [hrc, if_pos hl, e]
      · have hpos : 0 < s._m_vector_size := by
          rcases Nat.eq_zero_or_pos s._m_vector_size with hz | hz
          · have := M.unused hz; omega
          · exact hz
        have hg : ∃ s1 h1, gc_reclaim t ⟨some a, some c⟩ s h = some (s1, h1) := by
          by_cases hroom : s._m_first_full_slot + s._m_vector_size > s._m_first_empty_slot
          · obtain ⟨used, -, -, e1⟩ := gc_reclaim_recycle t ⟨some a, some c⟩ s h hroom
              (Nat.lt_of_le_of_lt Nat.and_le_right (mask_lt s M hpos)) ht F.fill_le
            exact ⟨_, _, e1⟩
          · have hc1 : h.cnt c = some 1 := by
              rw [hc]; congr 1; omega
            obtain ⟨used, -, -, e1⟩ := gc_reclaim_destroy t ⟨some a, some c⟩ s h _ hroom
              (Ptr.dtor_last a c v h hc1 hv) ht F.fill_le
            exact ⟨_, _, e1⟩
        obtain ⟨s1, h1, hg⟩ := hg
        obtain ⟨A1, F1, e1, -⟩ := gc_reclaim_inv t _ _ s s1 h h1 held hg A F ht hp hrc hl
        have M1 := gc_reclaim_mask t _ _ s s1 h h1 held hg A F M ht hp hrc hl
        obtain ⟨s2, h2, e⟩ := ih t s1 h1 A1 F1 M1 (by omega)
        refine ⟨s2, h2, ?_⟩
        unfold gc_loop
        rw [if_pos ht, hp]
        simp only [hrc, if_neg hl, hg, e]
    · exact ⟨s, h, gc_loop_done _ t s h ht⟩

end ObjectPool
/-! ## Every reachable state satisfies the invariant -/

namespace ObjectPool

theorem next_power_of_two_lt (v : Nat) : next_power_of_two v < SIZE_MOD := by
  unfold next_power_of_two
  exact Nat.mod_lt _ (by decide)

/-- A successful `allocate` found a ring with at least one entry. -/
theorem allocate_ring_pos {T : Type} [Inhabited T] (v : T) (s s2 : ObjectPool) (h h2 : Heap T) (r : Ptr)
    (held : List Ptr) (e : allocate v s h = some (r, s2, h2))
    (A : Accounted s.handle_at h held) (F : FillOk s) :
    0 < s._m_allocated_objects.length := by
  obtain ⟨s1, h1, p, a, u, c, n, e0, hp, -⟩ := allocate_eq_some v s s2 h h2 r e
  obtain ⟨-, -, -, -, -, -, -, -, f7, -⟩ := allocate_pre s s1 h h1 held e0 A F
  by_contra hcon
  rw [List.getElem?_eq_none (by omega)] at hp
  simp at hp

/-- The state the constructor starts `replenish` from. -/
theorem ctor_start_inv {T : Type} (grow_size vector_size : Nat) (hlt : vector_size < SIZE_MOD) :
    Inv (T := T) ⟨{ _m_grow_size := grow_size
                    _m_vector_size := vector_size
                    _m_mask := (vector_size + (SIZE_MOD - 1)) % SIZE_MOD
                    _m_first_full_slot := 0
                    _m_first_empty_slot := 0
                    _m_used_object_fill_index := 0
                    _m_allocated_objects := List.replicate vector_size Ptr.null
                    _m_used_objects := List.replicate vector_size Ptr.null },
                  Heap.empty, []⟩ := by
  have hnull : ∀ (x : Bool × Nat) (p : Ptr),
      handle_at { _m_grow_size := grow_size
                  _m_vector_size := vector_size
                  _m_mask := (vector_size + (SIZE_MOD - 1)) % SIZE_MOD
                  _m_first_full_slot := 0
                  _m_first_empty_slot := 0
                  _m_used_object_fill_index := 0
                  _m_allocated_objects := List.replicate vector_size Ptr.null
                  _m_used_objects := List.replicate vector_size Ptr.null } x = some p →
      p = Ptr.null := by
    intro x p hx
    obtain ⟨b, k⟩ := x
    cases b <;>
    · simp only [handle_at, List.getElem?_replicate] at hx
      split at hx
      · exact (Option.some.inj hx).symm
      · simp at hx
  refine ⟨⟨?_, ?_, ?_, ?_⟩, ⟨?_, ?_, ?_⟩, ⟨?_, rfl, hlt, fun _ => rfl⟩⟩
  · intro x p hx; exact Or.inl (hnull x p hx)
  · intro x a c hx
    have := hnull x _ hx
    simp [Ptr.null] at this
  · intro x y a c a1 c1 hx
    have := hnull x _ hx
    simp [Ptr.null] at this
  · intro p hp; simp at hp
  · simp
  · intro j hj; simp at hj
  · intro j p _ hp
    exact hnull (false, j) p hp
  · simp

variable {T : Type} [Inhabited T]

/-- The constructor establishes the invariant. -/
theorem ctor_inv (init_capacity grow_size : Nat) (s : ObjectPool) (h : Heap T)
    (e : ctor init_capacity grow_size Heap.empty = some (s, h)) : Inv ⟨s, h, []⟩ := by
  unfold ctor at e
  have I0 := ctor_start_inv (T := T) grow_size
    (next_power_of_two (max init_capacity grow_size)) (next_power_of_two_lt _)
  obtain ⟨A, F, e1, e2, e3, e4, e5, e6, e7, -⟩ := replenish_inv _ _ s _ h [] e I0.acc I0.fill
  refine ⟨A, F, ⟨?_, ?_, ?_, ?_⟩⟩
  · rw [e7, e5]; exact I0.mask.len
  · rw [e4, e5]
  · rw [e5]; exact I0.mask.lt
  · intro _; rw [e1]

/-- Every action keeps the invariant. -/
theorem step_inv (a : Action T) (w w1 : World T) (e : World.step a w = some w1)
    (I : Inv w) : Inv w1 := by
  obtain ⟨A, F, M⟩ := I
  cases a with
  | allocate v =>
    simp only [World.step] at e
    cases ha : allocate v w.pool w.heap with
    | none => rw [ha] at e; simp at e
    | some r =>
      obtain ⟨r, s2, h2⟩ := r
      rw [ha] at e
      simp only [Option.some.injEq] at e
      subst e
      have hpos := allocate_ring_pos v _ _ _ _ _ _ ha A F
      obtain ⟨-, A2, F2, e1, e2, e3, e4, e5, e6, e7, -⟩ := allocate_inv v _ _ _ _ _ _ ha A F
      refine ⟨A2, F2, ⟨?_, ?_, ?_, ?_⟩⟩
      · show s2._m_allocated_objects.length = s2._m_vector_size
        rw [e7, e5]; exact M.len
      · show s2._m_mask = _
        rw [e4, e5]; exact M.mask
      · show s2._m_vector_size < _
        rw [e5]; exact M.lt
      · intro hz
        have hz1 : s2._m_vector_size = 0 := hz
        rw [e5, ← M.len] at hz1
        omega
  | gc =>
    simp only [World.step] at e
    cases hg : gc w.pool w.heap with
    | none => rw [hg] at e; simp at e
    | some r =>
      obtain ⟨s2, h2⟩ := r
      rw [hg] at e
      simp only [Option.some.injEq] at e
      subst e
      obtain ⟨A2, F2, M2⟩ := gc_loop_inv w.held _ 0 _ _ _ _ hg A F M
      exact ⟨A2, F2, M2⟩
  | copy p =>
    simp only [World.step] at e
    split at e
    · rename_i hp
      obtain ⟨j, a, c, rfl, hj⟩ := A.held_used p hp
      obtain ⟨-, hc⟩ := A.live _ a c hj
      rw [Ptr.copy_ctor_of_live a c _ w.heap hc] at e
      simp only [Option.some.injEq] at e
      subst e
      exact ⟨A.copy j a c _ hj hc, F, M⟩
    · simp at e
  | drop p =>
    simp only [World.step] at e
    split at e
    · rename_i hp
      obtain ⟨a, c, n, rfl, hc, A2⟩ := A.drop p hp
      rw [Ptr.dtor_shared a c n w.heap hc] at e
      simp only [Option.some.injEq] at e
      subst e
      exact ⟨A2, F, M⟩
    · simp at e

/-- Invariant of reachable states. -/
theorem reachable_inv (init_capacity grow_size : Nat) (w : World T)
    (hr : Reachable init_capacity grow_size w) : Inv w := by
  induction hr with
  | ctor e => exact ctor_inv init_capacity grow_size _ _ e
  | step a _ e ih => exact step_inv a _ _ e ih

end ObjectPool
/-! ## The shape of the ring, for a power-of-two capacity -/

namespace RingOk

/-- Under `RingOk` the mask computes the remainder modulo the capacity. -/
theorem and_mask {s : ObjectPool} (R : RingOk s) (x : Nat) :
    x &&& s._m_mask = x % s._m_vector_size := by
  obtain ⟨k, hk⟩ := R.pow2
  rw [R.mask, hk]
  exact ObjectPool.and_mask_eq_mod x k

theorem vs_pos {s : ObjectPool} (R : RingOk s) : 0 < s._m_vector_size := by
  obtain ⟨k, hk⟩ := R.pow2
  rw [hk]; exact Nat.two_pow_pos k

theorem and_mask_lt {s : ObjectPool} (R : RingOk s) (x : Nat) :
    x &&& s._m_mask < s._m_allocated_objects.length := by
  rw [R.and_mask, R.len]
  exact Nat.mod_lt _ R.vs_pos

/-- Two cursors of the ring less than one capacity apart address different
positions. -/
theorem and_mask_ne {s : ObjectPool} (R : RingOk s) (a b : Nat) (hab : a < b)
    (hlt : b - a < s._m_vector_size) : a &&& s._m_mask ≠ b &&& s._m_mask := by
  rw [R.and_mask, R.and_mask]
  exact ObjectPool.mod_ne_of_lt a b _ hab hlt

end RingOk

namespace ObjectPool

variable {T : Type} [Inhabited T]

/-- The loop of `replenish` leaves null every ring position it has not passed. -/
theorem replenish_loop_outside (n : Nat) : ∀ (s : ObjectPool) (h : Heap T) (s1 : ObjectPool)
    (h1 : Heap T) (lo : Nat),
    replenish_loop n s h = some (s1, h1) → lo ≤ s._m_first_empty_slot →
    (∀ i, (∀ c, lo ≤ c → c < s._m_first_empty_slot → c &&& s._m_mask ≠ i) →
      i < s._m_allocated_objects.length → s._m_allocated_objects[i]? = some Ptr.null) →
    ∀ i, (∀ c, lo ≤ c → c < s._m_first_empty_slot + n → c &&& s._m_mask ≠ i) →
      i < s._m_allocated_objects.length → s1._m_allocated_objects[i]? = some Ptr.null := by
  induction n with
  | zero =>
    intro s h s1 h1 lo e _ H
    simp only [replenish_loop, Option.some.injEq, Prod.mk.injEq] at e
    obtain ⟨rfl, rfl⟩ := e
    simpa using H
  | succ n ih =>
    intro s h s1 h1 lo e hlo H i hi hlen
    rw [replenish_loop_succ] at e
    split at e
    · refine ih _ _ s1 h1 lo e (by simp only; omega) ?_ i ?_ (by simpa using hlen)
      · intro k hk hklen
        simp only at hk hklen ⊢
        have hne : s._m_first_empty_slot &&& s._m_mask ≠ k :=
          hk s._m_first_empty_slot hlo (by omega)
        rw [List.getElem?_set, if_neg hne]
        exact H k (fun c h1 h2 => hk c h1 (by omega)) (by simpa using hklen)
      · intro c h1 h2
        exact hi c h1 (by simp only at h2; omega)
    · simp at e

/-- Member `replenish` on an empty ring keeps the shape of the ring when it adds
no more than one capacity. -/
theorem replenish_ring (n : Nat) (s s2 : ObjectPool) (h h2 : Heap T)
    (e : replenish n s h = some (s2, h2)) (R : RingOk s) (F : FillOk s)
    (hempty : s._m_first_full_slot = s._m_first_empty_slot) (hn : n ≤ s._m_vector_size) :
    RingOk s2 := by
  obtain ⟨s1, hl, rfl⟩ := replenish_eq_some n s s2 h h2 e F.fill_le
  obtain ⟨eU, eF, e3, e4, e5, e6, e7, e8⟩ := replenish_loop_frame n s h s1 h2 hl
  have hring := replenish_loop_ring n s h s1 h2 s._m_first_full_slot hl
    (fun c h1 h2 => by omega)
  have hout := replenish_loop_outside n s h s1 h2 s._m_first_full_slot hl (by omega)
    (fun i _ hi => R.outside i (by rw [← R.len]; exact hi) (fun c h1 h2 => by omega))
  have hfl := F.fill_le
  constructor
  · simp only [e6]; exact R.pow2
  · simp only [e5, e6]; exact R.mask
  · simp only [e8, e6]; exact R.len
  · simp only [e3, e4]; omega
  · simp only [e3, e4, e6]; omega
  · intro c h1 h2
    simp only [e3, e4, e5] at h1 h2 ⊢
    exact hring c h1 h2
  · intro i hi hc
    simp only [e3, e4, e5, e6] at hi hc ⊢
    exact hout i hc (by rw [R.len]; exact hi)
  · simp only [e3, e4, eF, length_resize_by, eU]
    omega
  · simp only [e7, e6]; exact R.grow

/-- Member `allocate` keeps the shape of the ring. -/
theorem allocate_ring (v : T) (s s2 : ObjectPool) (h h2 : Heap T) (r : Ptr)
    (e : allocate v s h = some (r, s2, h2)) (F : FillOk s) (R : RingOk s) : RingOk s2 := by
  obtain ⟨s1, h1, p, a, u, c, n, e0, hp, ha, hc, hu, hn, hf⟩ := allocate_eq_some v s s2 h h2 r e
  have hpe : p = ⟨some a, some c⟩ := by
    obtain ⟨pp, pc⟩ := p
    simp only at ha hc
    rw [ha, hc]
  subst hpe
  have R1 : RingOk s1 := by
    by_cases hfe : s._m_first_full_slot = s._m_first_empty_slot
    · rw [if_pos hfe] at e0
      exact replenish_ring _ s s1 h h1 e0 R F hfe R.grow
    · rw [if_neg hfe] at e0
      simp only [Option.some.injEq, Prod.mk.injEq] at e0
      obtain ⟨rfl, rfl⟩ := e0
      exact R
  have e1 := allocate_of v s s1 h h1 a c n u e0 hp hu hn hf
  rw [e] at e1
  simp only [Option.some.injEq, Prod.mk.injEq] at e1
  obtain ⟨-, rfl, -⟩ := e1
  have hidx := R1.and_mask_lt s1._m_first_full_slot
  have hne : s1._m_first_full_slot < s1._m_first_empty_slot := by
    by_contra hcon
    have := R1.outside (s1._m_first_full_slot &&& s1._m_mask) (by rw [← R1.len]; exact hidx)
      (fun c h1 h2 => by have := R1.order; omega)
    rw [hp] at this
    simp [Ptr.null] at this
  have hb := R1.bound
  constructor
  · exact R1.pow2
  · exact R1.mask
  · simp only [List.length_set]; exact R1.len
  · simp only; omega
  · simp only; omega
  · intro d hd1 hd2
    simp only at hd1 hd2 ⊢
    rw [List.getElem?_set, if_neg (R1.and_mask_ne s1._m_first_full_slot d (by omega) (by omega))]
    exact R1.ring d (by omega) hd2
  · intro i hi hcc
    simp only at hi hcc ⊢
    rw [List.getElem?_set]
    by_cases hii : s1._m_first_full_slot &&& s1._m_mask = i
    · rw [if_pos hii, if_pos hidx]
    · rw [if_neg hii]
      refine R1.outside i hi (fun d hd1 hd2 => ?_)
      by_cases hdf : d = s1._m_first_full_slot
      · rw [hdf]; exact hii
      · exact hcc d (by omega) hd2
  · simp only [List.length_set]
    have := R1.room
    omega
  · exact R1.grow


/-- Member `allocate` returns in every state satisfying the invariants, when the
pool was built with a positive grow size. -/
theorem allocate_total (v : T) (s : ObjectPool) (h : Heap T) (held : List Ptr)
    (A : Accounted s.handle_at h held) (F : FillOk s) (R : RingOk s)
    (hg : 1 ≤ s._m_grow_size) : ∃ r s2 h2, allocate v s h = some (r, s2, h2) := by
  have hpre : ∃ s1 h1, (if s._m_first_full_slot = s._m_first_empty_slot
      then replenish s._m_grow_size s h else some (s, h)) = some (s1, h1) ∧
      RingOk s1 ∧ s1._m_first_full_slot < s1._m_first_empty_slot := by
    by_cases hfe : s._m_first_full_slot = s._m_first_empty_slot
    · rw [if_pos hfe]
      have hm : s._m_mask < s._m_allocated_objects.length := by
        have := R.vs_pos
        rw [R.mask, R.len]; omega
      obtain ⟨s0, h0, hl⟩ := replenish_loop_isSome s._m_grow_size s h hm
      have e0 := replenish_of_loop _ s s0 h h0 hl F.fill_le
      refine ⟨_, _, e0, replenish_ring _ s _ h h0 e0 R F hfe R.grow, ?_⟩
      obtain ⟨-, -, e3, e4, -⟩ := replenish_loop_frame _ s h s0 h0 hl
      simp only [e3, e4]
      omega
    · rw [if_neg hfe]
      have := R.order
      exact ⟨s, h, rfl, R, by omega⟩
  obtain ⟨s1, h1, e0, R1, hlt⟩ := hpre
  obtain ⟨A1, F1, -⟩ := allocate_pre s s1 h h1 held e0 A F
  obtain ⟨a, c, hp⟩ := R1.ring s1._m_first_full_slot (Nat.le_refl _) hlt
  obtain ⟨⟨u, hu⟩, hc⟩ := A1.live (true, _) a c hp
  have hf : s1._m_used_object_fill_index < s1._m_used_objects.length := by
    have := R1.room
    omega
  exact ⟨_, _, _, allocate_of v s s1 h h1 a c _ u e0 hp hu hc hf⟩

omit [Inhabited T] in
/-- One pass of `gc` over an entry that is not live keeps the shape of the ring. -/
theorem gc_reclaim_ring (t rc : Nat) (p : Ptr) (s s1 : ObjectPool) (h h1 : Heap T)
    (held : List Ptr)
    (e : gc_reclaim t p s h = some (s1, h1))
    (A : Accounted s.handle_at h held) (F : FillOk s) (R : RingOk s)
    (ht : t < s._m_used_object_fill_index) (hp : s._m_used_objects[t]? = some p)
    (hrc : p.get_ref_count h = some rc) (hdead : ¬ rc > 1) : RingOk s1 := by
  obtain ⟨-, -, e1, e2, e3, e4, e5, e6, e7, -, hcase⟩ :=
    gc_reclaim_inv t rc p s s1 h h1 held e A F ht hp hrc hdead
  obtain ⟨a, c, -, rfl, -⟩ := dead_entry s h held t rc p A F ht hp hrc hdead
  have ho := R.order
  have hb := R.bound
  have hr := R.room
  rcases hcase with ⟨hroom, hidx, e8, -, e9⟩ | ⟨hroom, e8, e9, -⟩
  · constructor
    · rw [e4]; exact R.pow2
    · rw [e3, e4]; exact R.mask
    · rw [e6, e4]; exact R.len
    · rw [e2, e8]; omega
    · rw [e2, e8, e4]; omega
    · intro d hd1 hd2
      rw [e2] at hd1
      rw [e8] at hd2
      rw [e3, e9, List.getElem?_set]
      by_cases hdi : s._m_first_empty_slot &&& s._m_mask = d &&& s._m_mask
      · rw [if_pos hdi, if_pos hidx]; exact ⟨a, c, rfl⟩
      · rw [if_neg hdi]
        have : d ≠ s._m_first_empty_slot := fun e1 => hdi (by rw [e1])
        exact R.ring d hd1 (by omega)
    · intro i hi hcc
      rw [e4] at hi
      rw [e2, e8, e3] at hcc
      have hne : s._m_first_empty_slot &&& s._m_mask ≠ i := hcc _ ho (by omega)
      rw [e9, List.getElem?_set, if_neg hne]
      exact R.outside i hi (fun d hd1 hd2 => hcc d hd1 (by omega))
    · rw [e2, e8, e1, e7]; omega
    · rw [e5, e4]; exact R.grow
  · constructor
    · rw [e4]; exact R.pow2
    · rw [e3, e4]; exact R.mask
    · rw [e6, e4]; exact R.len
    · rw [e2, e8]; exact ho
    · rw [e2, e8, e4]; exact hb
    · intro d hd1 hd2
      rw [e2] at hd1
      rw [e8] at hd2
      rw [e3, e9]
      exact R.ring d hd1 hd2
    · intro i hi hcc
      rw [e4] at hi
      rw [e2, e8, e3] at hcc
      rw [e9]
      exact R.outside i hi hcc
    · rw [e2, e8, e1, e7]; omega
    · rw [e5, e4]; exact R.grow

omit [Inhabited T] in
/-- The loop of `gc` keeps the shape of the ring. -/
theorem gc_loop_ring (held : List Ptr) (fuel t : Nat) (s s2 : ObjectPool) (h h2 : Heap T)
    (e : gc_loop fuel t s h = some (s2, h2))
    (A : Accounted s.handle_at h held) (F : FillOk s) (R : RingOk s) : RingOk s2 := by
  refine gc_loop_induction
    (fun _ s h => Accounted s.handle_at h held ∧ FillOk s ∧ RingOk s)
    (fun _ _ _ s2 _ => RingOk s2)
    ?_ ?_ ?_ fuel t s h s2 h2 e ⟨A, F, R⟩
  · intro t s h hI _; exact hI.2.2
  · intro t s h p rc hI _ _ _ _
    exact ⟨hI, fun _ _ hP => hP⟩
  · intro t s h p rc s1 h1 hI ht hp hrc hl hg
    obtain ⟨A1, F1, -⟩ := gc_reclaim_inv t rc p s s1 h h1 held hg hI.1 hI.2.1 ht hp hrc hl
    exact ⟨⟨A1, F1, gc_reclaim_ring t rc p s s1 h h1 held hg hI.1 hI.2.1 hI.2.2 ht hp hrc hl⟩,
      fun _ _ hP => hP⟩

/-- The constructor establishes the shape of the ring when the larger of its
arguments lies in `[1, 2 ^ 32]`. -/
theorem ctor_ring (init_capacity grow_size : Nat) (s : ObjectPool) (h : Heap T)
    (h1 : 1 ≤ max init_capacity grow_size) (h2 : max init_capacity grow_size ≤ 2 ^ 32)
    (e : ctor init_capacity grow_size Heap.empty = some (s, h)) : RingOk s := by
  obtain ⟨k, hk, hnp, hle, -⟩ := next_power_of_two_spec _ h1 h2
  have hpos : 0 < 2 ^ k := Nat.two_pow_pos k
  have hle32 : 2 ^ k ≤ 2 ^ 32 := Nat.pow_le_pow_right (by omega) hk
  unfold ctor at e
  rw [hnp] at e
  have I0 := ctor_start_inv (T := T) grow_size (2 ^ k) (by simp only [SIZE_MOD]; omega)
  refine replenish_ring _ _ s _ h e ?_ I0.fill rfl ?_
  · constructor
    · exact ⟨k, rfl⟩
    · simp only [SIZE_MOD]; omega
    · simp
    · simp
    · simp
    · intro c hc1 hc2; simp only at hc2; omega
    · intro i hi _
      simp only at hi ⊢
      rw [List.getElem?_replicate, if_pos hi]
    · simp
    · simp only
      have := Nat.le_max_right init_capacity grow_size
      omega
  · simp only
    have := Nat.le_max_left init_capacity grow_size
    omega

/-- Shape of the ring in every reachable state of a pool built with the larger
argument in `[1, 2 ^ 32]`. -/
theorem reachable_ring (init_capacity grow_size : Nat) (w : World T)
    (h1 : 1 ≤ max init_capacity grow_size) (h2 : max init_capacity grow_size ≤ 2 ^ 32)
    (hr : Reachable init_capacity grow_size w) : RingOk w.pool := by
  induction hr with
  | ctor e => exact ctor_ring init_capacity grow_size _ _ h1 h2 e
  | @step w w1 a hr0 e ih =>
    have I := reachable_inv init_capacity grow_size w hr0
    cases a with
    | allocate v =>
      simp only [World.step] at e
      cases ha : allocate v w.pool w.heap with
      | none => rw [ha] at e; simp at e
      | some r =>
        obtain ⟨r, s2, h2⟩ := r
        rw [ha] at e
        simp only [Option.some.injEq] at e
        subst e
        exact allocate_ring v _ _ _ _ _ ha I.fill ih
    | gc =>
      simp only [World.step] at e
      cases hg : gc w.pool w.heap with
      | none => rw [hg] at e; simp at e
      | some r =>
        obtain ⟨s2, h2⟩ := r
        rw [hg] at e
        simp only [Option.some.injEq] at e
        subst e
        exact gc_loop_ring w.held _ 0 _ _ _ _ hg I.acc I.fill ih
    | copy p =>
      simp only [World.step] at e
      split at e
      · cases hc : p.copy_ctor w.heap with
        | none => rw [hc] at e; simp at e
        | some r =>
          rw [hc] at e
          simp only [Option.some.injEq] at e
          subst e
          exact ih
      · simp at e
    | drop p =>
      simp only [World.step] at e
      split at e
      · cases hc : p.dtor w.heap with
        | none => rw [hc] at e; simp at e
        | some r =>
          rw [hc] at e
          simp only [Option.some.injEq] at e
          subst e
          exact ih
      · simp at e

end ObjectPool
/-! ## The ring as a queue -/

namespace ObjectPool

/-- Recycling appends to the queue: writing `p` at position
`_m_first_empty_slot & _m_mask` and advancing the empty cursor puts `p` behind
the handles already waiting, when the ring is not full. -/
theorem ring_contents_push (s s1 : ObjectPool) (p : Ptr)
    (hpow : ∃ k, s._m_vector_size = 2 ^ k) (hmask : s._m_mask = s._m_vector_size - 1)
    (hlen : s._m_allocated_objects.length = s._m_vector_size)
    (hord : s._m_first_full_slot ≤ s._m_first_empty_slot)
    (hroom : s._m_first_empty_slot - s._m_first_full_slot < s._m_vector_size)
    (eA : s1._m_allocated_objects = s._m_allocated_objects.set
      (s._m_first_empty_slot &&& s._m_mask) p)
    (eE : s1._m_first_empty_slot = s._m_first_empty_slot + 1)
    (eF : s1._m_first_full_slot = s._m_first_full_slot)
    (eM : s1._m_mask = s._m_mask) :
    ring_contents s1 = ring_contents s ++ [p] := by
  obtain ⟨k, hk⟩ := hpow
  have hm : ∀ x, x &&& s._m_mask = x % s._m_vector_size := by
    intro x; rw [hmask, hk]; exact and_mask_eq_mod x k
  have hpos : 0 < s._m_vector_size := by rw [hk]; exact Nat.two_pow_pos k
  unfold ring_contents
  rw [eE, eF, eM, eA]
  have hsub : s._m_first_empty_slot + 1 - s._m_first_full_slot
      = (s._m_first_empty_slot - s._m_first_full_slot) + 1 := by omega
  rw [hsub, List.range_succ, List.map_append]
  congr 1
  · apply List.map_congr_left
    intro i hi
    rw [List.mem_range] at hi
    rw [List.getD_eq_getElem?_getD, List.getD_eq_getElem?_getD, List.getElem?_set, if_neg]
    rw [hm, hm]
    exact fun e => mod_ne_of_lt _ _ _ (by omega) (by omega) e.symm
  · simp only [List.map_cons, List.map_nil, List.cons.injEq, and_true]
    have : s._m_first_full_slot + (s._m_first_empty_slot - s._m_first_full_slot)
        = s._m_first_empty_slot := by omega
    rw [this, List.getD_eq_getElem?_getD, List.getElem?_set, if_pos rfl, if_pos]
    · rfl
    · rw [hm, hlen]; exact Nat.mod_lt _ hpos

/-- Allocation removes the front of the queue: nulling position
`_m_first_full_slot & _m_mask` and advancing the full cursor leaves the handles
behind the first one. -/
theorem ring_contents_pop (s s1 : ObjectPool)
    (hpow : ∃ k, s._m_vector_size = 2 ^ k) (hmask : s._m_mask = s._m_vector_size - 1)
    (hbound : s._m_first_empty_slot - s._m_first_full_slot ≤ s._m_vector_size)
    (eA : s1._m_allocated_objects = s._m_allocated_objects.set
      (s._m_first_full_slot &&& s._m_mask) Ptr.null)
    (eE : s1._m_first_empty_slot = s._m_first_empty_slot)
    (eF : s1._m_first_full_slot = s._m_first_full_slot + 1)
    (eM : s1._m_mask = s._m_mask) :
    ring_contents s1 = (ring_contents s).tail := by
  obtain ⟨k, hk⟩ := hpow
  have hm : ∀ x, x &&& s._m_mask = x % s._m_vector_size := by
    intro x; rw [hmask, hk]; exact and_mask_eq_mod x k
  unfold ring_contents
  rw [eE, eF, eM, eA]
  by_cases hne : s._m_first_full_slot < s._m_first_empty_slot
  · have hsub : s._m_first_empty_slot - s._m_first_full_slot
        = (s._m_first_empty_slot - (s._m_first_full_slot + 1)) + 1 := by omega
    rw [hsub, List.range_succ_eq_map, List.map_cons, List.tail_cons, List.map_map]
    apply List.map_congr_left
    intro i hi
    rw [List.mem_range] at hi
    simp only [Function.comp_apply]
    rw [List.getD_eq_getElem?_getD, List.getD_eq_getElem?_getD, List.getElem?_set, if_neg]
    · congr 3; omega
    · rw [hm, hm]
      exact mod_ne_of_lt _ _ _ (by omega) (by omega)
  · have h0 : s._m_first_empty_slot - (s._m_first_full_slot + 1) = 0 := by omega
    have h1 : s._m_first_empty_slot - s._m_first_full_slot = 0 := by omega
    rw [h0, h1]
    rfl

/-- The front of the queue is the ring entry at the full cursor. -/
theorem ring_contents_head (s : ObjectPool) (p : Ptr) (rest : List Ptr)
    (e : ring_contents s = p :: rest) (hmask : s._m_mask < s._m_allocated_objects.length) :
    s._m_allocated_objects[s._m_first_full_slot &&& s._m_mask]? = some p ∧
    s._m_first_full_slot < s._m_first_empty_slot := by
  unfold ring_contents at e
  have hne : s._m_first_full_slot < s._m_first_empty_slot := by
    by_contra hcon
    have h1 : s._m_first_empty_slot - s._m_first_full_slot = 0 := by omega
    rw [h1] at e
    simp at e
  have hsub : s._m_first_empty_slot - s._m_first_full_slot
      = (s._m_first_empty_slot - (s._m_first_full_slot + 1)) + 1 := by omega
  rw [hsub, List.range_succ_eq_map, List.map_cons] at e
  have hh := (List.cons.inj e).1
  simp only [Nat.add_zero] at hh
  refine ⟨?_, hne⟩
  have hidx : s._m_first_full_slot &&& s._m_mask < s._m_allocated_objects.length :=
    Nat.lt_of_le_of_lt Nat.and_le_right hmask
  rw [List.getD_eq_getElem?_getD, List.getElem?_eq_getElem hidx] at hh
  rw [List.getElem?_eq_getElem hidx, ← hh]
  rfl

end ObjectPool
/-! ## Exact reuse order -/

namespace ObjectPool

variable {T : Type}

/-- With every used entry dead and room in the ring for all of them, the loop of
`gc` empties the used-object table without touching the free store and queues
the entries in the order `recycle_order`. -/
theorem gc_loop_all_dead : ∀ (m : Nat) (l : List Ptr) (s : ObjectPool) (h : Heap T)
    (fuel : Nat), l.length = m →
    (∃ k, s._m_vector_size = 2 ^ k) → s._m_mask = s._m_vector_size - 1 →
    s._m_allocated_objects.length = s._m_vector_size →
    s._m_first_full_slot ≤ s._m_first_empty_slot →
    (s._m_first_empty_slot - s._m_first_full_slot) + m ≤ s._m_vector_size →
    s._m_used_object_fill_index = m → m ≤ s._m_used_objects.length →
    s._m_used_objects.take m = l →
    (∀ p, p ∈ l → ∃ a c, p = ⟨some a, some c⟩ ∧ h.cnt c = some 1) →
    m ≤ fuel →
    ∃ s1, gc_loop fuel 0 s h = some (s1, h) ∧ s1._m_used_object_fill_index = 0 ∧
      ring_contents s1 = ring_contents s ++ recycle_order l ∧
      s1._m_first_full_slot = s._m_first_full_slot ∧
      s1._m_first_empty_slot = s._m_first_empty_slot + m ∧
      s1._m_mask = s._m_mask ∧ s1._m_vector_size = s._m_vector_size ∧
      s1._m_allocated_objects.length = s._m_allocated_objects.length ∧
      s1._m_used_objects.length = s._m_used_objects.length := by
  intro m
  induction m with
  | zero =>
    intro l s h fuel hl _ _ _ _ _ hfill _ _ _ _
    have : l = [] := List.length_eq_zero.1 hl
    subst this
    exact ⟨s, gc_loop_done fuel 0 s h (by omega), hfill, by simp [recycle_order], rfl, rfl,
      rfl, rfl, rfl, rfl⟩
  | succ m ih =>
    intro l s h fuel hl hpow hmask hlen hord hroom hfill hU htake hdead hfuel
    obtain ⟨k, hk⟩ := hpow
    have hpos : 0 < s._m_vector_size := by rw [hk]; exact Nat.two_pow_pos k
    cases l with
    | nil => simp at hl
    | cons x bs =>
      have hbl : bs.length = m := by simpa using hl
      cases fuel with
      | zero => omega
      | succ f =>
        have hUj : ∀ j, j < m + 1 → s._m_used_objects[j]? = (x :: bs)[j]? := by
          intro j hj
          rw [← htake, List.getElem?_take_of_lt hj]
        have hx : s._m_used_objects[0]? = some x := by
          rw [hUj 0 (by omega), List.getElem?_cons_zero]
        obtain ⟨a, c, hxe, hc⟩ := hdead x (List.mem_cons_self _ _)
        have hrc : x.get_ref_count h = some 1 := by
          subst hxe; exact hc
        have hidx : s._m_first_empty_slot &&& s._m_mask < s._m_allocated_objects.length := by
          rw [hmask, hk, and_mask_eq_mod, hlen, hk]
          exact Nat.mod_lt _ (Nat.two_pow_pos k)
        obtain ⟨used, hulen, hus, e1⟩ := gc_reclaim_recycle 0 x s h (by omega) hidx
          (by omega) (by omega)
        rw [hfill] at hus
        simp only [Nat.add_sub_cancel] at hus
        -- the table after this pass
        have hl1 : used.take m = (match bs.reverse with
            | [] => []
            | y :: ys => y :: ys.reverse) := by
          rcases List.eq_nil_or_concat bs with hb | ⟨bs1, y, hb⟩
          · subst hb
            simp only [List.length_nil] at hbl
            subst hbl
            rfl
          · rw [List.concat_eq_append] at hb
            subst hb
            have hm1 : m = bs1.length + 1 := by simpa using hbl.symm
            simp only [List.reverse_append, List.reverse_cons, List.reverse_nil, List.nil_append,
              List.singleton_append, List.reverse_reverse]
            apply List.ext_getElem?
            intro j
            by_cases hj : j < m
            · rw [List.getElem?_take_of_lt hj, hus j, if_neg (by omega)]
              by_cases hj0 : j = 0
              · subst hj0
                rw [if_pos rfl, hUj m (by omega), List.getElem?_cons_zero, hm1,
                  List.getElem?_cons_succ, List.getElem?_append_right (by omega)]
                simp
              · rw [if_neg hj0, hUj j (by omega)]
                obtain ⟨i, rfl⟩ : ∃ i, j = i + 1 := ⟨j - 1, by omega⟩
                rw [List.getElem?_cons_succ, List.getElem?_cons_succ,
                  List.getElem?_append_left (by omega)]
            · rw [List.getElem?_eq_none (by simp; omega),
                List.getElem?_eq_none (by simp; omega)]
        have hmem : ∀ p, p ∈ used.take m → p ∈ x :: bs := by
          intro p hp
          obtain ⟨j, hj, hpj⟩ := List.mem_iff_getElem?.1 hp |> fun ⟨j, e⟩ =>
            (⟨j, by
              by_contra hcon
              rw [List.getElem?_eq_none (by simp; omega)] at e
              simp at e, e⟩ : ∃ j, j < m ∧ (used.take m)[j]? = some p)
          rw [List.getElem?_take_of_lt hj, hus j, if_neg (by omega)] at hpj
          by_cases hj0 : j = 0
          · rw [if_pos hj0, hUj m (by omega)] at hpj
            exact List.getElem?_mem hpj
          · rw [if_neg hj0, hUj j (by omega)] at hpj
            exact List.getElem?_mem hpj
        have hpush := ring_contents_push s
          { s with _m_allocated_objects := s._m_allocated_objects.set
                     (s._m_first_empty_slot &&& s._m_mask) x,
                   _m_used_objects := used,
                   _m_first_empty_slot := s._m_first_empty_slot + 1,
                   _m_used_object_fill_index := s._m_used_object_fill_index - 1 }
          x ⟨k, hk⟩ hmask hlen hord (by omega) rfl rfl rfl rfl
        obtain ⟨s2, e2, f0, f1, f2, f3, f4, f5, f6, f7⟩ := ih (used.take m)
          { s with _m_allocated_objects := s._m_allocated_objects.set
                     (s._m_first_empty_slot &&& s._m_mask) x,
                   _m_used_objects := used,
                   _m_first_empty_slot := s._m_first_empty_slot + 1,
                   _m_used_object_fill_index := s._m_used_object_fill_index - 1 } h f
          (by rw [List.length_take]; omega) ⟨k, hk⟩ hmask (by simpa using hlen)
          (by simp only; omega) (by simp only; omega) (by simp only; omega)
          (by simp only; omega) rfl
          (fun p hp => hdead p (hmem p hp)) (by omega)
        refine ⟨s2, ?_, f0, ?_, f2, ?_, f4, f5, ?_, ?_⟩
        · unfold gc_loop
          rw [if_pos (by omega), hx]
          simp only [hrc, if_neg (by omega : ¬ 1 > 1), e1, e2]
        · rw [f1, hpush, hl1, List.append_assoc]
          congr 1
          simp only [recycle_order, List.singleton_append, List.cons.injEq, true_and]
          cases hbr : bs.reverse with
          | nil => rfl
          | cons y ys => simp [recycle_order]
        · rw [f3]; simp only; omega
        · rw [f6]; simp
        · rw [f7, hulen]

end ObjectPool

namespace ObjectPool

variable {T : Type} [Inhabited T]

/-- Successive allocations take the handles of the ring from the front: with
`q` at the front of the queue, every handle of `q` owning a live slot, and room
in the used-object table, `q.length` calls of `allocate` return exactly `q`. -/
theorem allocate_list_queue : ∀ (vs : List T) (q rest : List Ptr) (s : ObjectPool)
    (h : Heap T), vs.length = q.length →
    (∃ k, s._m_vector_size = 2 ^ k) → s._m_mask = s._m_vector_size - 1 →
    s._m_allocated_objects.length = s._m_vector_size →
    s._m_first_empty_slot - s._m_first_full_slot ≤ s._m_vector_size →
    ring_contents s = q ++ rest →
    (∀ p, p ∈ q → ∃ a c u n, p = ⟨some a, some c⟩ ∧ h.obj a = some u ∧ h.cnt c = some n) →
    s._m_used_object_fill_index + q.length ≤ s._m_used_objects.length →
    ∃ s2 h2, allocate_list vs s h = some (q, s2, h2) := by
  intro vs
  induction vs with
  | nil =>
    intro q rest s h hl _ _ _ _ _ _ _
    have : q = [] := List.length_eq_zero.1 hl.symm
    subst this
    exact ⟨s, h, rfl⟩
  | cons v vs ih =>
    intro q rest s h hl hpow hmask hlen hbound hring hlive hfill
    cases q with
    | nil => simp at hl
    | cons p q1 =>
      obtain ⟨k, hk⟩ := hpow
      have hpos : 0 < s._m_vector_size := by rw [hk]; exact Nat.two_pow_pos k
      obtain ⟨hp, hne⟩ := ring_contents_head s p (q1 ++ rest) hring (by omega)
      obtain ⟨a, c, u, n, rfl, hu, hn⟩ := hlive p (List.mem_cons_self _ _)
      have hf : s._m_used_object_fill_index < s._m_used_objects.length := by
        simp only [List.length_cons] at hfill; omega
      have e0 : (if s._m_first_full_slot = s._m_first_empty_slot
          then replenish s._m_grow_size s h else some (s, h)) = some (s, h) := by
        rw [if_neg (by omega)]
      have e1 := allocate_of v s s h h a c n u e0 hp hu hn hf
      have hpop := ring_contents_pop s
        { s with _m_used_objects := s._m_used_objects.set s._m_used_object_fill_index
                   ⟨some a, some c⟩,
                 _m_allocated_objects := s._m_allocated_objects.set
                   (s._m_first_full_slot &&& s._m_mask) Ptr.null,
                 _m_first_full_slot := s._m_first_full_slot + 1,
                 _m_used_object_fill_index := s._m_used_object_fill_index + 1 }
        ⟨k, hk⟩ hmask hbound rfl rfl rfl rfl
      rw [hring, List.cons_append, List.tail_cons] at hpop
      have hcnt : (h.set_obj a (some v)).cnt c = some n := by simpa using hn
      obtain ⟨s2, h2, e2⟩ := ih q1 rest
        { s with _m_used_objects := s._m_used_objects.set s._m_used_object_fill_index
                   ⟨some a, some c⟩,
                 _m_allocated_objects := s._m_allocated_objects.set
                   (s._m_first_full_slot &&& s._m_mask) Ptr.null,
                 _m_first_full_slot := s._m_first_full_slot + 1,
                 _m_used_object_fill_index := s._m_used_object_fill_index + 1 }
        ((h.set_obj a (some v)).set_cnt c (some (n + 1)))
        (by simpa using hl) ⟨k, hk⟩ hmask (by simpa using hlen) (by simp only; omega) hpop
        (by
          intro p1 hp1
          obtain ⟨a1, c1, u1, n1, rfl, hu1, hn1⟩ := hlive p1 (List.mem_cons_of_mem _ hp1)
          refine ⟨a1, c1, if a1 = a then v else u1, if c1 = c then n + 1 else n1, rfl, ?_, ?_⟩
          · rw [Heap.obj_set_cnt, Heap.obj_set_obj h a u _ a1 hu]
            split <;> simp [hu1]
          · rw [Heap.cnt_set_cnt _ c n _ c1 hcnt]
            split
            · rfl
            · rw [Heap.cnt_set_obj, hn1])
        (by simp only [List.length_set]; simp only [List.length_cons] at hfill; omega)
      refine ⟨s2, h2, ?_⟩
      simp only [allocate_list, e1, e2]

end ObjectPool
/-! ## What `gc` reclaims -/

namespace ObjectPool

theorem mem_active_table (s : ObjectPool) (p : Ptr) :
    p ∈ active_table s ↔ ∃ j, j < s._m_used_object_fill_index ∧ s._m_used_objects[j]? = some p := by
  unfold active_table
  rw [List.mem_iff_getElem?]
  constructor
  · rintro ⟨j, hj⟩
    rw [List.getElem?_take] at hj
    split at hj
    · exact ⟨j, by assumption, hj⟩
    · simp at hj
  · rintro ⟨j, hj, e⟩
    exact ⟨j, by rw [List.getElem?_take_of_lt hj]; exact e⟩

theorem length_active_table (s : ObjectPool) (F : FillOk s) :
    (active_table s).length = s._m_used_object_fill_index := by
  unfold active_table
  rw [List.length_take]
  have := F.fill_le
  omega

/-- The queue of the ring is determined by the ring entries, the two cursors and
the mask. -/
theorem ring_contents_congr (s s1 : ObjectPool)
    (eA : s1._m_allocated_objects = s._m_allocated_objects)
    (eE : s1._m_first_empty_slot = s._m_first_empty_slot)
    (eF : s1._m_first_full_slot = s._m_first_full_slot)
    (eM : s1._m_mask = s._m_mask) : ring_contents s1 = ring_contents s := by
  unfold ring_contents
  rw [eA, eE, eF, eM]

variable {T : Type}

/-- The entries of the used-object table below the fill index are pairwise
different. -/
theorem active_table_nodup (s : ObjectPool) (h : Heap T) (held : List Ptr)
    (A : Accounted s.handle_at h held) (F : FillOk s) : (active_table s).Nodup := by
  rw [List.nodup_iff_getElem?_ne_getElem?]
  intro i j hij hj hne
  rw [length_active_table s F] at hj
  unfold active_table at hne
  rw [List.getElem?_take_of_lt (by omega), List.getElem?_take_of_lt hj] at hne
  obtain ⟨a, c, hi⟩ := F.below i (by omega)
  rw [hi] at hne
  have := A.distinct (false, i) (false, j) a c a c hi hne.symm (Or.inl rfl)
  simp only [Prod.mk.injEq, true_and] at this
  omega

/-- A used entry passes the test `get_ref_count() > 1` exactly when a caller
holds a copy of it. -/
theorem is_live_iff_held (s : ObjectPool) (h : Heap T) (held : List Ptr)
    (A : Accounted s.handle_at h held) (F : FillOk s) (j : Nat) (p : Ptr)
    (hj : j < s._m_used_object_fill_index) (hp : s._m_used_objects[j]? = some p) :
    is_live h p = true ↔ p ∈ held := by
  obtain ⟨a, c, hac⟩ := F.below j hj
  rw [hp] at hac
  have := Option.some.inj hac
  subst this
  obtain ⟨-, hc⟩ := A.live (false, j) a c hp
  have hrc : (⟨some a, some c⟩ : Ptr).get_ref_count h
      = some (1 + held.count ⟨some a, some c⟩) := hc
  unfold is_live
  rw [hrc]
  simp only [decide_eq_true_eq]
  rw [← List.count_pos_iff]
  omega

/-- Postcondition of the loop of `gc` started at index `t`: the used entries
afterwards are the entries below `t` and the entries from `t` on that a caller
holds; the free store only lost cells; the queue of the ring only grew at the
back; every entry from `t` on that no caller holds is in the queue or has been
destroyed. -/
theorem gc_loop_post (held : List Ptr) (fuel t : Nat) (s s2 : ObjectPool) (h h2 : Heap T)
    (e : gc_loop fuel t s h = some (s2, h2))
    (A : Accounted s.handle_at h held) (F : FillOk s) (R : RingOk s)
    (ht : t ≤ s._m_used_object_fill_index) :
    (∀ p, p ∈ active_table s2 ↔
      (∃ j, j < t ∧ s._m_used_objects[j]? = some p) ∨
      (∃ j, t ≤ j ∧ j < s._m_used_object_fill_index ∧ s._m_used_objects[j]? = some p ∧
        p ∈ held)) ∧
    (∀ c, h2.cnt c = h.cnt c ∨ h2.cnt c = none) ∧
    (∀ a, h2.obj a = h.obj a ∨ h2.obj a = none) ∧
    (∃ l, ring_contents s2 = ring_contents s ++ l) ∧
    (∀ j p, t ≤ j → j < s._m_used_object_fill_index → s._m_used_objects[j]? = some p →
      p ∉ held → p ∈ ring_contents s2 ∨ released h2 p) := by
  refine gc_loop_induction
    (fun t s h => Accounted s.handle_at h held ∧ FillOk s ∧ RingOk s ∧
      t ≤ s._m_used_object_fill_index)
    (fun t s h s2 h2 =>
      (∀ p, p ∈ active_table s2 ↔
        (∃ j, j < t ∧ s._m_used_objects[j]? = some p) ∨
        (∃ j, t ≤ j ∧ j < s._m_used_object_fill_index ∧ s._m_used_objects[j]? = some p ∧
          p ∈ held)) ∧
      (∀ c, h2.cnt c = h.cnt c ∨ h2.cnt c = none) ∧
      (∀ a, h2.obj a = h.obj a ∨ h2.obj a = none) ∧
      (∃ l, ring_contents s2 = ring_contents s ++ l) ∧
      (∀ j p, t ≤ j → j < s._m_used_object_fill_index → s._m_used_objects[j]? = some p →
        p ∉ held → p ∈ ring_contents s2 ∨ released h2 p))
    ?_ ?_ ?_ fuel t s h s2 h2 e ⟨A, F, R, ht⟩
  · -- the loop stops at once
    intro t s h hI hnt
    refine ⟨?_, fun _ => Or.inl rfl, fun _ => Or.inl rfl, ⟨[], by simp⟩, ?_⟩
    · intro p
      rw [mem_active_table]
      constructor
      · rintro ⟨j, hj, hp⟩
        exact Or.inl ⟨j, by omega, hp⟩
      · rintro (⟨j, hj, hp⟩ | ⟨j, hj1, hj2, -⟩)
        · exact ⟨j, by have := hI.2.2.2; omega, hp⟩
        · omega
    · intro j p hj1 hj2
      omega
  · -- a live entry is skipped
    intro t s h p rc hI ht hp hrc hlive
    refine ⟨⟨hI.1, hI.2.1, hI.2.2.1, by omega⟩, ?_⟩
    have hheld : p ∈ held := by
      rw [← is_live_iff_held s h held hI.1 hI.2.1 t p ht hp]
      unfold is_live
      rw [hrc]
      simpa using hlive
    rintro s2 h2 ⟨hM, hC, hO, hQ, hD⟩
    refine ⟨?_, hC, hO, hQ, ?_⟩
    · intro q
      rw [hM q]
      constructor
      · rintro (⟨j, hj, hq⟩ | ⟨j, hj1, hj2, hq, hh⟩)
        · by_cases hjt : j = t
          · subst hjt
            rw [hp] at hq
            have := Option.some.inj hq
            subst this
            exact Or.inr ⟨j, Nat.le_refl _, ht, hp, hheld⟩
          · exact Or.inl ⟨j, by omega, hq⟩
        · exact Or.inr ⟨j, by omega, hj2, hq, hh⟩
      · rintro (⟨j, hj, hq⟩ | ⟨j, hj1, hj2, hq, hh⟩)
        · exact Or.inl ⟨j, by omega, hq⟩
        · by_cases hjt : j = t
          · exact Or.inl ⟨j, by omega, hq⟩
          · exact Or.inr ⟨j, by omega, hj2, hq, hh⟩
    · intro j q hj1 hj2 hq hnh
      by_cases hjt : j = t
      · subst hjt
        rw [hp] at hq
        have := Option.some.inj hq
        subst this
        exact absurd hheld hnh
      · exact hD j q (by omega) hj2 hq hnh
  · -- a dead entry is reclaimed
    intro t s h p rc s1 h1 hI ht hp hrc hdead hg
    obtain ⟨A, F, R, -⟩ := hI
    obtain ⟨A1, F1, e1, e2, e3, e4, e5, e6, e7, hU, hcase⟩ :=
      gc_reclaim_inv t rc p s s1 h h1 held hg A F ht hp hrc hdead
    have R1 := gc_reclaim_ring t rc p s s1 h h1 held hg A F R ht hp hrc hdead
    obtain ⟨a, c, v, hpe, hc, hv, hnh⟩ := dead_entry s h held t rc p A F ht hp hrc hdead
    refine ⟨⟨A1, F1, R1, by omega⟩, ?_⟩
    rintro s2 h2 ⟨hM, hC, hO, ⟨l, hQ⟩, hD⟩
    -- the free store after this pass
    have hC1 : ∀ k, h1.cnt k = h.cnt k ∨ h1.cnt k = none := by
      intro k
      rcases hcase with ⟨-, -, -, eh, -⟩ | ⟨-, -, -, a1, c1, ep, eh⟩
      · rw [eh]; exact Or.inl rfl
      · rw [hpe] at ep
        simp only [Ptr.mk.injEq, Option.some.injEq] at ep
        obtain ⟨rfl, rfl⟩ := ep
        rw [eh]
        have e0 : (h.set_cnt c (some 0)).cnt c = some 0 := by
          rw [Heap.cnt_set_cnt h c 1 _ c hc]; simp
        rw [Heap.cnt_set_cnt _ c 0 _ k (by simpa using e0)]
        by_cases hk : k = c
        · rw [if_pos hk]; exact Or.inr rfl
        · rw [if_neg hk, Heap.cnt_set_obj, Heap.cnt_set_cnt h c 1 _ k hc, if_neg hk]
          exact Or.inl rfl
    have hO1 : ∀ k, h1.obj k = h.obj k ∨ h1.obj k = none := by
      intro k
      rcases hcase with ⟨-, -, -, eh, -⟩ | ⟨-, -, -, a1, c1, ep, eh⟩
      · rw [eh]; exact Or.inl rfl
      · rw [hpe] at ep
        simp only [Ptr.mk.injEq, Option.some.injEq] at ep
        obtain ⟨rfl, rfl⟩ := ep
        rw [eh, Heap.obj_set_cnt, Heap.obj_set_obj _ a v _ k (by simpa using hv)]
        by_cases hk : k = a
        · rw [if_pos hk]; exact Or.inr rfl
        · rw [if_neg hk]; exact Or.inl rfl
    -- the entry itself: queued or destroyed
    have hself : p ∈ ring_contents s2 ∨ released h2 p := by
      rcases hcase with ⟨hroom, hidx, e8, eh, e9⟩ | ⟨-, -, -, a1, c1, ep, eh⟩
      · left
        have := ring_contents_push s s1 p R.pow2 R.mask R.len R.order (by have := R.order; omega) e9 e8 e2 e3
        rw [hQ, this]
        simp
      · right
        rw [hpe] at ep
        simp only [Ptr.mk.injEq, Option.some.injEq] at ep
        obtain ⟨rfl, rfl⟩ := ep
        have hc1 : h1.cnt c = none := by
          rw [eh]
          have e0 : (h.set_cnt c (some 0)).cnt c = some 0 := by
            rw [Heap.cnt_set_cnt h c 1 _ c hc]; simp
          rw [Heap.cnt_set_cnt _ c 0 _ c (by simpa using e0), if_pos rfl]
        have ho1 : h1.obj a = none := by
          rw [eh, Heap.obj_set_cnt, Heap.obj_set_obj _ a v _ a (by simpa using hv), if_pos rfl]
        refine ⟨a, c, hpe, ?_, ?_⟩
        · rcases hO a with e | e
          · rw [e, ho1]
          · exact e
        · rcases hC c with e | e
          · rw [e, hc1]
          · exact e
    refine ⟨?_, ?_, ?_, ?_, ?_⟩
    · intro q
      rw [hM q]
      constructor
      · rintro (⟨j, hj, hq⟩ | ⟨j, hj1, hj2, hq, hh⟩)
        · rw [hU j, if_neg (by omega), if_neg (by omega)] at hq
          exact Or.inl ⟨j, hj, hq⟩
        · rw [e1] at hj2
          rw [hU j, if_neg (by omega)] at hq
          by_cases hjt : j = t
          · rw [if_pos hjt] at hq
            exact Or.inr ⟨_, by omega, by omega, hq, hh⟩
          · rw [if_neg hjt] at hq
            exact Or.inr ⟨j, hj1, by omega, hq, hh⟩
      · rintro (⟨j, hj, hq⟩ | ⟨j, hj1, hj2, hq, hh⟩)
        · refine Or.inl ⟨j, hj, ?_⟩
          rw [hU j, if_neg (by omega), if_neg (by omega)]
          exact hq
        · by_cases hjt : j = t
          · subst hjt
            rw [hp] at hq
            have := Option.some.inj hq
            subst this
            exact absurd hh hnh
          · by_cases hjl : j = s._m_used_object_fill_index - 1
            · refine Or.inr ⟨t, Nat.le_refl _, by rw [e1]; omega, ?_, hh⟩
              rw [hU t, if_neg (by omega), if_pos rfl, ← hjl]
              exact hq
            · refine Or.inr ⟨j, hj1, by rw [e1]; omega, ?_, hh⟩
              rw [hU j, if_neg hjl, if_neg hjt]
              exact hq
    · intro k
      rcases hC k with e | e
      · rw [e]; exact hC1 k
      · exact Or.inr e
    · intro k
      rcases hO k with e | e
      · rw [e]; exact hO1 k
      · exact Or.inr e
    · rcases hcase with ⟨hroom, hidx, e8, eh, e9⟩ | ⟨-, e8, e9, -⟩
      · have := ring_contents_push s s1 p R.pow2 R.mask R.len R.order (by have := R.order; omega) e9 e8 e2 e3
        exact ⟨[p] ++ l, by rw [hQ, this, List.append_assoc]⟩
      · exact ⟨l, by rw [hQ, ring_contents_congr s s1 e9 e8 e2 e3]⟩
    · intro j q hj1 hj2 hq hqh
      by_cases hjt : j = t
      · subst hjt
        rw [hp] at hq
        have := Option.some.inj hq
        subst this
        exact hself
      · by_cases hjl : j = s._m_used_object_fill_index - 1
        · refine hD t q (Nat.le_refl _) (by rw [e1]; omega) ?_ hqh
          rw [hU t, if_neg (by omega), if_pos rfl, ← hjl]
          exact hq
        · refine hD j q hj1 (by rw [e1]; omega) ?_ hqh
          rw [hU j, if_neg hjl, if_neg hjt]
          exact hq

end ObjectPool
/-! ## What the constructor fixes, and what happens outside its range -/

namespace ObjectPool

variable {T : Type} [Inhabited T]

/-- The constructor returns whenever `next_power_of_two` gives a positive
capacity, and sets the members as its initialiser list says. -/
theorem ctor_total (init_capacity grow_size : Nat)
    (hpos : 0 < next_power_of_two (max init_capacity grow_size)) :
    ∃ (s : ObjectPool) (h : Heap T), ctor init_capacity grow_size Heap.empty = some (s, h) ∧
      s._m_vector_size = next_power_of_two (max init_capacity grow_size) ∧
      s._m_mask = next_power_of_two (max init_capacity grow_size) - 1 ∧
      s._m_grow_size = grow_size ∧
      s._m_first_full_slot = 0 ∧ s._m_first_empty_slot = init_capacity ∧
      s._m_used_object_fill_index = 0 ∧
      s._m_allocated_objects.length = next_power_of_two (max init_capacity grow_size) ∧
      next_power_of_two (max init_capacity grow_size) ≤ s._m_used_objects.length ∧
      ∀ c, c < init_capacity →
        ∃ a cc, s._m_allocated_objects[c &&& s._m_mask]? = some ⟨some a, some cc⟩ := by
  have hlt := next_power_of_two_lt (max init_capacity grow_size)
  have hmask : (next_power_of_two (max init_capacity grow_size) + (SIZE_MOD - 1)) % SIZE_MOD
      = next_power_of_two (max init_capacity grow_size) - 1 := by
    simp only [SIZE_MOD] at hlt ⊢
    omega
  unfold ctor
  simp only [hmask]
  obtain ⟨s0, h0, hl⟩ := replenish_loop_isSome (T := T) init_capacity
    { _m_grow_size := grow_size
      _m_vector_size := next_power_of_two (max init_capacity grow_size)
      _m_mask := next_power_of_two (max init_capacity grow_size) - 1
      _m_first_full_slot := 0
      _m_first_empty_slot := 0
      _m_used_object_fill_index := 0
      _m_allocated_objects :=
        List.replicate (next_power_of_two (max init_capacity grow_size)) Ptr.null
      _m_used_objects :=
        List.replicate (next_power_of_two (max init_capacity grow_size)) Ptr.null }
    Heap.empty (by simp only [List.length_replicate]; omega)
  obtain ⟨eU, eF, e3, e4, e5, e6, e7, e8⟩ := replenish_loop_frame _ _ _ s0 h0 hl
  have hring := replenish_loop_ring _ _ _ s0 h0 0 hl (fun c _ hc => by simp only at hc; omega)
  refine ⟨_, _, replenish_of_loop _ _ s0 _ h0 hl (by simp), e6, e5, e7, e3, ?_, eF, ?_, ?_, ?_⟩
  · simp only [e4]; omega
  · simp only [e8, List.length_replicate]
  · simp only [length_resize_by, eU, List.length_replicate]; omega
  · intro c hc
    simp only [e5]
    exact hring c (Nat.zero_le _) (by simp only; omega)

/-- No action changes the grow size, the capacity or the mask. -/
theorem step_frame (a : Action T) (w w1 : World T) (e : World.step a w = some w1)
    (I : Inv w) : w1.pool._m_grow_size = w.pool._m_grow_size ∧
      w1.pool._m_vector_size = w.pool._m_vector_size ∧ w1.pool._m_mask = w.pool._m_mask := by
  cases a with
  | allocate v =>
    simp only [World.step] at e
    cases ha : allocate v w.pool w.heap with
    | none => rw [ha] at e; simp at e
    | some r =>
      obtain ⟨r, s2, h2⟩ := r
      rw [ha] at e
      simp only [Option.some.injEq] at e
      subst e
      obtain ⟨-, -, -, -, -, -, e4, e5, e6, -⟩ := allocate_inv v _ _ _ _ _ _ ha I.acc I.fill
      exact ⟨e6, e5, e4⟩
  | gc =>
    simp only [World.step] at e
    cases hg : gc w.pool w.heap with
    | none => rw [hg] at e; simp at e
    | some r =>
      obtain ⟨s2, h2⟩ := r
      rw [hg] at e
      simp only [Option.some.injEq] at e
      subst e
      obtain ⟨-, e2, e3, e4, -⟩ := gc_loop_frame w.held _ 0 _ _ _ _ hg I.acc I.fill
      exact ⟨e4, e3, e2⟩
  | copy p =>
    simp only [World.step] at e
    split at e
    · cases hc : p.copy_ctor w.heap with
      | none => rw [hc] at e; simp at e
      | some r =>
        rw [hc] at e
        simp only [Option.some.injEq] at e
        subst e
        exact ⟨rfl, rfl, rfl⟩
    · simp at e
  | drop p =>
    simp only [World.step] at e
    split at e
    · cases hc : p.dtor w.heap with
      | none => rw [hc] at e; simp at e
      | some r =>
        rw [hc] at e
        simp only [Option.some.injEq] at e
        subst e
        exact ⟨rfl, rfl, rfl⟩
    · simp at e

/-- Grow size and capacity of a reachable state are those the constructor set. -/
theorem reachable_params (init_capacity grow_size : Nat) (w : World T)
    (hr : Reachable init_capacity grow_size w) :
    w.pool._m_grow_size = grow_size ∧
    w.pool._m_vector_size = next_power_of_two (max init_capacity grow_size) := by
  induction hr with
  | @ctor s h e =>
    unfold ctor at e
    have I0 := ctor_start_inv (T := T) grow_size
      (next_power_of_two (max init_capacity grow_size)) (next_power_of_two_lt _)
    obtain ⟨-, -, -, -, -, -, e5, e6, -⟩ := replenish_inv _ _ s _ h [] e I0.acc I0.fill
    exact ⟨e6, e5⟩
  | @step w w1 a hr0 e ih =>
    obtain ⟨e1, e2, -⟩ := step_frame a w w1 e (reachable_inv init_capacity grow_size w hr0)
    rw [e1, e2]; exact ih

/-- Two allocations in a row from ring positions that the mask maps to the same
entry: the second finds the entry nulled by the first and does not return. -/
theorem allocate_collision (v0 v1 : T) (s s1 : ObjectPool) (h h1 : Heap T) (r : Ptr)
    (e : allocate v0 s h = some (r, s1, h1))
    (hne : s._m_first_full_slot ≠ s._m_first_empty_slot)
    (hne1 : s._m_first_full_slot + 1 ≠ s._m_first_empty_slot)
    (hcol : (s._m_first_full_slot + 1) &&& s._m_mask = s._m_first_full_slot &&& s._m_mask) :
    allocate v1 s1 h1 = none := by
  obtain ⟨s0, h0, p, a, u, c, n, e0, hp, ha, hc, hu, hn, hf⟩ := allocate_eq_some v0 s s1 h h1 r e
  rw [if_neg hne] at e0
  simp only [Option.some.injEq, Prod.mk.injEq] at e0
  obtain ⟨rfl, rfl⟩ := e0
  have hpe : p = ⟨some a, some c⟩ := by
    obtain ⟨pp, pc⟩ := p
    simp only at ha hc
    rw [ha, hc]
  subst hpe
  have e1 := allocate_of v0 s s h h a c n u (by rw [if_neg hne]) hp hu hn hf
  rw [e] at e1
  simp only [Option.some.injEq, Prod.mk.injEq] at e1
  obtain ⟨-, rfl, rfl⟩ := e1
  have hidx : s._m_first_full_slot &&& s._m_mask < s._m_allocated_objects.length := by
    by_contra hcon
    rw [List.getElem?_eq_none (by omega)] at hp
    simp at hp
  cases e2 : allocate v1 _ _ with
  | none => rfl
  | some r2 =>
    exfalso
    obtain ⟨r2, s2, h2⟩ := r2
    obtain ⟨s3, h3, p3, a3, u3, c3, n3, e3, hp3, ha3, -⟩ := allocate_eq_some v1 _ s2 _ h2 r2 e2
    rw [if_neg (by simpa using hne1)] at e3
    simp only [Option.some.injEq, Prod.mk.injEq] at e3
    obtain ⟨rfl, rfl⟩ := e3
    simp only at hp3
    rw [hcol, List.getElem?_set, if_pos rfl, if_pos hidx] at hp3
    have := Option.some.inj hp3
    subst this
    simp [Ptr.null] at ha3


/-- Member `allocate` returns when the ring entry at the full cursor owns a slot
and the used-object table has a free entry. -/
theorem allocate_total_entry (v : T) (s : ObjectPool) (h : Heap T) (held : List Ptr)
    (a c : Nat) (A : Accounted s.handle_at h held)
    (hne : s._m_first_full_slot ≠ s._m_first_empty_slot)
    (hp : s._m_allocated_objects[s._m_first_full_slot &&& s._m_mask]? = some ⟨some a, some c⟩)
    (hf : s._m_used_object_fill_index < s._m_used_objects.length) :
    ∃ r s2 h2, allocate v s h = some (r, s2, h2) := by
  obtain ⟨⟨u, hu⟩, hc⟩ := A.live (true, _) a c hp
  exact ⟨_, _, _, allocate_of v s s h h a c _ u (by rw [if_neg hne]) hp hu hc hf⟩

/-- Member `allocate` on a drained ring returns when the grow size is positive
and the mask stays inside the ring. -/
theorem allocate_total_refill (v : T) (s : ObjectPool) (h : Heap T) (held : List Ptr)
    (A : Accounted s.handle_at h held) (F : FillOk s)
    (hm : s._m_mask < s._m_allocated_objects.length)
    (he : s._m_first_full_slot = s._m_first_empty_slot) (hg : 1 ≤ s._m_grow_size) :
    ∃ r s2 h2, allocate v s h = some (r, s2, h2) := by
  obtain ⟨s0, h0, hl⟩ := replenish_loop_isSome s._m_grow_size s h hm
  have e0 := replenish_of_loop _ s s0 h h0 hl F.fill_le
  obtain ⟨A1, F1, f1, f2, f3, f4, -, -, -, f8, -⟩ := replenish_inv _ s _ h h0 held e0 A F
  obtain ⟨-, -, e3, -, e5, -⟩ := replenish_loop_frame _ s h s0 h0 hl
  obtain ⟨a, c, hp⟩ := replenish_loop_ring _ s h s0 h0 s._m_first_full_slot hl
    (fun c h1 h2 => by omega) s._m_first_full_slot (Nat.le_refl _) (by omega)
  obtain ⟨⟨u, hu⟩, hc⟩ := A1.live (true, _) a c hp
  refine ⟨_, _, _, allocate_of v s _ h h0 a c _ u (by rw [if_pos he]; exact e0) ?_ hu hc ?_⟩
  · simp only [e3, e5]; exact hp
  · simp only at f1 f8 ⊢
    rw [f1]; omega

/-- A caller can always destroy a handle it holds. -/
theorem drop_total (w : World T) (p : Ptr) (I : Inv w) (hp : p ∈ w.held) :
    ∃ h1, World.step (Action.drop p) w = some ⟨w.pool, h1, w.held.erase p⟩ := by
  obtain ⟨a, c, n, rfl, hc, -⟩ := I.acc.drop p hp
  refine ⟨w.heap.set_cnt c (some (n + 1)), ?_⟩
  simp only [World.step, if_pos hp, Ptr.dtor_shared a c n w.heap hc]

end ObjectPool
/-! ## The example states are reachable -/

theorem test_state_0_reachable : Reachable 4 2 test_state_0 :=
  Reachable.ctor (s := test_state_0.pool) (h := test_state_0.heap) (by decide)

theorem test_state_1_reachable : Reachable 4 2 test_state_1 :=
  Reachable.step (Action.allocate 0) test_state_0_reachable (by decide)

theorem test_state_2_reachable : Reachable 4 2 test_state_2 :=
  Reachable.step (Action.drop (slot 0)) test_state_1_reachable (by decide)

theorem test_state_3_reachable : Reachable 4 2 test_state_3 :=
  Reachable.step (Action.allocate 1) test_state_2_reachable (by decide)

theorem test_state_4_reachable : Reachable 4 2 test_state_4 :=
  Reachable.step (Action.drop (slot 1)) test_state_3_reachable (by decide)

theorem test_state_5_reachable : Reachable 4 2 test_state_5 :=
  Reachable.step (Action.allocate 2) test_state_4_reachable (by decide)

theorem test_state_6_reachable : Reachable 4 2 test_state_6 :=
  Reachable.step (Action.drop (slot 2)) test_state_5_reachable (by decide)

theorem test_state_7_reachable : Reachable 4 2 test_state_7 :=
  Reachable.step (Action.allocate 3) test_state_6_reachable (by decide)

theorem test_state_8_reachable : Reachable 4 2 test_state_8 :=
  Reachable.step (Action.drop (slot 3)) test_state_7_reachable (by decide)

theorem test_state_9_reachable : Reachable 4 2 test_state_9 :=
  Reachable.step Action.gc test_state_8_reachable (by decide)

/-! ## Lifetime of handles -/

namespace Handles

variable {T : Type}

theorem slot_ne_null (k : Nat) : slot k ≠ Ptr.null := by
  simp [slot, Ptr.null]

theorem slot_inj (k j : Nat) : slot k = slot j ↔ k = j := by
  simp [slot]

end Handles
namespace Handles

variable {T : Type}

theorem obj_none_of_le (h : Heap T) (k : Nat) (hk : h.objs.length ≤ k) : h.obj k = none := by
  unfold Heap.obj
  rw [List.getD_eq_getElem?_getD, List.getElem?_eq_none hk]
  rfl

variable [Inhabited T]

end Handles
namespace Handles

variable {T : Type}

end Handles
namespace Handles

variable {T : Type} [Inhabited T]

end Handles
namespace Handles

variable {T : Type} [Inhabited T]

end Handles
/-! ## Stored handles own pairwise distinct slots -/

namespace ObjectPool

variable {T : Type}

/-- A handle waiting in the ring sits at a position between the cursors. -/
theorem mem_ring_contents (s : ObjectPool) (p : Ptr) (hl : s._m_mask < s._m_allocated_objects.length) :
    p ∈ ring_contents s ↔ ∃ c, s._m_first_full_slot ≤ c ∧ c < s._m_first_empty_slot ∧
      s._m_allocated_objects[c &&& s._m_mask]? = some p := by
  have hidx : ∀ c, c &&& s._m_mask < s._m_allocated_objects.length :=
    fun c => Nat.lt_of_le_of_lt Nat.and_le_right hl
  unfold ring_contents
  rw [List.mem_map]
  constructor
  · rintro ⟨i, hi, e⟩
    rw [List.mem_range] at hi
    refine ⟨s._m_first_full_slot + i, by omega, by omega, ?_⟩
    rw [List.getD_eq_getElem?_getD, List.getElem?_eq_getElem (hidx _)] at e
    rw [List.getElem?_eq_getElem (hidx _), ← e]
    rfl
  · rintro ⟨c, h1, h2, e⟩
    refine ⟨c - s._m_first_full_slot, List.mem_range.2 (by omega), ?_⟩
    have : s._m_first_full_slot + (c - s._m_first_full_slot) = c := by omega
    rw [this, List.getD_eq_getElem?_getD, e]
    rfl

end ObjectPool
/-! ## Serving allocations from the ring -/

namespace ObjectPool

variable {T : Type} [Inhabited T]

/-- As many allocations as the ring holds handles are served without a refill:
the empty cursor stays, the full cursor advances by their number. -/
theorem allocate_list_cursors : ∀ (vs : List T) (s : ObjectPool) (h : Heap T)
    (held rs : List Ptr) (s2 : ObjectPool) (h2 : Heap T),
    allocate_list vs s h = some (rs, s2, h2) →
    Accounted s.handle_at h held → FillOk s →
    s._m_first_full_slot + vs.length ≤ s._m_first_empty_slot →
    s2._m_first_empty_slot = s._m_first_empty_slot ∧
    s2._m_first_full_slot = s._m_first_full_slot + vs.length := by
  intro vs
  induction vs with
  | nil =>
    intro s h held rs s2 h2 e _ _ _
    simp only [allocate_list, Option.some.injEq, Prod.mk.injEq] at e
    obtain ⟨-, rfl, -⟩ := e
    exact ⟨rfl, rfl⟩
  | cons v vs ih =>
    intro s h held rs s2 h2 e A F hle
    simp only [List.length_cons] at hle
    simp only [allocate_list] at e
    cases e1 : allocate v s h with
    | none => rw [e1] at e; simp at e
    | some x =>
      obtain ⟨r, s1, h1⟩ := x
      rw [e1] at e
      simp only at e
      cases e2 : allocate_list vs s1 h1 with
      | none => rw [e2] at e; simp at e
      | some y =>
        obtain ⟨rs1, s3, h3⟩ := y
        rw [e2] at e
        simp only [Option.some.injEq, Prod.mk.injEq] at e
        obtain ⟨-, rfl, rfl⟩ := e
        obtain ⟨-, A1, F1, -, g1, g2, -⟩ := allocate_inv v s s1 h h1 r held e1 A F
        rw [if_neg (by omega)] at g2
        obtain ⟨k1, k2⟩ := ih s1 h1 (r :: held) rs1 s3 h3 e2 A1 F1 (by omega)
        constructor
        · rw [k1, g2]; rfl
        · rw [k2, g1, List.length_cons]; omega

/-- The handle returned by `allocate` is a copy of the one it stored at the fill
index of the used-object table, which is inside the table. -/
theorem allocate_writes (v : T) (s s2 : ObjectPool) (h h2 : Heap T) (r : Ptr)
    (held : List Ptr) (e : allocate v s h = some (r, s2, h2))
    (A : Accounted s.handle_at h held) (F : FillOk s) :
    s._m_used_object_fill_index < s2._m_used_objects.length ∧
    s2._m_used_objects[s._m_used_object_fill_index]? = some r := by
  unfold allocate at e
  cases e0 : (if s._m_first_full_slot = s._m_first_empty_slot
      then replenish s._m_grow_size s h else some (s, h)) with
  | none => rw [e0] at e; simp at e
  | some x =>
    obtain ⟨s1, h1⟩ := x
    obtain ⟨-, -, hfill, -⟩ := allocate_pre s s1 h h1 held e0 A F
    rw [e0] at e
    simp only at e
    cases hp : s1._m_allocated_objects[s1._m_first_full_slot &&& s1._m_mask]? with
    | none => rw [hp] at e; simp at e
    | some p =>
      rw [hp] at e
      simp only at e
      cases hc : p.construct v h1 with
      | none => rw [hc] at e; simp at e
      | some h3 =>
        rw [hc] at e
        simp only at e
        by_cases hf : s1._m_used_object_fill_index < s1._m_used_objects.length
        · rw [if_pos hf] at e
          cases hcp : p.copy_ctor h3 with
          | none => rw [hcp] at e; simp at e
          | some y =>
            obtain ⟨r1, h4⟩ := y
            rw [hcp] at e
            simp only [Option.some.injEq, Prod.mk.injEq] at e
            obtain ⟨rfl, rfl, rfl⟩ := e
            obtain ⟨c, n, -, -, hr, -⟩ := Ptr.copy_ctor_eq_some p r1 h3 h4 hcp
            simp only [List.length_set]
            rw [← hfill]
            refine ⟨hf, ?_⟩
            rw [List.getElem?_set, if_pos rfl, if_pos hf, hr]
        · rw [if_neg hf] at e
          simp at e

end ObjectPool
/-! ## Number of passes of `gc`, and `gc` run twice -/

namespace ObjectPool

variable {T : Type}

/-- Every pass over an entry that is not live lowers the fill index by one. -/
theorem gc_reclaim_fill (t : Nat) (p : Ptr) (s s1 : ObjectPool) (h h1 : Heap T)
    (ht : t < s._m_used_object_fill_index) (e : gc_reclaim t p s h = some (s1, h1)) :
    s1._m_used_object_fill_index + 1 = s._m_used_object_fill_index := by
  unfold gc_reclaim at e
  simp only at e
  split at e
  · simp at e
  · rename_i s0 h0 hr
    have hs0 : s0._m_used_object_fill_index = s._m_used_object_fill_index := by
      split at hr
      · split at hr
        · simp only [Option.some.injEq, Prod.mk.injEq] at hr
          rw [← hr.1]
        · simp at hr
      · split at hr
        · simp at hr
        · simp only [Option.some.injEq, Prod.mk.injEq] at hr
          rw [← hr.1]
    split at e
    · simp at e
    · simp only [Option.some.injEq, Prod.mk.injEq] at e
      rw [← e.1]
      simp only
      omega

/-- More fuel does not change the result of a completed loop. -/
theorem gc_loop_fuel (fuel : Nat) : ∀ (fuel1 t : Nat) (s : ObjectPool) (h : Heap T)
    (r : ObjectPool × Heap T), gc_loop fuel t s h = some r → fuel ≤ fuel1 →
    gc_loop fuel1 t s h = some r := by
  induction fuel with
  | zero =>
    intro fuel1 t s h r e _
    by_cases ht : t < s._m_used_object_fill_index
    · simp [gc_loop, ht] at e
    · rw [gc_loop_done _ _ _ _ ht] at e ⊢
      exact e
  | succ n ih =>
    intro fuel1 t s h r e hle
    obtain ⟨m, rfl⟩ : ∃ m, fuel1 = m + 1 := ⟨fuel1 - 1, by omega⟩
    by_cases ht : t < s._m_used_object_fill_index
    · obtain ⟨p, rc, hp, hrc, ⟨hl, e1⟩ | ⟨hl, s1, h1, hg, e1⟩⟩ := gc_loop_succ n t s h r e ht
      · have := ih m (t + 1) s h r e1 (by omega)
        unfold gc_loop
        rw [if_pos ht, hp]
        simp only [hrc, if_pos hl]
        exact this
      · have := ih m t s1 h1 r e1 (by omega)
        unfold gc_loop
        rw [if_pos ht, hp]
        simp only [hrc, if_neg hl, hg]
        exact this
    · rw [gc_loop_done _ _ _ _ ht] at e ⊢
      exact e

/-- A completed loop of `gc` made as many passes as there were entries between
the start index and the fill index. -/
theorem gc_passes_eq (fuel : Nat) : ∀ (t : Nat) (s : ObjectPool) (h : Heap T)
    (r : ObjectPool × Heap T), gc_loop fuel t s h = some r →
    gc_passes fuel t s h = some (s._m_used_object_fill_index - t) := by
  induction fuel with
  | zero =>
    intro t s h r e
    by_cases ht : t < s._m_used_object_fill_index
    · simp [gc_loop, ht] at e
    · simp only [gc_passes, if_neg ht]
      congr 1
      omega
  | succ n ih =>
    intro t s h r e
    by_cases ht : t < s._m_used_object_fill_index
    · obtain ⟨p, rc, hp, hrc, ⟨hl, e1⟩ | ⟨hl, s1, h1, hg, e1⟩⟩ := gc_loop_succ n t s h r e ht
      · have := ih (t + 1) s h r e1
        unfold gc_passes
        rw [if_pos ht, hp]
        simp only [hrc, if_pos hl, this, Option.map_some']
        congr 1
        omega
      · have := ih t s1 h1 r e1
        have hf := gc_reclaim_fill t p s s1 h h1 ht hg
        unfold gc_passes
        rw [if_pos ht, hp]
        simp only [hrc, if_neg hl, hg, this, Option.map_some']
        congr 1
        omega
    · simp only [gc_passes, if_neg ht]
      congr 1
      omega

/-- With every entry from the start index on live, the loop of `gc` changes
nothing. -/
theorem gc_loop_all_live (fuel : Nat) : ∀ (t : Nat) (s : ObjectPool) (h : Heap T),
    (∀ j, t ≤ j → j < s._m_used_object_fill_index →
      ∃ p rc, s._m_used_objects[j]? = some p ∧ p.get_ref_count h = some rc ∧ rc > 1) →
    s._m_used_object_fill_index - t ≤ fuel → gc_loop fuel t s h = some (s, h) := by
  induction fuel with
  | zero =>
    intro t s h _ hf
    exact gc_loop_done 0 t s h (by omega)
  | succ n ih =>
    intro t s h hall hf
    by_cases ht : t < s._m_used_object_fill_index
    · obtain ⟨p, rc, hp, hrc, hl⟩ := hall t (Nat.le_refl t) ht
      unfold gc_loop
      rw [if_pos ht, hp]
      simp only [hrc, if_pos hl]
      exact ih (t + 1) s h (fun j hj1 hj2 => hall j (by omega) hj2) (by omega)
    · exact gc_loop_done _ t s h ht

/-- After the loop of `gc`, every used entry below the fill index is held by a
caller. -/
theorem gc_loop_held (held : List Ptr) (fuel t : Nat) (s s2 : ObjectPool) (h h2 : Heap T)
    (e : gc_loop fuel t s h = some (s2, h2))
    (A : Accounted s.handle_at h held) (F : FillOk s)
    (hbelow : ∀ j p, j < t → s._m_used_objects[j]? = some p → p ∈ held) :
    ∀ j p, j < s2._m_used_object_fill_index → s2._m_used_objects[j]? = some p → p ∈ held := by
  refine gc_loop_induction
    (fun t s h => Accounted s.handle_at h held ∧ FillOk s ∧
      ∀ j p, j < t → s._m_used_objects[j]? = some p → p ∈ held)
    (fun _ _ _ s2 _ => ∀ j p, j < s2._m_used_object_fill_index →
      s2._m_used_objects[j]? = some p → p ∈ held)
    ?_ ?_ ?_ fuel t s h s2 h2 e ⟨A, F, hbelow⟩
  · intro t s h hI ht j p hj hp
    exact hI.2.2 j p (by omega) hp
  · intro t s h p rc hI ht hp hrc hl
    refine ⟨⟨hI.1, hI.2.1, ?_⟩, fun _ _ hP => hP⟩
    intro j q hj hq
    by_cases hjt : j = t
    · subst hjt
      have hq1 : q = p := Option.some.inj (hq.symm.trans hp)
      rw [hq1]
      refine (is_live_iff_held s h held hI.1 hI.2.1 j p ht hp).1 ?_
      simp [is_live, hrc, hl]
    · exact hI.2.2 j q (by omega) hq
  · intro t s h p rc s1 h1 hI ht hp hrc hl hg
    obtain ⟨A1, F1, -, -, -, -, -, -, -, hU, -⟩ :=
      gc_reclaim_inv t rc p s s1 h h1 held hg hI.1 hI.2.1 ht hp hrc hl
    refine ⟨⟨A1, F1, ?_⟩, fun _ _ hP => hP⟩
    intro j q hj hq
    rw [hU j, if_neg (by omega), if_neg (by omega)] at hq
    exact hI.2.2 j q hj hq

end ObjectPool
/-! ## `replenish` enqueues -/

namespace ObjectPool

variable {T : Type} [Inhabited T]

omit [Inhabited T] in
theorem foldl_fifo_enqueue (l q : List Ptr) : l.foldl fifo_enqueue q = q ++ l := by
  induction l generalizing q with
  | nil => simp
  | cons x l ih => simp [List.foldl_cons, ih, fifo_enqueue]

omit [Inhabited T] in
theorem fresh_handles_succ (h h1 : Heap T) (n : Nat)
    (ho : h1.objs.length = h.objs.length + 1) (hc : h1.cnts.length = h.cnts.length + 1) :
    fresh_handles h (n + 1)
      = ⟨some h.objs.length, some h.cnts.length⟩ :: fresh_handles h1 n := by
  unfold fresh_handles
  rw [List.range_succ_eq_map, List.map_cons, List.map_map, ho, hc]
  simp only [Nat.add_zero, List.cons.injEq, true_and]
  apply List.map_congr_left
  intro i _
  simp only [Function.comp_apply, Nat.succ_eq_add_one, Ptr.mk.injEq, Option.some.injEq]
  omega

/-- The loop of `replenish` on a ring with room for `n` more handles returns and
appends the `n` handles it makes to the queue, in the order it makes them. -/
theorem replenish_loop_queue (n : Nat) : ∀ (s : ObjectPool) (h : Heap T),
    (∃ k, s._m_vector_size = 2 ^ k) → s._m_mask = s._m_vector_size - 1 →
    s._m_allocated_objects.length = s._m_vector_size →
    s._m_first_full_slot ≤ s._m_first_empty_slot →
    (s._m_first_empty_slot - s._m_first_full_slot) + n ≤ s._m_vector_size →
    ∃ s1 h1, replenish_loop n s h = some (s1, h1) ∧
      ring_contents s1 = ring_contents s ++ fresh_handles h n := by
  induction n with
  | zero =>
    intro s h _ _ _ _ _
    exact ⟨s, h, rfl, by simp [fresh_handles]⟩
  | succ n ih =>
    intro s h hpow hmask hlen hord hroom
    obtain ⟨k, hk⟩ := hpow
    have hidx : s._m_first_empty_slot &&& s._m_mask < s._m_allocated_objects.length := by
      rw [hmask, hk, and_mask_eq_mod, hlen, hk]
      exact Nat.mod_lt _ (Nat.two_pow_pos k)
    have hpush := ring_contents_push s
      { s with _m_allocated_objects := s._m_allocated_objects.set
                 (s._m_first_empty_slot &&& s._m_mask)
                 ⟨some h.objs.length, some h.cnts.length⟩,
               _m_first_empty_slot := s._m_first_empty_slot + 1 }
      ⟨some h.objs.length, some h.cnts.length⟩ ⟨k, hk⟩ hmask hlen hord (by omega)
      rfl rfl rfl rfl
    obtain ⟨s1, h1, e1, hq⟩ := ih
      { s with _m_allocated_objects := s._m_allocated_objects.set
                 (s._m_first_empty_slot &&& s._m_mask)
                 ⟨some h.objs.length, some h.cnts.length⟩,
               _m_first_empty_slot := s._m_first_empty_slot + 1 }
      (Ptr.from_raw (some h.objs.length) h.new_obj.2).2
      ⟨k, hk⟩ hmask (by simpa using hlen) (by simp only; omega) (by simp only; omega)
    refine ⟨s1, h1, ?_, ?_⟩
    · rw [replenish_loop_succ, if_pos hidx]
      exact e1
    · rw [hq, hpush, List.append_assoc]
      congr 1
      rw [fresh_handles_succ h (Ptr.from_raw (some h.objs.length) h.new_obj.2).2 n]
      · rfl
      · rw [Ptr.from_raw_some]
        simp [Heap.new_obj]
      · rw [Ptr.from_raw_some]
        simp [Heap.new_obj]

end ObjectPool
/-! ## The full cursor never passes the empty cursor -/

namespace ObjectPool

variable {T : Type}

variable [Inhabited T]

end ObjectPool
/-! ## `gc`: which entries go back to the ring and which are destroyed -/

namespace ObjectPool

variable {T : Type}

end ObjectPool
/-! ## The claims -/

open ObjectPool

/-- C9. Cursor invariants: for every pool constructed with `grow_size ≥ 1` and
`max(initial_capacity, grow_size) ≤ 2 ^ 32`, every state reachable through the
constructor, `allocate`, `gc` and the callers' copies and drops satisfies
`full_cursor ≤ empty_cursor` and `empty_cursor - full_cursor ≤ capacity`. -/
theorem cursor_invariants {T : Type} [Inhabited T] (init_capacity grow_size : Nat)
    (w : World T) (hg : 1 ≤ grow_size) (hm : max init_capacity grow_size ≤ 2 ^ 32)
    (hr : Reachable init_capacity grow_size w) :
    w.pool._m_first_full_slot ≤ w.pool._m_first_empty_slot ∧
    w.pool._m_first_empty_slot - w.pool._m_first_full_slot ≤ w.pool._m_vector_size := by
  have h1 : 1 ≤ max init_capacity grow_size :=
    Nat.le_trans hg (Nat.le_max_right init_capacity grow_size)
  have R := reachable_ring init_capacity grow_size w h1 hm hr
  exact ⟨R.order, R.bound⟩

/-- Witness for C9: the state of `ObjectPool<int>(4, 2)` after four allocations,
four drops and `gc`, where the cursors are 4 and 8 and the capacity is 4. -/
theorem cursor_invariants_witness :
    (1 ≤ 2 ∧ max 4 2 ≤ 2 ^ 32 ∧ Reachable 4 2 test_state_9) ∧
    test_state_9.pool._m_first_full_slot ≤ test_state_9.pool._m_first_empty_slot ∧
    test_state_9.pool._m_first_empty_slot - test_state_9.pool._m_first_full_slot
      ≤ test_state_9.pool._m_vector_size :=
  ⟨⟨by decide, by decide, test_state_9_reachable⟩,
    cursor_invariants 4 2 test_state_9 (by decide) (by decide) test_state_9_reachable⟩

/-- C7, what the code does: copy-constructing or copy-assigning from a
default-constructed handle increments through the null `_m_ref_count`, which is
undefined behaviour; neither operation returns, whatever the free store and the
destination. -/
theorem copy_of_empty_handle_undefined {T : Type} (h : Heap T) (dst : Ptr) :
    Ptr.null.copy_ctor h = none ∧ Ptr.copy_assign dst Ptr.null h = none :=
  ⟨rfl, rfl⟩

/-- Round trip where `next_power_of_two` is exact (what C2 says, on these pools):
for every pool constructed with `grow_size ≥ 1`
and `max(initial_capacity, grow_size) ≤ 2 ^ 32`, in every reachable state and
for every value `v`, `allocate(v)` returns a handle whose `get()` is not null
and whose element reads back `v`; this includes the calls that refill a drained
ring. -/
theorem round_trip {T : Type} [Inhabited T] (init_capacity grow_size : Nat) (w : World T)
    (v : T) (hg : 1 ≤ grow_size) (hm : max init_capacity grow_size ≤ 2 ^ 32)
    (hr : Reachable init_capacity grow_size w) :
    ∃ r s2 h2 a, allocate v w.pool w.heap = some (r, s2, h2) ∧ r.get = some a ∧
      h2.obj a = some v := by
  have h1 : 1 ≤ max init_capacity grow_size :=
    Nat.le_trans hg (Nat.le_max_right init_capacity grow_size)
  have I := reachable_inv init_capacity grow_size w hr
  have R := reachable_ring init_capacity grow_size w h1 hm hr
  have hgs := (reachable_params init_capacity grow_size w hr).1
  obtain ⟨r, s2, h2, e⟩ := allocate_total v w.pool w.heap w.held I.acc I.fill R
    (by rw [hgs]; exact hg)
  obtain ⟨⟨a, c, rfl, ho, -⟩, -⟩ := allocate_inv v _ _ _ _ _ _ e I.acc I.fill
  exact ⟨_, s2, h2, a, e, rfl, ho⟩

/-- Instance of `round_trip`: `allocate(4)` in the state of `ObjectPool<int>(4, 2)`
in which all four preallocated slots are in use, so that the call refills the
ring. -/
theorem round_trip_witness :
    (1 ≤ 2 ∧ max 4 2 ≤ 2 ^ 32 ∧ Reachable 4 2 test_state_7) ∧
    ∃ r s2 h2 a, allocate (4 : Int) test_state_7.pool test_state_7.heap = some (r, s2, h2) ∧
      r.get = some a ∧ h2.obj a = some 4 :=
  ⟨⟨by decide, by decide, test_state_7_reachable⟩,
    round_trip 4 2 test_state_7 4 (by decide) (by decide) test_state_7_reachable⟩

/-- C8, as amended.  Growth on drain: for every pool constructed with
`grow_size ≥ 1` and `max(initial_capacity, grow_size) ≤ 2 ^ 32`, in every
reachable state `allocate` returns, and if `full_cursor = empty_cursor` when it
is called then afterwards `empty_cursor` has grown by `grow_size` and
`full_cursor` by one, the ring holding `grow_size - 1 ≤ capacity` handles;
otherwise `empty_cursor` is unchanged and `full_cursor` has grown by one. -/
theorem growth_on_drain {T : Type} [Inhabited T] (init_capacity grow_size : Nat)
    (w : World T) (v : T) (hg : 1 ≤ grow_size) (hm : max init_capacity grow_size ≤ 2 ^ 32)
    (hr : Reachable init_capacity grow_size w) :
    ∃ r s2 h2, allocate v w.pool w.heap = some (r, s2, h2) ∧
      (w.pool._m_first_full_slot = w.pool._m_first_empty_slot →
        s2._m_first_empty_slot = w.pool._m_first_empty_slot + grow_size ∧
        s2._m_first_full_slot = w.pool._m_first_full_slot + 1 ∧
        s2._m_first_empty_slot - s2._m_first_full_slot = grow_size - 1 ∧
        grow_size - 1 ≤ s2._m_vector_size) ∧
      (w.pool._m_first_full_slot ≠ w.pool._m_first_empty_slot →
        s2._m_first_empty_slot = w.pool._m_first_empty_slot ∧
        s2._m_first_full_slot = w.pool._m_first_full_slot + 1) := by
  have h1 : 1 ≤ max init_capacity grow_size :=
    Nat.le_trans hg (Nat.le_max_right init_capacity grow_size)
  have I := reachable_inv init_capacity grow_size w hr
  have R := reachable_ring init_capacity grow_size w h1 hm hr
  have hgs := (reachable_params init_capacity grow_size w hr).1
  obtain ⟨r, s2, h2, e⟩ := allocate_total v w.pool w.heap w.held I.acc I.fill R
    (by rw [hgs]; exact hg)
  obtain ⟨-, -, -, -, e2, e3, -, e5, -⟩ := allocate_inv v _ _ _ _ _ _ e I.acc I.fill
  refine ⟨r, s2, h2, e, ?_, ?_⟩
  · intro he
    rw [if_pos he, hgs] at e3
    have hgv := R.grow
    rw [hgs] at hgv
    refine ⟨e3, e2, by omega, by rw [e5]; omega⟩
  · intro hne
    rw [if_neg hne] at e3
    exact ⟨e3, e2⟩

/-- Witness for C8 as amended: `allocate(4)` on the drained ring of the test run
(both cursors at 4) leaves the cursors at 5 and 6. -/
theorem growth_on_drain_witness :
    (1 ≤ 2 ∧ max 4 2 ≤ 2 ^ 32 ∧ Reachable 4 2 test_state_8) ∧
    ∃ r s2 h2, allocate (4 : Int) test_state_8.pool test_state_8.heap = some (r, s2, h2) ∧
      (test_state_8.pool._m_first_full_slot = test_state_8.pool._m_first_empty_slot →
        s2._m_first_empty_slot = test_state_8.pool._m_first_empty_slot + 2 ∧
        s2._m_first_full_slot = test_state_8.pool._m_first_full_slot + 1 ∧
        s2._m_first_empty_slot - s2._m_first_full_slot = 2 - 1 ∧
        2 - 1 ≤ s2._m_vector_size) ∧
      (test_state_8.pool._m_first_full_slot ≠ test_state_8.pool._m_first_empty_slot →
        s2._m_first_empty_slot = test_state_8.pool._m_first_empty_slot ∧
        s2._m_first_full_slot = test_state_8.pool._m_first_full_slot + 1) :=
  ⟨⟨by decide, by decide, test_state_8_reachable⟩,
    growth_on_drain 4 2 test_state_8 4 (by decide) (by decide) test_state_8_reachable⟩

/-- Reclamation correctness where `next_power_of_two` is exact (what C3 says, on
these pools): for every pool constructed with
`max(initial_capacity, grow_size) ≤ 2 ^ 32`, in every reachable state, `gc`
returns, and afterwards (1) the used entries below the fill index are, as a
multiset, exactly the entries that were there with ref count above one, (2) the
fill index is their number, (3) each of them has its ref count and its element
unchanged, and (4) every entry that was there with ref count one is no longer
among them and is in the live range of the ring or has been destroyed. -/
theorem gc_reclamation {T : Type} [Inhabited T] (init_capacity grow_size : Nat)
    (w : World T) (hm : max init_capacity grow_size ≤ 2 ^ 32)
    (hr : Reachable init_capacity grow_size w) :
    ∃ s2 h2, gc w.pool w.heap = some (s2, h2) ∧
      (active_table s2).Perm ((active_table w.pool).filter (is_live w.heap)) ∧
      s2._m_used_object_fill_index
        = ((active_table w.pool).filter (is_live w.heap)).length ∧
      (∀ p, p ∈ active_table s2 → p.get_ref_count h2 = p.get_ref_count w.heap ∧
        ∀ a, p.get = some a → h2.obj a = w.heap.obj a) ∧
      (∀ p, p ∈ active_table w.pool → p.get_ref_count w.heap = some 1 →
        p ∉ active_table s2 ∧ (p ∈ ring_contents s2 ∨ released h2 p)) := by
  have I := reachable_inv init_capacity grow_size w hr
  obtain ⟨s2, h2, e⟩ := gc_loop_total w.held w.pool._m_used_object_fill_index 0 w.pool w.heap
    I.acc I.fill I.mask (by omega)
  obtain ⟨A2, F2, -⟩ := gc_loop_inv w.held _ 0 _ _ _ _ e I.acc I.fill I.mask
  refine ⟨s2, h2, e, ?_⟩
  -- the postcondition of the loop, from an empty table or from the shape of the ring
  have post : (∀ p, p ∈ active_table s2 ↔
        ∃ j, j < w.pool._m_used_object_fill_index ∧ w.pool._m_used_objects[j]? = some p ∧
          p ∈ w.held) ∧
      (∀ c, h2.cnt c = w.heap.cnt c ∨ h2.cnt c = none) ∧
      (∀ a, h2.obj a = w.heap.obj a ∨ h2.obj a = none) ∧
      (∀ j p, j < w.pool._m_used_object_fill_index → w.pool._m_used_objects[j]? = some p →
        p ∉ w.held → p ∈ ring_contents s2 ∨ released h2 p) := by
    rcases Nat.eq_zero_or_pos (max init_capacity grow_size) with h0 | h1
    · have hvs := (reachable_params init_capacity grow_size w hr).2
      rw [h0] at hvs
      have hf : w.pool._m_used_object_fill_index = 0 := I.mask.unused (by rw [hvs]; decide)
      have e1 : gc_loop w.pool._m_used_object_fill_index 0 w.pool w.heap
          = some (w.pool, w.heap) := gc_loop_done _ 0 _ _ (by omega)
      rw [e] at e1
      simp only [Option.some.injEq, Prod.mk.injEq] at e1
      obtain ⟨rfl, rfl⟩ := e1
      refine ⟨?_, fun _ => Or.inl rfl, fun _ => Or.inl rfl, ?_⟩
      · intro p
        rw [mem_active_table]
        constructor
        · rintro ⟨j, hj, -⟩; omega
        · rintro ⟨j, hj, -⟩; omega
      · intro j p hj; omega
    · have R := reachable_ring init_capacity grow_size w h1 hm hr
      obtain ⟨hM, hC, hO, -, hD⟩ := gc_loop_post w.held _ 0 _ _ _ _ e I.acc I.fill R
        (Nat.zero_le _)
      refine ⟨?_, hC, hO, fun j p hj => hD j p (Nat.zero_le _) hj⟩
      intro p
      rw [hM p]
      constructor
      · rintro (⟨j, hj, -⟩ | ⟨j, -, hj, hp, hh⟩)
        · omega
        · exact ⟨j, hj, hp, hh⟩
      · rintro ⟨j, hj, hp, hh⟩
        exact Or.inr ⟨j, Nat.zero_le _, hj, hp, hh⟩
  obtain ⟨hM, hC, hO, hD⟩ := post
  have hperm : (active_table s2).Perm ((active_table w.pool).filter (is_live w.heap)) := by
    rw [List.perm_ext_iff_of_nodup (active_table_nodup s2 h2 w.held A2 F2)
      ((active_table_nodup w.pool w.heap w.held I.acc I.fill).filter _)]
    intro p
    rw [hM p, List.mem_filter, mem_active_table]
    constructor
    · rintro ⟨j, hj, hp, hh⟩
      exact ⟨⟨j, hj, hp⟩, (is_live_iff_held w.pool w.heap w.held I.acc I.fill j p hj hp).2 hh⟩
    · rintro ⟨⟨j, hj, hp⟩, hl⟩
      exact ⟨j, hj, hp, (is_live_iff_held w.pool w.heap w.held I.acc I.fill j p hj hp).1 hl⟩
  refine ⟨hperm, ?_, ?_, ?_⟩
  · rw [← hperm.length_eq, length_active_table s2 F2]
  · intro p hp
    obtain ⟨j, hj, hpj⟩ := (mem_active_table s2 p).1 hp
    obtain ⟨a, c, hac⟩ := F2.below j hj
    rw [hpj] at hac
    have := Option.some.inj hac
    subst this
    obtain ⟨⟨v, hv⟩, hc⟩ := A2.live (false, j) a c hpj
    constructor
    · show h2.cnt c = w.heap.cnt c
      rcases hC c with e1 | e1
      · exact e1
      · rw [e1] at hc; simp at hc
    · intro a1 ha1
      have : a = a1 := Option.some.inj ha1
      subst this
      rcases hO a with e1 | e1
      · exact e1
      · rw [e1] at hv; simp at hv
  · intro p hp hrc
    obtain ⟨j, hj, hpj⟩ := (mem_active_table w.pool p).1 hp
    have hnh : p ∉ w.held := by
      intro hh
      have hl := (is_live_iff_held w.pool w.heap w.held I.acc I.fill j p hj hpj).2 hh
      unfold is_live at hl
      rw [hrc] at hl
      simp at hl
    refine ⟨?_, hD j p hj hpj hnh⟩
    intro hp2
    obtain ⟨_, _, _, hh⟩ := (hM p).1 hp2
    exact hnh hh

/-- Instance of `gc_reclamation`: `gc` in the state of the test run with four dead
used entries. -/
theorem gc_reclamation_witness :
    (max 4 2 ≤ 2 ^ 32 ∧ Reachable 4 2 test_state_8) ∧
    ∃ s2 h2, gc test_state_8.pool test_state_8.heap = some (s2, h2) ∧
      (active_table s2).Perm
        ((active_table test_state_8.pool).filter (is_live test_state_8.heap)) ∧
      s2._m_used_object_fill_index
        = ((active_table test_state_8.pool).filter (is_live test_state_8.heap)).length ∧
      (∀ p, p ∈ active_table s2 → p.get_ref_count h2 = p.get_ref_count test_state_8.heap ∧
        ∀ a, p.get = some a → h2.obj a = test_state_8.heap.obj a) ∧
      (∀ p, p ∈ active_table test_state_8.pool →
        p.get_ref_count test_state_8.heap = some 1 →
        p ∉ active_table s2 ∧ (p ∈ ring_contents s2 ∨ released h2 p)) :=
  ⟨⟨by decide, test_state_8_reachable⟩,
    gc_reclamation 4 2 test_state_8 (by decide) test_state_8_reachable⟩

/-- C1. Exact reuse order: for every pool with power-of-two capacity and its
mask, whose used-object table holds `n ≥ 1` entries `a_0, ..., a_(n-1)` that each
own a live object with ref count one, and whose ring is empty with capacity at
least `n`: `gc` returns, and the `n` calls of `allocate` that follow return
handles to the slots `a_0, a_(n-1), a_(n-2), ..., a_1` in exactly that order. -/
theorem exact_reuse_order {T : Type} [Inhabited T] (s : ObjectPool) (h : Heap T) (a0 : Ptr)
    (rest : List Ptr) (vs : List T)
    (hpow : ∃ k, s._m_vector_size = 2 ^ k) (hmask : s._m_mask = s._m_vector_size - 1)
    (hlen : s._m_allocated_objects.length = s._m_vector_size)
    (hfill : s._m_used_object_fill_index ≤ s._m_used_objects.length)
    (hempty : s._m_first_full_slot = s._m_first_empty_slot)
    (hact : active_table s = a0 :: rest)
    (hcap : (a0 :: rest).length ≤ s._m_vector_size)
    (hdead : ∀ p, p ∈ a0 :: rest →
      ∃ a c u, p = ⟨some a, some c⟩ ∧ h.cnt c = some 1 ∧ h.obj a = some u)
    (hvs : vs.length = (a0 :: rest).length) :
    ∃ s1 h1, gc s h = some (s1, h1) ∧
      ∃ s2 h2, allocate_list vs s1 h1 = some (a0 :: rest.reverse, s2, h2) := by
  have hn : s._m_used_object_fill_index = (a0 :: rest).length := by
    have := congrArg List.length hact
    unfold active_table at this
    rw [List.length_take] at this
    omega
  obtain ⟨s1, e1, f0, f1, f2, f3, f4, f5, f6, f7⟩ := gc_loop_all_dead (a0 :: rest).length
    (a0 :: rest) s h s._m_used_object_fill_index rfl hpow hmask hlen (by omega) (by omega) hn
    (by omega) (by rw [← hn]; exact hact)
    (fun p hp => by
      obtain ⟨a, c, u, e, hc, -⟩ := hdead p hp
      exact ⟨a, c, e, hc⟩) (by omega)
  refine ⟨s1, h, e1, ?_⟩
  have hq : ring_contents s1 = (a0 :: rest.reverse) ++ [] := by
    rw [f1]
    unfold ring_contents
    rw [hempty, Nat.sub_self]
    simp [recycle_order]
  exact allocate_list_queue vs (a0 :: rest.reverse) [] s1 h (by simpa using hvs)
    (by rw [f5]; exact hpow) (by rw [f4, f5]; exact hmask) (by rw [f6, f5]; exact hlen)
    (by rw [f2, f3, f5]; omega) hq
    (fun p hp => by
      have hp1 : p ∈ a0 :: rest := by
        rcases List.mem_cons.1 hp with e | e
        · rw [e]; exact List.mem_cons_self _ _
        · exact List.mem_cons_of_mem _ (List.mem_reverse.1 e)
      obtain ⟨a, c, u, e, hc, hu⟩ := hdead p hp1
      exact ⟨a, c, u, 1, e, hu, hc⟩)
    (by rw [f0, f7]; simp only [List.length_cons, List.length_reverse] at hn ⊢; omega)

/-- Witness for C1: `ObjectPool<int>(4, 2)` after four allocations whose handles
were dropped (slots 0, 1, 2, 3 in the used-object table, ring empty); `gc` and
four more allocations return the slots 0, 3, 2, 1. -/
theorem exact_reuse_order_witness :
    ((∃ k, test_state_8.pool._m_vector_size = 2 ^ k) ∧
      test_state_8.pool._m_mask = test_state_8.pool._m_vector_size - 1 ∧
      test_state_8.pool._m_allocated_objects.length = test_state_8.pool._m_vector_size ∧
      test_state_8.pool._m_used_object_fill_index ≤ test_state_8.pool._m_used_objects.length ∧
      test_state_8.pool._m_first_full_slot = test_state_8.pool._m_first_empty_slot ∧
      active_table test_state_8.pool = slot 0 :: [slot 1, slot 2, slot 3] ∧
      (slot 0 :: [slot 1, slot 2, slot 3]).length ≤ test_state_8.pool._m_vector_size ∧
      (∀ p, p ∈ slot 0 :: [slot 1, slot 2, slot 3] →
        ∃ a c u, p = ⟨some a, some c⟩ ∧ test_state_8.heap.cnt c = some 1 ∧
          test_state_8.heap.obj a = some u) ∧
      [(10 : Int), 11, 12, 13].length = (slot 0 :: [slot 1, slot 2, slot 3]).length) ∧
    ∃ s1 h1, gc test_state_8.pool test_state_8.heap = some (s1, h1) ∧
      ∃ s2 h2, allocate_list [(10 : Int), 11, 12, 13] s1 h1
        = some ([slot 0, slot 3, slot 2, slot 1], s2, h2) :=
  have hdead : ∀ p, p ∈ slot 0 :: [slot 1, slot 2, slot 3] →
      ∃ a c u, p = ⟨some a, some c⟩ ∧ test_state_8.heap.cnt c = some 1 ∧
        test_state_8.heap.obj a = some u := by
    intro p hp
    simp only [List.mem_cons, List.mem_singleton, List.not_mem_nil, or_false] at hp
    rcases hp with rfl | rfl | rfl | rfl
    · exact ⟨0, 0, 0, rfl, by decide, by decide⟩
    · exact ⟨1, 1, 1, rfl, by decide, by decide⟩
    · exact ⟨2, 2, 2, rfl, by decide, by decide⟩
    · exact ⟨3, 3, 3, rfl, by decide, by decide⟩
  ⟨⟨⟨2, by decide⟩, by decide, by decide, by decide, by decide, by decide, by decide, hdead,
      by decide⟩,
    exact_reuse_order test_state_8.pool test_state_8.heap (slot 0) [slot 1, slot 2, slot 3]
      [10, 11, 12, 13] ⟨2, by decide⟩ (by decide) (by decide) (by decide) (by decide)
      (by decide) (by decide) hdead (by decide)⟩

/-- C2, what the code does: `next_power_of_two` has no shift by 32, so it
returns `2 ^ 33 - 1` for `2 ^ 32 + 1`.  `ObjectPool<int>(2 ^ 32 + 1, 1)` has grow
size one, capacity `2 ^ 33 - 1` and mask `2 ^ 33 - 2`; cursors 0 and 1 address
the same ring entry, so that at the latest the second `allocate` finds a null
handle and does not return. -/
theorem round_trip_fails_on_large_pool :
    ∃ w : World Int, (1 : Nat) ≤ 1 ∧ Reachable (2 ^ 32 + 1) 1 w ∧
      allocate (1 : Int) w.pool w.heap = none := by
  have hnp : next_power_of_two (max (2 ^ 32 + 1) 1) = 8589934591 := by decide
  obtain ⟨s, h, e, -, e2, -, e4, e5, -⟩ :=
    ctor_total (T := Int) (2 ^ 32 + 1) 1 (by rw [hnp]; decide)
  rw [hnp] at e2
  cases e1 : allocate (1 : Int) s h with
  | none => exact ⟨⟨s, h, []⟩, Nat.le_refl _, Reachable.ctor e, e1⟩
  | some r1 =>
    obtain ⟨r, s1, h1⟩ := r1
    refine ⟨⟨s1, h1, [r]⟩, Nat.le_refl _,
      Reachable.step (Action.allocate 1) (Reachable.ctor e) (by simp [World.step, e1]), ?_⟩
    refine allocate_collision 1 1 s s1 h h1 r e1 ?_ ?_ ?_
    · rw [e4, e5]; decide
    · rw [e4, e5]; decide
    · rw [e4, e2]; decide

/-- State of `ObjectPool<int>(1, 0)` after the constructor. -/
theorem no_grow_state_0_reachable :
    Reachable 1 0 (⟨⟨0, 1, 0, 0, 1, 0, [slot 0], [Ptr.null]⟩, ⟨[some 0], [some 1]⟩, []⟩ :
      World Int) :=
  Reachable.ctor (by decide)

/-- Counterexample to C8 as stated.  (1) `ObjectPool<int>(1, 0)`: after one
`allocate` the ring is drained, the next `allocate` refills by zero, finds a null
handle and does not return.  (2) `ObjectPool<int>(2 ^ 32 + 1, 2)`, whose mask
`2 ^ 33 - 2` makes cursors 0 and 1 address the same ring entry: in a state whose
cursors differ, `allocate` does not return. -/
theorem growth_on_drain_fails :
    (∃ w : World Int, Reachable 1 0 w ∧
      w.pool._m_first_full_slot = w.pool._m_first_empty_slot ∧
      allocate (1 : Int) w.pool w.heap = none) ∧
    (∃ w : World Int, Reachable (2 ^ 32 + 1) 2 w ∧
      w.pool._m_first_full_slot ≠ w.pool._m_first_empty_slot ∧
      allocate (1 : Int) w.pool w.heap = none) := by
  constructor
  · exact ⟨⟨⟨0, 1, 0, 1, 1, 1, [Ptr.null], [slot 0]⟩, ⟨[some 0], [some 2]⟩, [slot 0]⟩,
      Reachable.step (Action.allocate 0) no_grow_state_0_reachable (by decide),
      by decide, by decide⟩
  · have hnp : next_power_of_two (max (2 ^ 32 + 1) 2) = 8589934591 := by decide
    obtain ⟨s, h, e, -, e2, -, e4, e5, -⟩ :=
      ctor_total (T := Int) (2 ^ 32 + 1) 2 (by rw [hnp]; decide)
    rw [hnp] at e2
    have hr0 : Reachable (2 ^ 32 + 1) 2 (⟨s, h, []⟩ : World Int) := Reachable.ctor e
    cases e1 : allocate (1 : Int) s h with
    | none => exact ⟨⟨s, h, []⟩, hr0, by show s._m_first_full_slot ≠ _; rw [e4, e5]; decide, e1⟩
    | some r1 =>
      obtain ⟨r, s1, h1⟩ := r1
      have I := reachable_inv _ _ _ hr0
      obtain ⟨-, -, -, -, f2, f3, -⟩ := allocate_inv 1 s s1 h h1 r [] e1 I.acc I.fill
      refine ⟨⟨s1, h1, [r]⟩,
        Reachable.step (Action.allocate 1) hr0 (by simp [World.step, e1]), ?_, ?_⟩
      · show s1._m_first_full_slot ≠ s1._m_first_empty_slot
        rw [f2, f3, e4, e5, if_neg (by decide)]; decide
      · refine allocate_collision 1 1 s s1 h h1 r e1 ?_ ?_ ?_
        · rw [e4, e5]; decide
        · rw [e4, e5]; decide
        · rw [e4, e2]; decide

/-- C3, what the code does: `next_power_of_two` has no shift by 32, so it
returns `2 ^ 33 - 1` for `2 ^ 32 + 1`.  `ObjectPool<int>(1, 2 ^ 32 + 1)` has capacity
`2 ^ 33 - 1` and mask `2 ^ 33 - 2`.  After two allocations (the second refills
the ring) whose handles are dropped, `gc` recycles both used entries into the
same ring position, `(2 ^ 32 + 2) & mask = (2 ^ 32 + 3) & mask`: the first one is
overwritten, so that a slot that was in use with ref count one is afterwards
neither in the ring nor destroyed. -/
theorem gc_loses_slot_on_large_pool :
    ∃ (w : World Int) (s2 : ObjectPool) (h2 : Heap Int) (p : Ptr),
      Reachable 1 (2 ^ 32 + 1) w ∧ gc w.pool w.heap = some (s2, h2) ∧
      p ∈ active_table w.pool ∧ p.get_ref_count w.heap = some 1 ∧
      p ∉ ring_contents s2 ∧ ¬ released h2 p := by
  have hnp : next_power_of_two (max 1 (2 ^ 32 + 1)) = 8589934591 := by decide
  obtain ⟨s0, h0, e0, c1, c2, c3, c4, c5, c6, c7, c8, c9⟩ :=
    ctor_total (T := Int) 1 (2 ^ 32 + 1) (by rw [hnp]; decide)
  rw [hnp] at c1 c2 c7 c8
  have hr0 : Reachable 1 (2 ^ 32 + 1) (⟨s0, h0, []⟩ : World Int) := Reachable.ctor e0
  have I0 := reachable_inv _ _ _ hr0
  -- first allocation, from the slot the constructor made
  obtain ⟨a, cc, hpa⟩ := c9 0 (by decide)
  obtain ⟨r1, s1, h1, e1⟩ := allocate_total_entry (0 : Int) s0 h0 [] a cc I0.acc
    (by rw [c4, c5]; decide) (by rw [c4]; exact hpa) (by rw [c6]; omega)
  have hr1 : Reachable 1 (2 ^ 32 + 1) (⟨s1, h1, [r1]⟩ : World Int) :=
    Reachable.step (Action.allocate 0) hr0 (by simp [World.step, e1])
  obtain ⟨-, -, -, f1, f2, f3, f4, f5, f6, f7, f8⟩ :=
    allocate_inv 0 s0 s1 h0 h1 r1 [] e1 I0.acc I0.fill
  rw [c4, c5, if_neg (by decide)] at f3
  rw [c4] at f2
  rw [c6] at f1
  have I1 := reachable_inv _ _ _ hr1
  -- second allocation, which refills the drained ring by 2 ^ 32 + 1
  obtain ⟨r2, s2, h2, e2⟩ := allocate_total_refill (1 : Int) s1 h1 [r1] I1.acc I1.fill
    (by rw [f4, f7, c2, c7]; decide) (by rw [f2, f3]) (by rw [f6, c3]; decide)
  have hr2 : Reachable 1 (2 ^ 32 + 1) (⟨s2, h2, [r2, r1]⟩ : World Int) :=
    Reachable.step (Action.allocate 1) hr1 (by simp [World.step, e2])
  obtain ⟨-, -, -, g1, g2, g3, g4, g5, g6, g7, g8⟩ :=
    allocate_inv 1 s1 s2 h1 h2 r2 [r1] e2 I1.acc I1.fill
  rw [f2, f3, if_pos rfl, f6, c3] at g3
  rw [f2] at g2
  rw [f1] at g1
  rw [f4, c2] at g4
  rw [f5, c1] at g5
  have g1 : s2._m_used_object_fill_index = 2 := g1
  have g2 : s2._m_first_full_slot = 2 := g2
  have g3 : s2._m_first_empty_slot = 4294967298 := g3
  have g4 : s2._m_mask = 8589934590 := g4
  have I2 := reachable_inv _ _ _ hr2
  -- both handles go out of scope
  obtain ⟨h3, d1⟩ := drop_total ⟨s2, h2, [r2, r1]⟩ r2 I2 (List.mem_cons_self _ _)
  simp only [List.erase_cons_head] at d1
  have hr3 : Reachable 1 (2 ^ 32 + 1) (⟨s2, h3, [r1]⟩ : World Int) :=
    Reachable.step (Action.drop r2) hr2 d1
  have I3 := reachable_inv _ _ _ hr3
  obtain ⟨h4, d2⟩ := drop_total ⟨s2, h3, [r1]⟩ r1 I3 (List.mem_cons_self _ _)
  simp only [List.erase_cons_head] at d2
  have hr4 : Reachable 1 (2 ^ 32 + 1) (⟨s2, h4, []⟩ : World Int) :=
    Reachable.step (Action.drop r1) hr3 d2
  have I4 := reachable_inv _ _ _ hr4
  have A4 : Accounted s2.handle_at h4 [] := I4.acc
  have F4 : FillOk s2 := I4.fill
  -- the two used entries
  obtain ⟨a0, k0, hU0⟩ := F4.below 0 (by rw [g1]; decide)
  obtain ⟨a1, k1, hU1⟩ := F4.below 1 (by rw [g1]; decide)
  have hk0 : h4.cnt k0 = some 1 := by
    have := (A4.live (false, 0) a0 k0 hU0).2
    simpa using this
  have hk1 : h4.cnt k1 = some 1 := by
    have := (A4.live (false, 1) a1 k1 hU1).2
    simpa using this
  have hne01 : (⟨some a0, some k0⟩ : Ptr) ≠ ⟨some a1, some k1⟩ := by
    intro e
    simp only [Ptr.mk.injEq, Option.some.injEq] at e
    have := A4.distinct (false, 0) (false, 1) a0 k0 a1 k1 hU0 hU1 (Or.inl e.1)
    simp at this
  -- gc
  obtain ⟨s5, h5, eg⟩ := gc_loop_total [] s2._m_used_object_fill_index 0 s2 h4 A4 F4 I4.mask
    (by omega)
  refine ⟨⟨s2, h4, []⟩, s5, h5, ⟨some a0, some k0⟩, hr4, eg,
    (mem_active_table s2 _).2 ⟨0, by rw [g1]; decide, hU0⟩, hk0, ?_, ?_⟩
  all_goals
    rw [g1] at eg
    -- first pass: entry 0 is recycled to position 2 ^ 32 + 2
    obtain ⟨p, rc, hp, hrc, ⟨hl, -⟩ | ⟨hl, s3, h3a, hg, eg1⟩⟩ :=
      gc_loop_succ 1 0 s2 h4 _ eg (by rw [g1]; decide)
    · rw [hU0] at hp
      have := Option.some.inj hp
      subst this
      have : rc = 1 := by
        have h := hrc
        simp only [Ptr.get_ref_count] at h
        rw [hk0] at h
        exact (Option.some.inj h).symm
      omega
    rw [hU0] at hp
    have := Option.some.inj hp
    subst this
    obtain ⟨A3, F3, i1, i2, i3, i4, i5, i6, i7, hU, hcase⟩ :=
      gc_reclaim_inv 0 rc _ s2 s3 h4 h3a [] hg A4 F4 (by rw [g1]; decide) hU0 hrc hl
    rcases hcase with ⟨-, hidx, i8, i9, i10⟩ | ⟨hroom, -⟩
    swap
    · exact absurd (by rw [g2, g3, g5]; decide) hroom
    rw [i9] at eg1 A3
    rw [g1] at i1 hU
    rw [g3, g4] at i10
    rw [g3] at i8
    rw [g4] at i3
    rw [g2] at i2
    rw [g5] at i4
    have hU3 : s3._m_used_objects[0]? = some ⟨some a1, some k1⟩ := by
      rw [hU 0, if_neg (by decide), if_pos rfl]; exact hU1
    -- second pass: entry 1, moved to index 0, is recycled to the same position
    obtain ⟨p, rc1, hp, hrc1, ⟨hl1, -⟩ | ⟨hl1, s4, h4a, hg1, eg2⟩⟩ :=
      gc_loop_succ 0 0 s3 h4 _ eg1 (by rw [i1]; decide)
    · rw [hU3] at hp
      have := Option.some.inj hp
      subst this
      have : rc1 = 1 := by
        have h := hrc1
        simp only [Ptr.get_ref_count] at h
        rw [hk1] at h
        exact (Option.some.inj h).symm
      omega
    rw [hU3] at hp
    have := Option.some.inj hp
    subst this
    obtain ⟨-, -, j1, j2, j3, j4, -, -, -, -, hcase1⟩ :=
      gc_reclaim_inv 0 rc1 _ s3 s4 h4 h4a [] hg1 A3 F3 (by rw [i1]; decide) hU3 hrc1 hl1
    rcases hcase1 with ⟨-, hidx1, j8, j9, j10⟩ | ⟨hroom1, -⟩
    swap
    · exact absurd (by rw [i2, i4, i8]; decide) hroom1
    rw [j9] at eg2
    rw [i8, i3] at j10
    -- the loop is over
    have hdone : gc_loop 0 0 s4 h4 = some (s4, h4) :=
      gc_loop_done 0 0 s4 h4 (by rw [j1, i1]; decide)
    rw [hdone] at eg2
    simp only [Option.some.injEq, Prod.mk.injEq] at eg2
    obtain ⟨rfl, rfl⟩ := eg2
  · -- not in the queue of the ring
    intro hmem
    unfold ring_contents at hmem
    rw [List.mem_map] at hmem
    obtain ⟨i, -, hi⟩ := hmem
    rw [List.getD_eq_getElem?_getD] at hi
    cases hq : s4._m_allocated_objects[(s4._m_first_full_slot + i) &&& s4._m_mask]? with
    | none =>
      rw [hq] at hi
      simp [Ptr.null] at hi
    | some q =>
      rw [hq] at hi
      simp only [Option.getD_some] at hi
      subst hi
      rw [j10, i10] at hq
      have hX : (4294967298 : Nat) &&& 8589934590 = (4294967298 + 1) &&& 8589934590 := by
        decide
      rw [List.getElem?_set] at hq
      split at hq
      · split at hq
        · exact hne01 (Option.some.inj hq).symm
        · simp at hq
      · rename_i hne
        rw [List.getElem?_set, if_neg (by rw [hX]; exact hne)] at hq
        have := A4.distinct (true, _) (false, 0) a0 k0 a0 k0 hq hU0 (Or.inl rfl)
        simp at this
  · -- not destroyed
    rintro ⟨a, c, e, -, hc⟩
    simp only [Ptr.mk.injEq, Option.some.injEq] at e
    obtain ⟨-, rfl⟩ := e
    rw [hk0] at hc
    simp at hc


/-- C17. On its working range `next_power_of_two` is the least power of two not
below its argument: for every `v` with `1 ≤ v ≤ 2 ^ 32` there is `k` with
`next_power_of_two v = 2 ^ k`, `v ≤ 2 ^ k` and `2 ^ k < 2 * v`; no power of two
that is at least `v` is smaller; and a power of two is mapped to itself. -/
theorem next_power_of_two_least (v : Nat) (h1 : 1 ≤ v) (h2 : v ≤ 2 ^ 32) :
    ∃ k, next_power_of_two v = 2 ^ k ∧ v ≤ 2 ^ k ∧ 2 ^ k < 2 * v ∧
      (∀ j, v ≤ 2 ^ j → next_power_of_two v ≤ 2 ^ j) ∧
      ((∃ j, v = 2 ^ j) → next_power_of_two v = v) := by
  obtain ⟨k, -, hk, hle, hlt⟩ := next_power_of_two_spec v h1 h2
  have hmin : ∀ j, v ≤ 2 ^ j → k ≤ j := by
    intro j hj
    by_contra hcon
    have h3 : 2 ^ (j + 1) ≤ 2 ^ k := Nat.pow_le_pow_right (by omega) (by omega)
    rw [Nat.pow_succ] at h3
    omega
  refine ⟨k, hk, hle, hlt, ?_, ?_⟩
  · intro j hj
    rw [hk]
    exact Nat.pow_le_pow_right (by omega) (hmin j hj)
  · rintro ⟨j, hj⟩
    have hkj : k ≤ j := hmin j (by omega)
    have hjk : j ≤ k := by
      by_contra hcon
      have h3 : 2 ^ (k + 1) ≤ 2 ^ j := Nat.pow_le_pow_right (by omega) (by omega)
      rw [Nat.pow_succ] at h3
      omega
    have : k = j := by omega
    rw [hk, hj, this]

/-- Witness for C17: the argument 5, rounded up to 8. -/
theorem next_power_of_two_least_witness :
    (1 ≤ 5 ∧ 5 ≤ 2 ^ 32) ∧
    ∃ k, next_power_of_two 5 = 2 ^ k ∧ 5 ≤ 2 ^ k ∧ 2 ^ k < 2 * 5 ∧
      (∀ j, 5 ≤ 2 ^ j → next_power_of_two 5 ≤ 2 ^ j) ∧
      ((∃ j, 5 = 2 ^ j) → next_power_of_two 5 = 5) :=
  ⟨⟨by decide, by decide⟩, next_power_of_two_least 5 (by decide) (by decide)⟩

/-- C14. Destroying a default-constructed handle, any number of times, does not
fail and leaves the free store as it is: nothing is released and every counter
keeps its value. -/
theorem destroy_empty_handle {T : Type} (n : Nat) (h : Heap T) :
    Ptr.dtor_times Ptr.null n h = some h := by
  induction n with
  | zero => rfl
  | succ n ih =>
    show (match Ptr.null.dtor h with
      | none => none
      | some h1 => Ptr.dtor_times Ptr.null n h1) = some h
    have : Ptr.null.dtor h = some h := rfl
    rw [this]
    exact ih

/-- C11, what the code does: `ObjectPool<int>(0, 0)` is constructed with capacity
0, since `next_power_of_two(0)` is 0, with mask `2 ^ 64 - 1` and with two empty
vectors, and `allocate` on that pool is undefined for every argument. -/
theorem zero_capacity_pool :
    next_power_of_two 0 = 0 ∧
    ctor (T := Int) 0 0 Heap.empty
      = some (⟨0, 0, 18446744073709551615, 0, 0, 0, [], []⟩, Heap.empty) ∧
    ∀ v : Int, allocate v ⟨0, 0, 18446744073709551615, 0, 0, 0, [], []⟩ Heap.empty = none :=
  ⟨by decide, by decide, fun _ => rfl⟩

/-- C12. Eager construction: for `initial_capacity` and `grow_size` with
`1 ≤ max(initial_capacity, grow_size) ≤ 2 ^ 32` the constructor returns a pool
with the full cursor at 0, the empty cursor at `initial_capacity` and no used
entry; the ring positions `0 .. initial_capacity - 1` each hold a handle that
owns a live object and whose counter holds 1; handles at different positions
share neither object nor counter; and `initial_capacity` allocations are served
from these handles, in order, without the empty cursor moving. -/
theorem eager_construction {T : Type} [Inhabited T] (init_capacity grow_size : Nat)
    (h1 : 1 ≤ max init_capacity grow_size) (h2 : max init_capacity grow_size ≤ 2 ^ 32) :
    ∃ (s : ObjectPool) (h : Heap T), ctor init_capacity grow_size Heap.empty = some (s, h) ∧
      s._m_first_full_slot = 0 ∧ s._m_first_empty_slot = init_capacity ∧
      s._m_used_object_fill_index = 0 ∧
      (∀ c, c < init_capacity → ∃ a cc v,
        s._m_allocated_objects[c &&& s._m_mask]? = some ⟨some a, some cc⟩ ∧
        h.obj a = some v ∧ h.cnt cc = some 1) ∧
      (∀ c c1 p p1, c < init_capacity → c1 < init_capacity → c ≠ c1 →
        s._m_allocated_objects[c &&& s._m_mask]? = some p →
        s._m_allocated_objects[c1 &&& s._m_mask]? = some p1 →
        p.get ≠ p1.get ∧ p._m_ref_count ≠ p1._m_ref_count) ∧
      (∀ vs : List T, vs.length = init_capacity →
        ∃ s2 h2, allocate_list vs s h = some (ring_contents s, s2, h2) ∧
          s2._m_first_empty_slot = init_capacity ∧
          s2._m_first_full_slot = init_capacity) := by
  obtain ⟨k, -, hnp, -, -⟩ := next_power_of_two_spec _ h1 h2
  have hpos : 0 < next_power_of_two (max init_capacity grow_size) := by
    rw [hnp]; exact Nat.two_pow_pos k
  obtain ⟨s, h, e, -, -, -, ef, ee, efi, -⟩ := ctor_total (T := T) init_capacity grow_size hpos
  have I := ctor_inv init_capacity grow_size s h e
  have R := ctor_ring init_capacity grow_size s h h1 h2 e
  have A : Accounted s.handle_at h [] := I.acc
  have F : FillOk s := I.fill
  have hb := R.bound
  have hring : ∀ c, c < init_capacity → ∃ a cc v,
      s._m_allocated_objects[c &&& s._m_mask]? = some ⟨some a, some cc⟩ ∧
      h.obj a = some v ∧ h.cnt cc = some 1 := by
    intro c hc
    obtain ⟨a, cc, hp⟩ := R.ring c (by omega) (by omega)
    obtain ⟨⟨v, hv⟩, hcnt⟩ := A.live (true, c &&& s._m_mask) a cc hp
    exact ⟨a, cc, v, hp, hv, by simpa using hcnt⟩
  refine ⟨s, h, e, ef, ee, efi, hring, ?_, ?_⟩
  · intro c c1 p p1 hc hc1 hne hp hp1
    obtain ⟨a, cc, v, hq, -, -⟩ := hring c hc
    obtain ⟨a1, cc1, v1, hq1, -, -⟩ := hring c1 hc1
    have ep : p = ⟨some a, some cc⟩ := Option.some.inj (hp.symm.trans hq)
    have ep1 : p1 = ⟨some a1, some cc1⟩ := Option.some.inj (hp1.symm.trans hq1)
    have hidx : c &&& s._m_mask ≠ c1 &&& s._m_mask := by
      rcases Nat.lt_or_gt_of_ne hne with hlt | hlt
      · exact R.and_mask_ne c c1 hlt (by omega)
      · exact fun e => R.and_mask_ne c1 c hlt (by omega) e.symm
    have hd : ∀ (_ : a = a1 ∨ cc = cc1), False := by
      intro hor
      have := A.distinct (true, c &&& s._m_mask) (true, c1 &&& s._m_mask) a cc a1 cc1 hq hq1 hor
      exact hidx (Prod.mk.inj this).2
    subst ep
    subst ep1
    constructor
    · intro e1
      exact hd (Or.inl (Option.some.inj e1))
    · intro e1
      exact hd (Or.inr (Option.some.inj e1))
  · intro vs hvs
    have hmask : s._m_mask < s._m_allocated_objects.length := by
      have := R.and_mask_lt s._m_mask
      rwa [Nat.and_self] at this
    have hqlen : (ring_contents s).length = init_capacity := by
      unfold ring_contents
      rw [List.length_map, List.length_range, ef, ee]
      rfl
    obtain ⟨s2, h2, e2⟩ := allocate_list_queue vs (ring_contents s) [] s h
      (by rw [hqlen, hvs]) R.pow2 R.mask R.len R.bound (by simp)
      (fun p hp => by
        obtain ⟨c, hc1, hc2, hpc⟩ := (mem_ring_contents s p hmask).1 hp
        obtain ⟨a, cc, v, hq, hv, hcnt⟩ := hring c (by omega)
        have ep : p = ⟨some a, some cc⟩ := Option.some.inj (hpc.symm.trans hq)
        exact ⟨a, cc, v, 1, ep, hv, hcnt⟩)
      (by have := R.room; rw [hqlen]; omega)
    obtain ⟨k1, k2⟩ := allocate_list_cursors vs s h [] _ s2 h2 e2 A F (by omega)
    exact ⟨s2, h2, e2, by rw [k1, ee], by rw [k2, ef, hvs]; omega⟩

/-- Witness for C12: `ObjectPool<int>(4, 2)`. -/
theorem eager_construction_witness :
    (1 ≤ max 4 2 ∧ max 4 2 ≤ 2 ^ 32) ∧
    ∃ (s : ObjectPool) (h : Heap Int), ctor 4 2 Heap.empty = some (s, h) ∧
      s._m_first_full_slot = 0 ∧ s._m_first_empty_slot = 4 ∧
      s._m_used_object_fill_index = 0 ∧
      (∀ c, c < 4 → ∃ a cc v,
        s._m_allocated_objects[c &&& s._m_mask]? = some ⟨some a, some cc⟩ ∧
        h.obj a = some v ∧ h.cnt cc = some 1) ∧
      (∀ c c1 p p1, c < 4 → c1 < 4 → c ≠ c1 →
        s._m_allocated_objects[c &&& s._m_mask]? = some p →
        s._m_allocated_objects[c1 &&& s._m_mask]? = some p1 →
        p.get ≠ p1.get ∧ p._m_ref_count ≠ p1._m_ref_count) ∧
      (∀ vs : List Int, vs.length = 4 →
        ∃ s2 h2, allocate_list vs s h = some (ring_contents s, s2, h2) ∧
          s2._m_first_empty_slot = 4 ∧ s2._m_first_full_slot = 4) :=
  ⟨⟨by decide, by decide⟩, eager_construction 4 2 (by decide) (by decide)⟩

/-- C16. Active-table bounds: for every pool constructed with `grow_size ≥ 1` and
`max(initial_capacity, grow_size) ≤ 2 ^ 32`, every reachable state satisfies
`(empty_cursor - full_cursor) + active_len ≤` size of the used-object table, so
`active_len` is at most that size; `allocate` returns, and the index
`active_len` at which it stored the handle is inside the table; and
`replenish(n)` returns with `active_len` unchanged, at least `n` entries from
`active_len` on, and a table that has not shrunk. -/
theorem active_table_bounds {T : Type} [Inhabited T] (init_capacity grow_size : Nat)
    (w : World T) (hg : 1 ≤ grow_size) (hm : max init_capacity grow_size ≤ 2 ^ 32)
    (hr : Reachable init_capacity grow_size w) :
    (w.pool._m_first_empty_slot - w.pool._m_first_full_slot)
        + w.pool._m_used_object_fill_index ≤ w.pool._m_used_objects.length ∧
    w.pool._m_used_object_fill_index ≤ w.pool._m_used_objects.length ∧
    (∀ v, ∃ r s2 h2, allocate v w.pool w.heap = some (r, s2, h2) ∧
      w.pool._m_used_object_fill_index < s2._m_used_objects.length ∧
      s2._m_used_objects[w.pool._m_used_object_fill_index]? = some r ∧
      s2._m_used_object_fill_index = w.pool._m_used_object_fill_index + 1) ∧
    (∀ n, ∃ s2 h2, replenish n w.pool w.heap = some (s2, h2) ∧
      s2._m_used_object_fill_index = w.pool._m_used_object_fill_index ∧
      w.pool._m_used_object_fill_index + n ≤ s2._m_used_objects.length ∧
      w.pool._m_used_objects.length ≤ s2._m_used_objects.length) := by
  have h1 : 1 ≤ max init_capacity grow_size :=
    Nat.le_trans hg (Nat.le_max_right init_capacity grow_size)
  have I := reachable_inv init_capacity grow_size w hr
  have R := reachable_ring init_capacity grow_size w h1 hm hr
  have hgs := (reachable_params init_capacity grow_size w hr).1
  refine ⟨R.room, I.fill.fill_le, ?_, ?_⟩
  · intro v
    obtain ⟨r, s2, h2, e⟩ := allocate_total v w.pool w.heap w.held I.acc I.fill R
      (by rw [hgs]; exact hg)
    obtain ⟨k1, k2⟩ := allocate_writes v _ _ _ _ _ _ e I.acc I.fill
    obtain ⟨-, -, -, k3, -⟩ := allocate_inv v _ _ _ _ _ _ e I.acc I.fill
    exact ⟨r, s2, h2, e, k1, k2, k3⟩
  · intro n
    have hmask : w.pool._m_mask < w.pool._m_allocated_objects.length := by
      have := R.and_mask_lt w.pool._m_mask
      rwa [Nat.and_self] at this
    obtain ⟨s1, h2, e1⟩ := replenish_loop_isSome n w.pool w.heap hmask
    have e2 := replenish_of_loop n w.pool s1 w.heap h2 e1 I.fill.fill_le
    obtain ⟨-, -, k1, -, -, -, -, -, -, k2, k3⟩ :=
      replenish_inv n w.pool _ w.heap h2 w.held e2 I.acc I.fill
    exact ⟨_, h2, e2, k1, k2, k3⟩

/-- Witness for C16: the state of `ObjectPool<int>(4, 2)` in which all four
preallocated slots are in use. -/
theorem active_table_bounds_witness :
    (1 ≤ 2 ∧ max 4 2 ≤ 2 ^ 32 ∧ Reachable 4 2 test_state_7) ∧
    (test_state_7.pool._m_first_empty_slot - test_state_7.pool._m_first_full_slot)
        + test_state_7.pool._m_used_object_fill_index
        ≤ test_state_7.pool._m_used_objects.length ∧
    test_state_7.pool._m_used_object_fill_index ≤ test_state_7.pool._m_used_objects.length ∧
    (∀ v, ∃ r s2 h2, allocate v test_state_7.pool test_state_7.heap = some (r, s2, h2) ∧
      test_state_7.pool._m_used_object_fill_index < s2._m_used_objects.length ∧
      s2._m_used_objects[test_state_7.pool._m_used_object_fill_index]? = some r ∧
      s2._m_used_object_fill_index = test_state_7.pool._m_used_object_fill_index + 1) ∧
    (∀ n, ∃ s2 h2, replenish n test_state_7.pool test_state_7.heap = some (s2, h2) ∧
      s2._m_used_object_fill_index = test_state_7.pool._m_used_object_fill_index ∧
      test_state_7.pool._m_used_object_fill_index + n ≤ s2._m_used_objects.length ∧
      test_state_7.pool._m_used_objects.length ≤ s2._m_used_objects.length) :=
  ⟨⟨by decide, by decide, test_state_7_reachable⟩,
    active_table_bounds 4 2 test_state_7 (by decide) (by decide) test_state_7_reachable⟩

/-- C20. `gc` terminates and is idempotent: in every reachable state of a pool,
whatever the constructor arguments, `gc` returns; its loop makes exactly
`active_len` passes, however much fuel the model is given beyond that; every
pass over an entry that is not live lowers `active_len` by one (the other passes
advance the scan index); and `gc` run again on the state it returned gives back
that same pool state and free store. -/
theorem gc_terminates_idempotent {T : Type} [Inhabited T] (init_capacity grow_size : Nat)
    (w : World T) (hr : Reachable init_capacity grow_size w) :
    ∃ s1 h1, gc w.pool w.heap = some (s1, h1) ∧
      (∀ fuel, w.pool._m_used_object_fill_index ≤ fuel →
        gc_loop fuel 0 w.pool w.heap = some (s1, h1) ∧
        gc_passes fuel 0 w.pool w.heap = some w.pool._m_used_object_fill_index) ∧
      (∀ t p (s s2 : ObjectPool) (h h2 : Heap T), t < s._m_used_object_fill_index →
        gc_reclaim t p s h = some (s2, h2) →
        s2._m_used_object_fill_index + 1 = s._m_used_object_fill_index) ∧
      gc s1 h1 = some (s1, h1) := by
  have I := reachable_inv init_capacity grow_size w hr
  obtain ⟨s1, h1, e⟩ := gc_loop_total w.held w.pool._m_used_object_fill_index 0 w.pool w.heap
    I.acc I.fill I.mask (by omega)
  obtain ⟨A1, F1, -⟩ := gc_loop_inv w.held _ 0 w.pool s1 w.heap h1 e I.acc I.fill I.mask
  have hheld := gc_loop_held w.held _ 0 w.pool s1 w.heap h1 e I.acc I.fill
    (fun j p hj _ => absurd hj (Nat.not_lt_zero j))
  refine ⟨s1, h1, e, ?_, ?_, ?_⟩
  · intro fuel hle
    have e1 := gc_loop_fuel _ fuel 0 w.pool w.heap (s1, h1) e hle
    exact ⟨e1, gc_passes_eq fuel 0 w.pool w.heap (s1, h1) e1⟩
  · intro t p s s2 h h2 ht eg
    exact gc_reclaim_fill t p s s2 h h2 ht eg
  · apply gc_loop_all_live _ 0 s1 h1 _ (by omega)
    intro j _ hj
    obtain ⟨a, c, hp⟩ := F1.below j hj
    have hl := (is_live_iff_held s1 h1 w.held A1 F1 j _ hj hp).2 (hheld j _ hj hp)
    unfold is_live at hl
    cases hrc : (⟨some a, some c⟩ : Ptr).get_ref_count h1 with
    | none => rw [hrc] at hl; simp at hl
    | some rc =>
      rw [hrc] at hl
      exact ⟨_, rc, hp, hrc, by simpa using hl⟩

/-- Witness for C20: the state of `ObjectPool<int>(4, 2)` with four used entries,
the last of them still held by the caller. -/
theorem gc_terminates_idempotent_witness :
    Reachable 4 2 test_state_7 ∧
    ∃ s1 h1, gc test_state_7.pool test_state_7.heap = some (s1, h1) ∧
      (∀ fuel, test_state_7.pool._m_used_object_fill_index ≤ fuel →
        gc_loop fuel 0 test_state_7.pool test_state_7.heap = some (s1, h1) ∧
        gc_passes fuel 0 test_state_7.pool test_state_7.heap
          = some test_state_7.pool._m_used_object_fill_index) ∧
      (∀ t p (s s2 : ObjectPool) (h h2 : Heap Int), t < s._m_used_object_fill_index →
        gc_reclaim t p s h = some (s2, h2) →
        s2._m_used_object_fill_index + 1 = s._m_used_object_fill_index) ∧
      gc s1 h1 = some (s1, h1) :=
  ⟨test_state_7_reachable, gc_terminates_idempotent 4 2 test_state_7 test_state_7_reachable⟩

/-- C18. The storage ring is a FIFO queue.  For a pool whose capacity is a power
of two, with `mask = capacity - 1`, ordered cursors, and
`empty_cursor - full_cursor ≤ capacity`, take as queue the handles at the
positions `(full_cursor + i) & mask` for `i < empty_cursor - full_cursor`.  Then
(1) `replenish(n)`, when the queue stays within the capacity, returns and
enqueues the `n` handles it makes, in order; (2) the recycle branch of `gc`
enqueues the entry it recycles; (3) `allocate` on a queue whose front owns a
live slot returns that front and leaves the rest of the queue; (4) so successive
allocations return the handles in the order in which they stand in the queue.
Nothing that waits in the queue is overwritten: each enqueue keeps what was
there. -/
theorem ring_is_fifo_queue {T : Type} [Inhabited T] (s : ObjectPool) (h : Heap T)
    (hpow : ∃ k, s._m_vector_size = 2 ^ k) (hmask : s._m_mask = s._m_vector_size - 1)
    (hlen : s._m_allocated_objects.length = s._m_vector_size)
    (hord : s._m_first_full_slot ≤ s._m_first_empty_slot)
    (hbound : s._m_first_empty_slot - s._m_first_full_slot ≤ s._m_vector_size)
    (hfill : s._m_used_object_fill_index ≤ s._m_used_objects.length) :
    (∀ n, (s._m_first_empty_slot - s._m_first_full_slot) + n ≤ s._m_vector_size →
      ∃ s1 h1, replenish n s h = some (s1, h1) ∧
        ring_contents s1 = (fresh_handles h n).foldl fifo_enqueue (ring_contents s)) ∧
    (∀ t p, t < s._m_used_object_fill_index →
      s._m_first_full_slot + s._m_vector_size > s._m_first_empty_slot →
      ∃ s1, gc_reclaim t p s h = some (s1, h) ∧
        ring_contents s1 = fifo_enqueue (ring_contents s) p) ∧
    (∀ v p rest a c u n, fifo_dequeue (ring_contents s) = some (p, rest) →
      p = ⟨some a, some c⟩ → h.obj a = some u → h.cnt c = some n →
      s._m_used_object_fill_index < s._m_used_objects.length →
      ∃ s2 h2, allocate v s h = some (p, s2, h2) ∧ ring_contents s2 = rest) ∧
    (∀ (vs : List T) q rest, ring_contents s = q ++ rest → vs.length = q.length →
      (∀ p, p ∈ q → ∃ a c u n, p = ⟨some a, some c⟩ ∧ h.obj a = some u ∧ h.cnt c = some n) →
      s._m_used_object_fill_index + q.length ≤ s._m_used_objects.length →
      ∃ s2 h2, allocate_list vs s h = some (q, s2, h2)) := by
  obtain ⟨k, hk⟩ := hpow
  have hpos : 0 < s._m_vector_size := by rw [hk]; exact Nat.two_pow_pos k
  have hidx : ∀ x, x &&& s._m_mask < s._m_allocated_objects.length := by
    intro x
    rw [hmask, hk, and_mask_eq_mod, hlen, hk]
    exact Nat.mod_lt _ (Nat.two_pow_pos k)
  refine ⟨?_, ?_, ?_, ?_⟩
  · intro n hn
    obtain ⟨s1, h1, e1, hq⟩ := replenish_loop_queue n s h ⟨k, hk⟩ hmask hlen hord hn
    obtain ⟨-, -, eF, eE, eM, -⟩ := replenish_loop_frame n s h s1 h1 e1
    refine ⟨_, h1, replenish_of_loop n s s1 h h1 e1 hfill, ?_⟩
    rw [foldl_fifo_enqueue, ← hq]
    exact ring_contents_congr s1 _ rfl rfl rfl rfl
  · intro t p ht hroom
    obtain ⟨used, -, -, e1⟩ := gc_reclaim_recycle t p s h hroom (hidx _) ht hfill
    refine ⟨_, e1, ?_⟩
    exact ring_contents_push s _ p ⟨k, hk⟩ hmask hlen hord (by omega) rfl rfl rfl rfl
  · intro v p rest a c u n hdq hp hu hn hf
    have hring : ring_contents s = p :: rest := by
      cases hrc : ring_contents s with
      | nil => rw [hrc] at hdq; simp [fifo_dequeue] at hdq
      | cons x xs =>
        rw [hrc] at hdq
        simp only [fifo_dequeue, Option.some.injEq, Prod.mk.injEq] at hdq
        rw [hdq.1, hdq.2]
    have hm : s._m_mask < s._m_allocated_objects.length := by
      have := hidx s._m_mask
      rwa [Nat.and_self] at this
    obtain ⟨hfront, hne⟩ := ring_contents_head s p rest hring hm
    have e0 : (if s._m_first_full_slot = s._m_first_empty_slot
        then replenish s._m_grow_size s h else some (s, h)) = some (s, h) := by
      rw [if_neg (by omega)]
    rw [hp] at hfront
    have e1 := allocate_of v s s h h a c n u e0 hfront hu hn hf
    have hpop := ring_contents_pop s
      { s with _m_used_objects := s._m_used_objects.set s._m_used_object_fill_index
                 ⟨some a, some c⟩,
               _m_allocated_objects := s._m_allocated_objects.set
                 (s._m_first_full_slot &&& s._m_mask) Ptr.null,
               _m_first_full_slot := s._m_first_full_slot + 1,
               _m_used_object_fill_index := s._m_used_object_fill_index + 1 }
      ⟨k, hk⟩ hmask hbound rfl rfl rfl rfl
    rw [hring, List.tail_cons] at hpop
    rw [hp]
    exact ⟨_, _, e1, hpop⟩
  · intro vs q rest hring hvs hlive hroom
    exact allocate_list_queue vs q rest s h hvs ⟨k, hk⟩ hmask hlen hbound hring hlive hroom

/-- Witness for C18: the state of `ObjectPool<int>(4, 2)` after two allocations,
with slots 2 and 3 waiting in the ring. -/
theorem ring_is_fifo_queue_witness :
    ((∃ k, test_state_4.pool._m_vector_size = 2 ^ k) ∧
      test_state_4.pool._m_mask = test_state_4.pool._m_vector_size - 1 ∧
      test_state_4.pool._m_allocated_objects.length = test_state_4.pool._m_vector_size ∧
      test_state_4.pool._m_first_full_slot ≤ test_state_4.pool._m_first_empty_slot ∧
      test_state_4.pool._m_first_empty_slot - test_state_4.pool._m_first_full_slot
        ≤ test_state_4.pool._m_vector_size ∧
      test_state_4.pool._m_used_object_fill_index
        ≤ test_state_4.pool._m_used_objects.length) ∧
    (∃ s1 h1, replenish 2 test_state_4.pool test_state_4.heap = some (s1, h1) ∧
      ring_contents s1 = (fresh_handles test_state_4.heap 2).foldl fifo_enqueue
        (ring_contents test_state_4.pool)) ∧
    (∃ s1, gc_reclaim 0 (slot 0) test_state_4.pool test_state_4.heap
        = some (s1, test_state_4.heap) ∧
      ring_contents s1 = fifo_enqueue (ring_contents test_state_4.pool) (slot 0)) ∧
    (∃ s2 h2, allocate (7 : Int) test_state_4.pool test_state_4.heap = some (slot 2, s2, h2) ∧
      ring_contents s2 = [slot 3]) ∧
    (∃ s2 h2, allocate_list [(7 : Int), 8] test_state_4.pool test_state_4.heap
      = some ([slot 2, slot 3], s2, h2)) :=
  ⟨⟨⟨2, by decide⟩, by decide, by decide, by decide, by decide, by decide⟩,
    (ring_is_fifo_queue test_state_4.pool test_state_4.heap ⟨2, by decide⟩ (by decide)
      (by decide) (by decide) (by decide) (by decide)).1 2 (by decide),
    (ring_is_fifo_queue test_state_4.pool test_state_4.heap ⟨2, by decide⟩ (by decide)
      (by decide) (by decide) (by decide) (by decide)).2.1 0 (slot 0) (by decide) (by decide),
    (ring_is_fifo_queue test_state_4.pool test_state_4.heap ⟨2, by decide⟩ (by decide)
      (by decide) (by decide) (by decide) (by decide)).2.2.1 7 (slot 2) [slot 3] 2 2 0 1
      (by decide) rfl (by decide) (by decide) (by decide),
    (ring_is_fifo_queue test_state_4.pool test_state_4.heap ⟨2, by decide⟩ (by decide)
      (by decide) (by decide) (by decide) (by decide)).2.2.2 [7, 8] [slot 2, slot 3] []
      (by decide) (by decide)
      (fun p hp => by
        rcases List.mem_cons.1 hp with e | hp1
        · exact ⟨2, 2, 0, 1, e, by decide, by decide⟩
        · rcases List.mem_cons.1 hp1 with e | hp2
          · exact ⟨3, 3, 0, 1, e, by decide, by decide⟩
          · simp at hp2)
      (by decide)⟩

end Utils
